import Mathlib

/-!
# InfiniTime theme configuration: hex colour decoder, line parser, loader, reload

Shallow embedding of `src/displayapp/InfiniTimeTheme.cpp` and
`src/displayapp/InfiniTimeTheme.h`.

Conventions of the embedding.

* A C `char` is a natural number (its byte value).  A `const char*` that points
  into a NUL-terminated buffer is the list of the bytes from the pointer up to,
  and not including, the terminator written by the program; reading at the end
  of the list reads that terminator (`peek`).  A NUL byte inside the list ends
  the C string there, exactly as in C.
* `uint32_t` arithmetic is arithmetic on `Nat` reduced modulo `2 ^ 32`.
* The width of `unsigned long` is not fixed by the sources: `parseHexColorOn`
  takes the platform's `ULONG_MAX` as an argument.  `parseHexColor`, and with it
  the loader, is the build for the firmware's target, where `unsigned long` is
  32 bits wide.
* Global variables (`Colors::*`, `themeFilesystem`, `theme`, the `style_*`
  descriptors, `inited`) are the fields of one explicit `ThemeState` record.
-/

namespace InfiniTimeTheme

/-! ## C library: strings and `strtoul` -/

/-- Byte read through a `const char*`: the head of the remaining bytes, or the
terminating NUL when nothing is left. -/
def peek : List Nat → Nat
  | [] => 0
  | c :: _ => c

/-- C `strlen`: number of bytes before the first NUL. -/
def strlen : List Nat → Nat
  | [] => 0
  | c :: cs => if c = 0 then 0 else strlen cs + 1

/-- C `strcmp(a, b) == 0`: the two strings agree up to their first NUL. -/
def strcmpEq : List Nat → List Nat → Bool
  | [], [] => true
  | [], d :: _ => d == 0
  | c :: _, [] => c == 0
  | c :: cs, d :: ds => if c = d then (if c = 0 then true else strcmpEq cs ds) else false

/-- C `isspace` in the "C" locale: space, `\t`, `\n`, `\v`, `\f`, `\r`. -/
def isspace (c : Nat) : Bool :=
  c == 32 || c == 9 || c == 10 || c == 11 || c == 12 || c == 13

/-- Value of a base-16 digit as `strtoul` reads it, `none` for any other byte. -/
def xdigit (c : Nat) : Option Nat :=
  if 48 ≤ c ∧ c ≤ 57 then some (c - 48)
  else if 65 ≤ c ∧ c ≤ 70 then some (c - 55)
  else if 97 ≤ c ∧ c ≤ 102 then some (c - 87)
  else none

/-- Number of leading white-space bytes, which `strtoul` skips. -/
def countSpaces : List Nat → Nat
  | [] => 0
  | c :: cs => if isspace c then countSpaces cs + 1 else 0

/-- Digit loop of `strtoul` in base 16: `acc` is the exact value read so far and
`n` the number of digits consumed; stops at the first byte that is not a digit. -/
def scanDigits : List Nat → Nat → Nat → Nat × Nat
  | [], acc, n => (acc, n)
  | c :: cs, acc, n =>
    match xdigit c with
    | some d => scanDigits cs (acc * 16 + d) (n + 1)
    | none => (acc, n)

/-- The `ULONG_MAX` of the firmware's target: the PineTime is an ARM Cortex-M4
built with the ILP32 ABI, where `unsigned long` is 32 bits wide. -/
def ULONG_MAX : Nat := 4294967295

/-- C `strtoul(nptr, &endptr, 16)` after ISO C 7.22.1.4, for an `unsigned long`
whose largest value is `ulongMax`.  Returns the converted value and the offset
of `endptr` from `nptr`.

The subject sequence is: optional white space, an optional `+` or `-`, an
optional `0x`/`0X` (only when a hex digit follows), then hex digits.  Without
any digit no conversion is performed and `endptr = nptr` (offset `0`).  A value
above `ulongMax` is returned as `ulongMax`; otherwise a leading `-` negates the
value in the unsigned type. -/
def strtoul (ulongMax : Nat) (nptr : List Nat) : Nat × Nat :=
  let ws := countSpaces nptr
  let s1 := nptr.drop ws
  let neg := peek s1 == 45
  let sg := if peek s1 = 45 ∨ peek s1 = 43 then 1 else 0
  let s2 := s1.drop sg
  let px :=
    match s2 with
    | 48 :: x :: d :: _ => if (x = 120 ∨ x = 88) ∧ (xdigit d).isSome then 2 else 0
    | _ => 0
  let s3 := s2.drop px
  let r := scanDigits s3 0 0
  if r.2 = 0 then (0, 0)
  else if r.1 > ulongMax then (ulongMax, ws + sg + px + r.2)
  else if neg then ((ulongMax + 1 - r.1) % (ulongMax + 1), ws + sg + px + r.2)
  else (r.1, ws + sg + px + r.2)

/-! ## Colours -/

/-- Modelled from the spec: `lv_color_t` and `LV_COLOR_MAKE` come from the LVGL
headers and `lv_conf.h`, which are not among the sources.  Section 3 of the
specification says every role "holds a 24-bit RGB value", so a colour is its
red, green and blue bytes. -/
structure lv_color_t where
  red : Nat
  green : Nat
  blue : Nat
  deriving DecidableEq, Repr

/-- Modelled from the spec: `LV_COLOR_MAKE(r8, g8, b8)` packs the three bytes
"into the target color representation" (specification 4.1). -/
def LV_COLOR_MAKE (r8 g8 b8 : Nat) : lv_color_t := ⟨r8, g8, b8⟩

/-- InfiniTimeTheme.cpp:30 `parseHexColor`, compiled for a platform whose
`unsigned long` has the largest value `ulongMax`; `hexStr = none` is the null
pointer.  `strtoul` returns an `unsigned long`, and the initialisation of
`uint32_t value` with it (line 36) keeps its low 32 bits: where `unsigned long`
is wider than 32 bits the conversion result is narrowed before the test
`value > 0xFFFFFF` sees it. -/
def parseHexColorOn (ulongMax : Nat) (hexStr : Option (List Nat)) (defaultColor : lv_color_t) :
    lv_color_t :=
  match hexStr with
  | none => defaultColor
  | some str =>
    if strlen str < 6 then defaultColor
    else
      let conv := strtoul ulongMax str
      let endptr := conv.2
      let value := conv.1 % 2 ^ 32
      if endptr = 0 ∨ peek (str.drop endptr) ≠ 0 ∨ value > 0xFFFFFF then defaultColor
      else
        let r := (value >>> 16) &&& 0xFF
        let g := (value >>> 8) &&& 0xFF
        let b := value &&& 0xFF
        LV_COLOR_MAKE r g b

/-- The `ULONG_MAX` of a platform with the LP64 ABI, where `unsigned long` is 64
bits wide. -/
def ULONG_MAX_LP64 : Nat := 18446744073709551615

/-- InfiniTimeTheme.cpp:30 `parseHexColor` as the firmware runs it: compiled for
the target, whose `unsigned long` is 32 bits wide (`ULONG_MAX`). -/
def parseHexColor (hexStr : Option (List Nat)) (defaultColor : lv_color_t) : lv_color_t :=
  parseHexColorOn ULONG_MAX hexStr defaultColor

/-- Bytes of an ASCII string literal, used to write C strings and file
contents. -/
def bytes (s : String) : List Nat := s.toList.map Char.toNat

/-! ## Line parser -/

/-- The loops `while (*line == ' ' || *line == '\t') line++` of `parseLine`
(lines 61 and 93). -/
def skipBlanks : List Nat → List Nat
  | [] => []
  | c :: cs => if c = 32 ∨ c = 9 then skipBlanks cs else c :: cs

/-- Key loop of `parseLine` (lines 70-78).  `key` is `key[0 .. keyLen)`; the
result is the key buffer and the position of `line` when the loop stops.
`maxKeyLen - 1` is computed on `Nat`; the only caller passes `sizeof(key) = 64`. -/
def keyLoop (maxKeyLen : Nat) : List Nat → List Nat → List Nat × List Nat
  | [], key => (key, [])
  | c :: cs, key =>
    if c ≠ 61 ∧ c ≠ 0 ∧ c ≠ 10 ∧ key.length < maxKeyLen - 1 then
      if c ≠ 32 ∧ c ≠ 9 then keyLoop maxKeyLen cs (key ++ [c])
      else if key.length > 0 ∧ key.getLast? ≠ some 32 then keyLoop maxKeyLen cs (key ++ [c])
      else keyLoop maxKeyLen cs key
    else (key, c :: cs)

/-- Trailing-whitespace loop of `parseLine` (lines 81-83): `keyLen` is lowered
while `key[keyLen - 1]` is a space or a tab. -/
def trimKey (key : List Nat) : List Nat :=
  (key.reverse.dropWhile (fun c => c == 32 || c == 9)).reverse

/-- Value loop of `parseLine` (lines 99-101); `value` is `value[0 .. valueLen)`. -/
def valueLoop (maxValueLen : Nat) : List Nat → List Nat → List Nat
  | [], value => value
  | c :: cs, value =>
    if c ≠ 0 ∧ c ≠ 10 ∧ c ≠ 13 ∧ value.length < maxValueLen - 1 then
      valueLoop maxValueLen cs (value ++ [c])
    else value

/-- InfiniTimeTheme.cpp:59 `parseLine`.  `some (key, value)` is the return value
`true` together with the NUL-terminated contents of the two output buffers;
`none` is the return value `false`. -/
def parseLine (line : List Nat) (maxKeyLen maxValueLen : Nat) : Option (List Nat × List Nat) :=
  let l1 := skipBlanks line
  if peek l1 = 35 ∨ peek l1 = 0 ∨ peek l1 = 10 ∨ peek l1 = 13 then none
  else
    let kl := keyLoop maxKeyLen l1 []
    let key := trimKey kl.1
    if peek kl.2 ≠ 61 ∨ key.length = 0 then none
    else
      let l3 := skipBlanks (kl.2.drop 1)
      some (key, valueLoop maxValueLen l3 [])

/-! ## Colour table (`namespace Colors` of InfiniTimeTheme.h) -/

/-- Modelled from the spec: LVGL's named colour `LV_COLOR_WHITE` (the LVGL
headers are not among the sources), with its LVGL value `0xFFFFFF`. -/
def LV_COLOR_WHITE : lv_color_t := LV_COLOR_MAKE 0xFF 0xFF 0xFF

/-- Modelled from the spec: LVGL's `LV_COLOR_SILVER`, `0xC0C0C0`. -/
def LV_COLOR_SILVER : lv_color_t := LV_COLOR_MAKE 0xC0 0xC0 0xC0

/-- Modelled from the spec: LVGL's `LV_COLOR_GRAY`, `0x808080`. -/
def LV_COLOR_GRAY : lv_color_t := LV_COLOR_MAKE 0x80 0x80 0x80

/-- Modelled from the spec: LVGL's `LV_COLOR_BLACK`, `0x000000`. -/
def LV_COLOR_BLACK : lv_color_t := LV_COLOR_MAKE 0x00 0x00 0x00

/-- Modelled from the spec: LVGL's `LV_COLOR_RED`, `0xFF0000`. -/
def LV_COLOR_RED : lv_color_t := LV_COLOR_MAKE 0xFF 0x00 0x00

/-- The constant `Colors::deepOrange`. -/
def Colors_deepOrange : lv_color_t := LV_COLOR_MAKE 0xff 0x40 0x0

/-- The constant `Colors::orange`. -/
def Colors_orange : lv_color_t := LV_COLOR_MAKE 0xff 0xb0 0x0

/-- The constant `Colors::green`. -/
def Colors_green : lv_color_t := LV_COLOR_MAKE 0x0 0xb0 0x0

/-- The constant `Colors::blue`. -/
def Colors_blue : lv_color_t := LV_COLOR_MAKE 0x0 0x50 0xff

/-- The constant `Colors::lightGray`. -/
def Colors_lightGray : lv_color_t := LV_COLOR_MAKE 0xb0 0xb0 0xb0

/-- The eight configurable `inline lv_color_t` variables of `namespace Colors`. -/
structure Colors where
  accent_light : lv_color_t
  accent : lv_color_t
  accent_dark : lv_color_t
  highlight : lv_color_t
  text_primary : lv_color_t
  text_header : lv_color_t
  page_bg : lv_color_t
  icon : lv_color_t
  deriving DecidableEq, Repr

/-- The initialisers of the configurable colours in InfiniTimeTheme.h:20-27. -/
def Colors.defaults : Colors where
  accent_light := LV_COLOR_MAKE 0x5d 0x69 0x7e
  accent := LV_COLOR_MAKE 0x38 0x38 0x38
  accent_dark := LV_COLOR_MAKE 0x18 0x18 0x18
  highlight := Colors_green
  text_primary := LV_COLOR_WHITE
  text_header := LV_COLOR_GRAY
  page_bg := LV_COLOR_BLACK
  icon := Colors_orange

/-! ## Storage collaborator -/

/-- Modelled from the spec: what `FS::FileRead` hands back (`components/fs/FS.h`
is not among the sources; specification section 6: "read(handle, buffer, max) →
byte count or error/EOF").  `error e` is the negative return value `-(e + 1)`;
`data bs` stores `bs` at the start of the buffer and returns `bs.length`. -/
inductive ReadResult where
  | error (e : Nat)
  | data (bs : List Nat)
  deriving DecidableEq, Repr

/-- Modelled from the spec: the storage collaborator `Pinetime::Controllers::FS`
as far as `loadThemeConfig` uses it: the return code of
`FileOpen(&file, "/themes/theme.cfg", LFS_O_RDONLY)` and the outcome of
`FileRead(&file, buffer, size)` as a function of `size`. -/
structure FS where
  FileOpen : Int
  FileRead : Nat → ReadResult

/-- Modelled from the spec: littlefs's success code `LFS_ERR_OK`. -/
def LFS_ERR_OK : Int := 0

/-- The `lfs_ssize_t` returned by `FileRead`. -/
def ReadResult.bytesRead : ReadResult → Int
  | .error e => -((e : Int) + 1)
  | .data bs => (bs.length : Int)

/-- The bytes `buffer[0 .. bytesRead)` after `FileRead`. -/
def ReadResult.buffer : ReadResult → List Nat
  | .error _ => []
  | .data bs => bs

/-- Modelled from the spec: a storage on which `/themes/theme.cfg` exists with
content `content`: the open succeeds and a read of `size` bytes returns the
first `size` bytes of the file. -/
def FS.withFile (content : List Nat) : FS where
  FileOpen := LFS_ERR_OK
  FileRead := fun size => ReadResult.data (content.take size)

/-! ## Loader -/

/-- The constant `constexpr size_t maxConfigSize = 1024` (line 132). -/
def maxConfigSize : Nat := 1024

/-- The value of `sizeof(line)` for `char line[256]` (line 145). -/
def sizeofLine : Nat := 256

/-- The value of `sizeof(key)` for `char key[64]` (line 146). -/
def sizeofKey : Nat := 64

/-- The value of `sizeof(value)` for `char value[64]` (line 147). -/
def sizeofValue : Nat := 64

/-- Lines 165-183 of `loadThemeConfig`: parse one line and dispatch on the key. -/
def applyConfigLine (line : List Nat) (c : Colors) : Colors :=
  match parseLine line sizeofKey sizeofValue with
  | none => c
  | some (key, value) =>
    if strcmpEq key (bytes "accent_light") then
      { c with accent_light := parseHexColor (some value) c.accent_light }
    else if strcmpEq key (bytes "accent") then
      { c with accent := parseHexColor (some value) c.accent }
    else if strcmpEq key (bytes "accent_dark") then
      { c with accent_dark := parseHexColor (some value) c.accent_dark }
    else if strcmpEq key (bytes "highlight") then
      { c with highlight := parseHexColor (some value) c.highlight }
    else if strcmpEq key (bytes "text_primary") then
      { c with text_primary := parseHexColor (some value) c.text_primary }
    else if strcmpEq key (bytes "text_header") then
      { c with text_header := parseHexColor (some value) c.text_header }
    else if strcmpEq key (bytes "page_bg") then
      { c with page_bg := parseHexColor (some value) c.page_bg }
    else if strcmpEq key (bytes "icon") then
      { c with icon := parseHexColor (some value) c.icon }
    else c

/-- The `while (lineStart < bytesRead)` loop of `loadThemeConfig` (lines
150-186).  `rest` is `configData[lineStart .. bytesRead)`.  Every iteration
advances `lineStart` by at least one, so `fuel = bytesRead` iterations are
enough (`configLoop_eq_foldl`). -/
def configLoop : Nat → List Nat → Colors → Colors
  | 0, _, c => c
  | _ + 1, [], c => c
  | fuel + 1, b :: bs, c =>
    let lineBytes := (b :: bs).takeWhile (fun x => x != 10)
    let lineLen := if lineBytes.length ≥ sizeofLine then sizeofLine - 1 else lineBytes.length
    let line := (b :: bs).take lineLen
    configLoop fuel ((b :: bs).drop (lineBytes.length + 1)) (applyConfigLine line c)

/-! ## LVGL collaborator: styles, theme record, widget tree -/

/-- Modelled from the spec: the configuration constants of LVGL (`lv_conf.h` and
the LVGL headers are not among the sources) that `basic_init` reads.  Section
4.4 of the specification calls them "a fixed set of non-configurable layout
constants"; they are parameters of the embedding. -/
structure LvConf where
  LV_DPI : Int
  LV_HOR_RES : Int
  LV_VER_RES : Int
  LV_RADIUS_CIRCLE : Int
  LV_OPA_COVER : Nat
  LV_BORDER_SIDE_FULL : Int
  deriving DecidableEq, Repr

/-- InfiniTimeTheme.cpp:19 `LV_DPX`, the constexpr replacement of the LVGL
macro; `/` is C integer division. -/
def LV_DPX (k : LvConf) (n : Int) : Int :=
  if n = 0 then 0
  else max (Int.tdiv (k.LV_DPI * n + 80) 160) 1

/-- Modelled from the spec: the widget states used by the theme (`LV_STATE_*`). -/
inductive lv_state_t where
  | DEFAULT
  | CHECKED
  | DISABLED
  | PRESSED
  deriving DecidableEq, Repr

/-- Modelled from the spec: the style attributes ("fill color, border, padding,
radius, font reference, line width, etc.", specification section 3) that
`basic_init` sets; `X` stands for `LV_STYLE_X`. -/
inductive lv_style_property_t where
  | BG_OPA
  | BG_COLOR
  | TEXT_FONT
  | TEXT_COLOR
  | TEXT_LINE_SPACE
  | VALUE_FONT
  | RADIUS
  | PAD_TOP
  | PAD_BOTTOM
  | PAD_LEFT
  | PAD_RIGHT
  | PAD_INNER
  | SIZE
  | IMAGE_RECOLOR
  | BORDER_COLOR
  | BORDER_WIDTH
  | BORDER_SIDE
  | LINE_COLOR
  | LINE_WIDTH
  | LINE_ROUNDED
  | SCALE_WIDTH
  | SCALE_GRAD_COLOR
  | SCALE_END_COLOR
  | SCALE_END_LINE_WIDTH
  | PATTERN_IMAGE
  | PATTERN_RECOLOR
  deriving DecidableEq, Repr

/-- Modelled from the spec: the value of a style attribute: an integer, a
colour, an opacity or a pointer (a font or symbol, named; `none` is null). -/
inductive lv_style_value where
  | int (v : Int)
  | color (c : lv_color_t)
  | opa (v : Nat)
  | ptr (p : Option String)
  deriving DecidableEq, Repr

/-- Modelled from the spec: a style descriptor `lv_style_t`, "a named bundle of
rendering attributes": the attributes set so far, each for one widget state, in
the order in which they were first set. -/
structure lv_style_t where
  map : List (lv_style_property_t × lv_state_t × lv_style_value)
  deriving DecidableEq, Repr

/-- Modelled from the spec: `lv_style_init`: the descriptor starts as "an empty
attribute set". -/
def lv_style_init (_style : lv_style_t) : lv_style_t := ⟨[]⟩

/-- Modelled from the spec: `lv_style_reset`: the descriptor "is reset to an
empty attribute set" (specification section 4.4). -/
def lv_style_reset (_style : lv_style_t) : lv_style_t := ⟨[]⟩

/-- Modelled from the spec: the LVGL setters `lv_style_set_x(style, state, v)`:
the attribute `x` for `state` is overwritten when the descriptor already has it
and added at the end otherwise. -/
def lv_style_t.set (style : lv_style_t) (prop : lv_style_property_t) (state : lv_state_t)
    (v : lv_style_value) : lv_style_t :=
  if style.map.any (fun e => e.1 = prop ∧ e.2.1 = state) then
    ⟨style.map.map (fun e => if e.1 = prop ∧ e.2.1 = state then (prop, state, v) else e)⟩
  else ⟨style.map ++ [(prop, state, v)]⟩

/-- Modelled from the spec: LVGL's `lv_style_set_pad_all`, which sets the top,
bottom, left and right padding. -/
def lv_style_t.set_pad_all (style : lv_style_t) (state : lv_state_t) (v : Int) : lv_style_t :=
  (((style.set .PAD_TOP state (.int v)).set .PAD_BOTTOM state (.int v)).set
    .PAD_LEFT state (.int v)).set .PAD_RIGHT state (.int v)

/-- The fields of LVGL's `lv_theme_t` that InfiniTimeTheme.cpp assigns. -/
structure lv_theme_t where
  color_primary : lv_color_t
  color_secondary : lv_color_t
  font_small : Option String
  font_normal : Option String
  font_subtitle : Option String
  font_title : Option String
  flags : Nat
  apply_xcb : Option String
  deriving DecidableEq, Repr

/-- The twenty-three `static lv_style_t style_*` descriptors (lines 224-246). -/
structure Styles where
  style_bg : lv_style_t
  style_box : lv_style_t
  style_btn : lv_style_t
  style_label_white : lv_style_t
  style_icon : lv_style_t
  style_bar_indic : lv_style_t
  style_slider_knob : lv_style_t
  style_scrollbar : lv_style_t
  style_list_btn : lv_style_t
  style_ddlist_list : lv_style_t
  style_ddlist_selected : lv_style_t
  style_sw_bg : lv_style_t
  style_sw_indic : lv_style_t
  style_sw_knob : lv_style_t
  style_arc_bg : lv_style_t
  style_arc_knob : lv_style_t
  style_arc_indic : lv_style_t
  style_table_cell : lv_style_t
  style_pad_small : lv_style_t
  style_lmeter : lv_style_t
  style_chart_serie : lv_style_t
  style_cb_bg : lv_style_t
  style_cb_bullet : lv_style_t
  deriving DecidableEq, Repr

/-- Modelled from the spec: a node of the widget tree owned by LVGL
(`lv_obj_t`): an identity and its children in the order in which
`lv_obj_get_child` enumerates them. -/
inductive lv_obj_t where
  | mk (id : Nat) (children : List lv_obj_t)

/-- Identity of a widget. -/
def lv_obj_t.id : lv_obj_t → Nat
  | .mk i _ => i

/-- Calls made to the collaborators, in program order. -/
inductive Event where
  | FileOpen
  | FileRead (size : Nat)
  | FileClose
  | lv_obj_refresh_style (obj : Nat)
  | lv_obj_invalidate (obj : Nat)
  deriving DecidableEq, Repr

/-- The process-wide state: the globals of InfiniTimeTheme.cpp and
InfiniTimeTheme.h, the active screen of LVGL (`lv_scr_act()`), and the trace of
collaborator calls made so far. -/
structure ThemeState where
  colors : Colors
  themeFilesystem : Option FS
  theme : lv_theme_t
  styles : Styles
  inited : Bool
  scr : Option lv_obj_t
  trace : List Event

/-- InfiniTimeTheme.cpp:118 `loadThemeConfig`.  The buffer after the read is
`configData[0 .. bytesRead)`; the terminator written at `buffer[bytesRead]` is
the end of that list.  A storage that returns more bytes than requested would
make the C program write outside `buffer`; the embedding then simply goes on
with the longer list. -/
def loadThemeConfig (filesystem : Option FS) (s : ThemeState) : ThemeState :=
  match filesystem with
  | none => s
  | some fs =>
    let s1 := { s with trace := s.trace ++ [Event.FileOpen] }
    if fs.FileOpen ≠ LFS_ERR_OK then s1
    else
      let rd := fs.FileRead (maxConfigSize - 1)
      let s2 := { s1 with trace := s1.trace ++ [Event.FileRead (maxConfigSize - 1), Event.FileClose] }
      if rd.bytesRead ≤ 0 then s2
      else { s2 with colors := configLoop rd.bytesRead.toNat rd.buffer s2.colors }

mutual
/-- InfiniTimeTheme.cpp:204 `refresh_object_tree` on a non-null object: the
object is refreshed, then every child in turn. -/
def refresh_object : lv_obj_t → List Event
  | .mk i children => Event.lv_obj_refresh_style i :: refresh_children children
/-- The `while (child != nullptr)` loop of `refresh_object_tree`. -/
def refresh_children : List lv_obj_t → List Event
  | [] => []
  | child :: siblings => refresh_object child ++ refresh_children siblings
end

/-- InfiniTimeTheme.cpp:204 `refresh_object_tree`; `none` is the null pointer.
The result is the list of refresh calls issued. -/
def refresh_object_tree (obj : Option lv_obj_t) : List Event :=
  match obj with
  | none => []
  | some o => refresh_object o

/-- InfiniTimeTheme.cpp:250 `style_init_reset`. -/
def style_init_reset (inited : Bool) (style : lv_style_t) : lv_style_t :=
  if inited then lv_style_reset style else lv_style_init style

/-- InfiniTimeTheme.cpp:258 `basic_init`: every descriptor is emptied
(`style_init_reset`, or `lv_style_reset` for `style_arc_knob`, `style_cb_bg` and
`style_cb_bullet`) and its attributes are set again from the colour table, the
theme's font and the layout constants. -/
def basic_init (k : LvConf) (s : ThemeState) : ThemeState :=
  { s with
    styles :=
      { style_bg :=
          style_init_reset s.inited s.styles.style_bg
            |>.set .BG_OPA .DEFAULT (.opa k.LV_OPA_COVER)
            |>.set .BG_COLOR .DEFAULT (.color s.colors.page_bg)
            |>.set .TEXT_FONT .DEFAULT (.ptr s.theme.font_normal)
        style_box :=
          style_init_reset s.inited s.styles.style_box
            |>.set .BG_OPA .DEFAULT (.opa k.LV_OPA_COVER)
            |>.set .RADIUS .DEFAULT (.int 10)
            |>.set .VALUE_FONT .DEFAULT (.ptr s.theme.font_normal)
        style_label_white :=
          style_init_reset s.inited s.styles.style_label_white
            |>.set .TEXT_COLOR .DEFAULT (.color s.colors.text_primary)
            |>.set .TEXT_COLOR .DISABLED (.color LV_COLOR_GRAY)
        style_btn :=
          style_init_reset s.inited s.styles.style_btn
            |>.set .RADIUS .DEFAULT (.int 10)
            |>.set .BG_OPA .DEFAULT (.opa k.LV_OPA_COVER)
            |>.set .BG_COLOR .DEFAULT (.color s.colors.accent_light)
            |>.set .BG_COLOR .CHECKED (.color s.colors.highlight)
            |>.set .BG_COLOR .DISABLED (.color s.colors.accent_dark)
            |>.set .TEXT_COLOR .DEFAULT (.color s.colors.text_primary)
            |>.set .TEXT_COLOR .DISABLED (.color LV_COLOR_GRAY)
            |>.set_pad_all .DEFAULT (LV_DPX k 20)
            |>.set .PAD_INNER .DEFAULT (.int (LV_DPX k 15))
        style_icon :=
          style_init_reset s.inited s.styles.style_icon
            |>.set .TEXT_COLOR .DEFAULT (.color s.colors.text_primary)
        style_bar_indic :=
          style_init_reset s.inited s.styles.style_bar_indic
            |>.set .BG_OPA .DEFAULT (.opa k.LV_OPA_COVER)
            |>.set .RADIUS .DEFAULT (.int 10)
        style_scrollbar :=
          style_init_reset s.inited s.styles.style_scrollbar
            |>.set .BG_OPA .DEFAULT (.opa k.LV_OPA_COVER)
            |>.set .RADIUS .DEFAULT (.int k.LV_RADIUS_CIRCLE)
            |>.set .BG_COLOR .DEFAULT (.color LV_COLOR_WHITE)
            |>.set .SIZE .DEFAULT (.int (Int.tdiv k.LV_HOR_RES 80))
            |>.set .PAD_RIGHT .DEFAULT (.int (Int.tdiv k.LV_HOR_RES 60))
        style_list_btn :=
          style_init_reset s.inited s.styles.style_list_btn
            |>.set .BG_OPA .DEFAULT (.opa k.LV_OPA_COVER)
            |>.set .BG_COLOR .DEFAULT (.color LV_COLOR_WHITE)
            |>.set .TEXT_COLOR .DEFAULT (.color s.colors.accent_light)
            |>.set .TEXT_COLOR .CHECKED (.color LV_COLOR_WHITE)
            |>.set .IMAGE_RECOLOR .DEFAULT (.color s.colors.accent_light)
            |>.set .IMAGE_RECOLOR .CHECKED (.color LV_COLOR_WHITE)
            |>.set .PAD_LEFT .DEFAULT (.int (Int.tdiv k.LV_HOR_RES 25))
            |>.set .PAD_RIGHT .DEFAULT (.int (Int.tdiv k.LV_HOR_RES 25))
            |>.set .PAD_TOP .DEFAULT (.int (Int.tdiv k.LV_HOR_RES 100))
            |>.set .PAD_BOTTOM .DEFAULT (.int (Int.tdiv k.LV_HOR_RES 100))
            |>.set .PAD_INNER .DEFAULT (.int (Int.tdiv k.LV_HOR_RES 50))
        style_ddlist_list :=
          style_init_reset s.inited s.styles.style_ddlist_list
            |>.set .TEXT_LINE_SPACE .DEFAULT (.int (Int.tdiv k.LV_VER_RES 25))
            |>.set .BG_COLOR .DEFAULT (.color Colors_lightGray)
            |>.set_pad_all .DEFAULT 20
        style_ddlist_selected :=
          style_init_reset s.inited s.styles.style_ddlist_selected
            |>.set .BG_OPA .DEFAULT (.opa k.LV_OPA_COVER)
            |>.set .BG_COLOR .DEFAULT (.color s.colors.accent_light)
        style_sw_bg :=
          style_init_reset s.inited s.styles.style_sw_bg
            |>.set .BG_OPA .DEFAULT (.opa k.LV_OPA_COVER)
            |>.set .BG_COLOR .DEFAULT (.color s.colors.accent_light)
            |>.set .RADIUS .DEFAULT (.int k.LV_RADIUS_CIRCLE)
        style_sw_indic :=
          style_init_reset s.inited s.styles.style_sw_indic
            |>.set .BG_OPA .DEFAULT (.opa k.LV_OPA_COVER)
            |>.set .BG_COLOR .DEFAULT (.color s.colors.highlight)
        style_sw_knob :=
          style_init_reset s.inited s.styles.style_sw_knob
            |>.set .BG_OPA .DEFAULT (.opa k.LV_OPA_COVER)
            |>.set .BG_COLOR .DEFAULT (.color LV_COLOR_SILVER)
            |>.set .BG_COLOR .CHECKED (.color LV_COLOR_WHITE)
            |>.set .RADIUS .DEFAULT (.int k.LV_RADIUS_CIRCLE)
            |>.set_pad_all .DEFAULT (-4)
        style_slider_knob :=
          style_init_reset s.inited s.styles.style_slider_knob
            |>.set .BG_OPA .DEFAULT (.opa k.LV_OPA_COVER)
            |>.set .BG_COLOR .DEFAULT (.color LV_COLOR_RED)
            |>.set .BORDER_COLOR .DEFAULT (.color LV_COLOR_WHITE)
            |>.set .BORDER_WIDTH .DEFAULT (.int 6)
            |>.set .RADIUS .DEFAULT (.int k.LV_RADIUS_CIRCLE)
            |>.set_pad_all .DEFAULT 10
            |>.set_pad_all .PRESSED 14
        style_arc_indic :=
          style_init_reset s.inited s.styles.style_arc_indic
            |>.set .LINE_COLOR .DEFAULT (.color s.colors.accent_light)
            |>.set .LINE_WIDTH .DEFAULT (.int (LV_DPX k 25))
            |>.set .LINE_ROUNDED .DEFAULT (.int 1)
        style_arc_bg :=
          style_init_reset s.inited s.styles.style_arc_bg
            |>.set .LINE_COLOR .DEFAULT (.color s.colors.accent_dark)
            |>.set .LINE_WIDTH .DEFAULT (.int (LV_DPX k 25))
            |>.set .LINE_ROUNDED .DEFAULT (.int 1)
            |>.set_pad_all .DEFAULT (LV_DPX k 5)
        style_arc_knob :=
          lv_style_reset s.styles.style_arc_knob
            |>.set .RADIUS .DEFAULT (.int k.LV_RADIUS_CIRCLE)
            |>.set .BG_OPA .DEFAULT (.opa k.LV_OPA_COVER)
            |>.set .BG_COLOR .DEFAULT (.color LV_COLOR_WHITE)
            |>.set_pad_all .DEFAULT (LV_DPX k 5)
        style_table_cell :=
          style_init_reset s.inited s.styles.style_table_cell
            |>.set .BORDER_COLOR .DEFAULT (.color LV_COLOR_GRAY)
            |>.set .BORDER_WIDTH .DEFAULT (.int 1)
            |>.set .BORDER_SIDE .DEFAULT (.int k.LV_BORDER_SIDE_FULL)
            |>.set .PAD_LEFT .DEFAULT (.int 5)
            |>.set .PAD_RIGHT .DEFAULT (.int 5)
            |>.set .PAD_TOP .DEFAULT (.int 2)
            |>.set .PAD_BOTTOM .DEFAULT (.int 2)
        style_pad_small :=
          style_init_reset s.inited s.styles.style_pad_small
            |>.set_pad_all .DEFAULT 10
            |>.set .PAD_INNER .DEFAULT (.int 10)
        style_lmeter :=
          style_init_reset s.inited s.styles.style_lmeter
            |>.set .RADIUS .DEFAULT (.int k.LV_RADIUS_CIRCLE)
            |>.set .PAD_LEFT .DEFAULT (.int (LV_DPX k 20))
            |>.set .PAD_RIGHT .DEFAULT (.int (LV_DPX k 20))
            |>.set .PAD_TOP .DEFAULT (.int (LV_DPX k 20))
            |>.set .PAD_INNER .DEFAULT (.int (LV_DPX k 30))
            |>.set .SCALE_WIDTH .DEFAULT (.int (LV_DPX k 25))
            |>.set .LINE_COLOR .DEFAULT (.color LV_COLOR_WHITE)
            |>.set .SCALE_GRAD_COLOR .DEFAULT (.color LV_COLOR_WHITE)
            |>.set .SCALE_END_COLOR .DEFAULT (.color LV_COLOR_GRAY)
            |>.set .LINE_WIDTH .DEFAULT (.int (LV_DPX k 10))
            |>.set .SCALE_END_LINE_WIDTH .DEFAULT (.int (LV_DPX k 7))
        style_chart_serie :=
          style_init_reset s.inited s.styles.style_chart_serie
            |>.set .LINE_COLOR .DEFAULT (.color LV_COLOR_WHITE)
            |>.set .LINE_WIDTH .DEFAULT (.int 4)
            |>.set .SIZE .DEFAULT (.int 4)
            |>.set .BG_OPA .DEFAULT (.opa 0)
        style_cb_bg :=
          lv_style_reset s.styles.style_cb_bg
            |>.set .RADIUS .DEFAULT (.int (LV_DPX k 4))
            |>.set .PAD_INNER .DEFAULT (.int 18)
        style_cb_bullet :=
          lv_style_reset s.styles.style_cb_bullet
            |>.set .RADIUS .DEFAULT (.int (LV_DPX k 4))
            |>.set .PATTERN_IMAGE .CHECKED (.ptr (some "LV_SYMBOL_OK"))
            |>.set .PATTERN_RECOLOR .CHECKED (.color LV_COLOR_WHITE)
            |>.set_pad_all .DEFAULT (LV_DPX k 8) } }

/-- The assignments `theme.color_primary = Colors::text_primary;
theme.color_secondary = Colors::text_header;` (lines 431-432 and 474-475). -/
def setThemeColors (s : ThemeState) : ThemeState :=
  { s with
    theme :=
      { s.theme with
        color_primary := s.colors.text_primary
        color_secondary := s.colors.text_header } }

/-- InfiniTimeTheme.cpp:415 `lv_pinetime_theme_init`. -/
def lv_pinetime_theme_init (k : LvConf) (filesystem : Option FS) (s : ThemeState) : ThemeState :=
  let s1 :=
    match filesystem with
    | some fs => loadThemeConfig (some fs) { s with themeFilesystem := some fs }
    | none => s
  let s2 := setThemeColors s1
  let s3 :=
    { s2 with
      theme :=
        { s2.theme with
          font_small := some "jetbrains_mono_bold_20"
          font_normal := some "jetbrains_mono_bold_20"
          font_subtitle := some "jetbrains_mono_bold_20"
          font_title := some "jetbrains_mono_bold_20"
          flags := 0 } }
  let s4 := basic_init k s3
  { s4 with
    theme := { s4.theme with apply_xcb := some "theme_apply" }
    inited := true }

/-- InfiniTimeTheme.cpp:448 `lv_pinetime_theme_set_filesystem`. -/
def lv_pinetime_theme_set_filesystem (filesystem : Option FS) (s : ThemeState) : ThemeState :=
  let s1 := { s with themeFilesystem := filesystem }
  if s1.inited ∧ filesystem.isSome then loadThemeConfig filesystem s1
  else s1

/-- InfiniTimeTheme.cpp:465 `lv_pinetime_theme_reload_config`. -/
def lv_pinetime_theme_reload_config (k : LvConf) (s : ThemeState) : ThemeState :=
  match s.themeFilesystem with
  | some fs =>
    let s1 := loadThemeConfig (some fs) s
    let s2 := setThemeColors s1
    let s3 := basic_init k s2
    match s3.scr with
    | some scr =>
      { s3 with
        trace := s3.trace ++ refresh_object_tree (some scr) ++ [Event.lv_obj_invalidate scr.id] }
    | none => s3
  | none => s

/-- InfiniTimeTheme.cpp:712 `lv_pinetime_theme_is_custom_loaded`; comparing the
`full` members is comparing the colours. -/
def lv_pinetime_theme_is_custom_loaded (s : ThemeState) : Bool :=
  match s.themeFilesystem with
  | none => false
  | some _ =>
    if s.colors.text_primary ≠ LV_COLOR_WHITE then true
    else
      let defaultBg := LV_COLOR_MAKE 0x5d 0x69 0x7e
      if s.colors.accent_light ≠ defaultBg then true
      else false

/-- The state at process start: the colour table holds the header's
initialisers and every other global is zero-initialised. -/
def ThemeState.initial (scr : Option lv_obj_t) : ThemeState where
  colors := Colors.defaults
  themeFilesystem := none
  theme :=
    { color_primary := ⟨0, 0, 0⟩
      color_secondary := ⟨0, 0, 0⟩
      font_small := none
      font_normal := none
      font_subtitle := none
      font_title := none
      flags := 0
      apply_xcb := none }
  styles :=
    { style_bg := ⟨[]⟩, style_box := ⟨[]⟩, style_btn := ⟨[]⟩, style_label_white := ⟨[]⟩
      style_icon := ⟨[]⟩, style_bar_indic := ⟨[]⟩, style_slider_knob := ⟨[]⟩
      style_scrollbar := ⟨[]⟩, style_list_btn := ⟨[]⟩, style_ddlist_list := ⟨[]⟩
      style_ddlist_selected := ⟨[]⟩, style_sw_bg := ⟨[]⟩, style_sw_indic := ⟨[]⟩
      style_sw_knob := ⟨[]⟩, style_arc_bg := ⟨[]⟩, style_arc_knob := ⟨[]⟩
      style_arc_indic := ⟨[]⟩, style_table_cell := ⟨[]⟩, style_pad_small := ⟨[]⟩
      style_lmeter := ⟨[]⟩, style_chart_serie := ⟨[]⟩, style_cb_bg := ⟨[]⟩
      style_cb_bullet := ⟨[]⟩ }
  inited := false
  scr := scr
  trace := []

/-! ## Vocabulary of the specification -/

/-- A hexadecimal digit `0-9A-Fa-f` (specification section 4.1). -/
def isHexDigit (c : Nat) : Bool :=
  (48 ≤ c && c ≤ 57) || (65 ≤ c && c ≤ 70) || (97 ≤ c && c ≤ 102)

/-- Numeric value of a hexadecimal digit. -/
def hexDigitValue (c : Nat) : Nat :=
  if c ≤ 57 then c - 48 else if c ≤ 70 then c - 55 else c - 87

/-- Base-16 value of a string of hexadecimal digits, most significant first. -/
def hexValue (s : List Nat) : Nat :=
  s.foldl (fun acc c => acc * 16 + hexDigitValue c) 0

/-- ASCII upper-casing of one byte. -/
def toUpper (c : Nat) : Nat :=
  if 97 ≤ c ∧ c ≤ 122 then c - 32 else c

/-- The upper-case hexadecimal digit of a value below sixteen. -/
def hexChar (d : Nat) : Nat :=
  if d < 10 then 48 + d else 55 + d

/-- The `asHex` of property P2: the red, green and blue bytes of a colour as six
upper-case hexadecimal digits. -/
def asHex (c : lv_color_t) : List Nat :=
  [hexChar (c.red / 16), hexChar (c.red % 16), hexChar (c.green / 16), hexChar (c.green % 16),
    hexChar (c.blue / 16), hexChar (c.blue % 16)]

/-- The eight overridable colour roles (specification sections 3 and 6). -/
inductive Role where
  | accent_light
  | accent
  | accent_dark
  | highlight
  | text_primary
  | text_header
  | page_bg
  | icon
  deriving DecidableEq, Repr

/-- The configuration key of a role (specification section 6). -/
def Role.name : Role → List Nat
  | .accent_light => bytes "accent_light"
  | .accent => bytes "accent"
  | .accent_dark => bytes "accent_dark"
  | .highlight => bytes "highlight"
  | .text_primary => bytes "text_primary"
  | .text_header => bytes "text_header"
  | .page_bg => bytes "page_bg"
  | .icon => bytes "icon"

/-- The colour a role holds in the colour table. -/
def Colors.get (c : Colors) : Role → lv_color_t
  | .accent_light => c.accent_light
  | .accent => c.accent
  | .accent_dark => c.accent_dark
  | .highlight => c.highlight
  | .text_primary => c.text_primary
  | .text_header => c.text_header
  | .page_bg => c.page_bg
  | .icon => c.icon

/-- The colour table with one role replaced. -/
def Colors.set (c : Colors) (r : Role) (v : lv_color_t) : Colors :=
  match r with
  | .accent_light => { c with accent_light := v }
  | .accent => { c with accent := v }
  | .accent_dark => { c with accent_dark := v }
  | .highlight => { c with highlight := v }
  | .text_primary => { c with text_primary := v }
  | .text_header => { c with text_header := v }
  | .page_bg => { c with page_bg := v }
  | .icon => { c with icon := v }

/-- The role on which the comparison chain of `loadThemeConfig` (lines 166-182)
dispatches a key, `none` when no comparison succeeds. -/
def roleOfKey (key : List Nat) : Option Role :=
  if strcmpEq key (bytes "accent_light") then some .accent_light
  else if strcmpEq key (bytes "accent") then some .accent
  else if strcmpEq key (bytes "accent_dark") then some .accent_dark
  else if strcmpEq key (bytes "highlight") then some .highlight
  else if strcmpEq key (bytes "text_primary") then some .text_primary
  else if strcmpEq key (bytes "text_header") then some .text_header
  else if strcmpEq key (bytes "page_bg") then some .page_bg
  else if strcmpEq key (bytes "icon") then some .icon
  else none

/-- The lines of a text: the runs of bytes between `\n` separators (a text that
ends in `\n` has an empty last line). -/
def fileLines : List Nat → List (List Nat)
  | [] => [[]]
  | c :: cs =>
    if c = 10 then [] :: fileLines cs
    else (c :: (fileLines cs).headD []) :: (fileLines cs).tail

/-- The decoder accepts `str` as the colour `col`: it returns `col` whatever the
fallback is. -/
def Decodes (str : List Nat) (col : lv_color_t) : Prop :=
  ∀ fallback, parseHexColor (some str) fallback = col

/-- The decoder rejects `str`: it returns the fallback, whatever it is. -/
def Rejects (str : List Nat) : Prop :=
  ∀ fallback, parseHexColor (some str) fallback = fallback

/-- A comment line: after leading spaces and tabs it begins with `#`. -/
def IsCommentLine (l : List Nat) : Prop :=
  ∃ pre rest, l = pre ++ 35 :: rest ∧ ∀ x ∈ pre, x = 32 ∨ x = 9

/-- A blank line: nothing but spaces and tabs. -/
def IsBlankLine (l : List Nat) : Prop :=
  ∀ x ∈ l, x = 32 ∨ x = 9

/-- The key that the line parser extracts from the line, if any, is none of the
eight role names (compared byte for byte, so case-sensitively). -/
def KeyIsNoRole (l : List Nat) : Prop :=
  ∀ k v, parseLine l sizeofKey sizeofValue = some (k, v) → ∀ r : Role, k ≠ r.name

/-- The line parses and the decoder rejects its value. -/
def ValueIsRejected (l : List Nat) : Prop :=
  ∃ k v, parseLine l sizeofKey sizeofValue = some (k, v) ∧ Rejects v

/-- The kinds of line that C8 lists: a comment, a blank line, a line without
`=`, a line whose key is not a role name, a line whose value is not a decodable
colour. -/
def IgnoredLine (l : List Nat) : Prop :=
  IsCommentLine l ∨ IsBlankLine l ∨ 61 ∉ l ∨ KeyIsNoRole l ∨ ValueIsRejected l

/-- A file of one line of 257 bytes: `accent=`, 242 spaces, `00FF00ZZ`.  Its
first 255 bytes end right after `00FF00`. -/
def longLineFile : List Nat :=
  bytes "accent=" ++ List.replicate 242 32 ++ bytes "00FF00ZZ"

/-- The file of scenario A followed by a second `accent` line. -/
def sampleConfig : List Nat :=
  bytes "accent=00FF00\nhighlight=GGHHII\naccent=112233\n"

/-- A file made of a comment, a blank line, a line without `=`, a line with an
unknown key, a line whose key differs from a role name in case only, and a line
with an undecodable value. -/
def ignoredConfig : List Nat :=
  bytes "# theme\n  \t\nfoo\nbar=00FF00\nAccent=00FF00\naccent=GGHHII"

/-- A comment line of 251 bytes followed by `\n`. -/
def commentLine252 : List Nat :=
  35 :: List.replicate 250 120 ++ [10]

/-- A file of 1025 bytes with lines of at most 251 bytes: four comment lines
(1008 bytes) and the line `  accent=00FF00ZZ`.  Its first 1023 bytes end right
after `00FF00`. -/
def capFile : List Nat :=
  commentLine252 ++ commentLine252 ++ commentLine252 ++ commentLine252
    ++ bytes "  accent=00FF00ZZ"

/-- The colour table that the rules of specification section 4.3 give for a
text: every line of the text, cut to its first 255 bytes, is parsed and
dispatched on its key, in order. -/
def colorsFromText (text : List Nat) (c : Colors) : Colors :=
  (fileLines text).foldl (fun acc l => applyConfigLine (l.take 255) acc) c

/-- A file of 1026 bytes: four comment lines (1008 bytes), the line
`   accent=00FF00`, whose last character is byte 1024, a `\n` and a `#`. -/
def capFile1024 : List Nat :=
  commentLine252 ++ commentLine252 ++ commentLine252 ++ commentLine252
    ++ bytes "   accent=00FF00\n#"

/-- Body of the key loop of `parseLine` (lines 71-77): the contents of
`key[0 .. keyLen)` after the byte `c` has been consumed. -/
def keyStore (key : List Nat) (c : Nat) : List Nat :=
  if c ≠ 32 ∧ c ≠ 9 then key ++ [c]
  else if key.length > 0 ∧ key.getLast? ≠ some 32 then key ++ [c]
  else key

/-- A space or a tab, the two bytes that `parseLine` treats as whitespace. -/
def isBlank (c : Nat) : Bool :=
  c == 32 || c == 9

/-- The text with every space that directly follows a space removed; `prev` is
the byte before the text. -/
def collapseAfter (prev : Nat) : List Nat → List Nat
  | [] => []
  | c :: t => if c = 32 ∧ prev = 32 then collapseAfter c t else c :: collapseAfter c t

/-- The text with every run of consecutive spaces reduced to a single space. -/
def collapseSpaces (l : List Nat) : List Nat :=
  collapseAfter 0 l

/-- No tab of the text stands next to another space or tab. -/
def TabsIsolated : List Nat → Bool
  | [] => true
  | [_] => true
  | a :: b :: t =>
    !((a == 9 && isBlank b) || (isBlank a && b == 9)) && TabsIsolated (b :: t)

/-- A line made of a 63-byte key, one space, `=` and the value `v`. -/
def longKeyLine : List Nat :=
  List.replicate 63 107 ++ bytes " =v"

/-- A line whose key text is `a`, 62 spaces and `b` (64 bytes), followed by
`=1`. -/
def wideKeyLine : List Nat :=
  97 :: List.replicate 62 32 ++ bytes "b=1"

/-- A line made of a 64-byte key without blanks, `=` and the value `v`. -/
def overlongKeyLine : List Nat :=
  List.replicate 64 107 ++ bytes "=v"

/-! ## Memory accesses

The functions below list, in program order, the accesses that `parseLine` and
`loadThemeConfig` make to their buffers.  Each follows the control flow of the
function it instruments (`skipBlanks`, `keyLoop`, `valueLoop`, `parseLine`,
`configLoop`, `loadThemeConfig`); a position is the offset of the `line`
pointer from the start of the line. -/

/-- One access to a buffer of `parseLine` (`line`, `key`, `value`) or of
`loadThemeConfig` (`buffer`, alias `configData`, and `line`): the buffer, the
index and, for a write, the byte written.  `terminateBuffer i` is the
assignment `buffer[bytesRead] = '\0'` (line 141) with `bytesRead = i`. -/
inductive Access where
  | readLine (i : Nat)
  | writeLine (i : Nat) (c : Nat)
  | readKey (i : Nat)
  | writeKey (i : Nat) (c : Nat)
  | writeValue (i : Nat) (c : Nat)
  | readBuffer (i : Nat)
  | writeBuffer (i : Nat) (c : Nat)
  | terminateBuffer (i : Nat)
  deriving DecidableEq, Repr

/-- Accesses of the loops `while (*line == ' ' || *line == '\t') line++`, entered
with `line` at position `pos`: every test reads `*line`. -/
def skipBlanksAcc : Nat → List Nat → List Access
  | pos, [] => [.readLine pos]
  | pos, c :: cs =>
    if c = 32 ∨ c = 9 then .readLine pos :: skipBlanksAcc (pos + 1) cs
    else [.readLine pos]

/-- Accesses of the key loop (lines 70-78), entered with `line` at position
`pos` and `key[0 .. keyLen)` equal to `key`: the loop test and `c = *line++`
read `*line`, a non-blank byte is written at `key[keyLen]`, a blank byte is
written there after `key[keyLen - 1]` has been read and found not to be a
space. -/
def keyLoopAcc (maxKeyLen : Nat) : Nat → List Nat → List Nat → List Access
  | pos, [], _ => [.readLine pos]
  | pos, c :: cs, key =>
    if c ≠ 61 ∧ c ≠ 0 ∧ c ≠ 10 ∧ key.length < maxKeyLen - 1 then
      if c ≠ 32 ∧ c ≠ 9 then
        .readLine pos :: .writeKey key.length c :: keyLoopAcc maxKeyLen (pos + 1) cs (key ++ [c])
      else if key.length > 0 ∧ key.getLast? ≠ some 32 then
        .readLine pos :: .readKey (key.length - 1) :: .writeKey key.length c
          :: keyLoopAcc maxKeyLen (pos + 1) cs (key ++ [c])
      else if key.length > 0 then
        .readLine pos :: .readKey (key.length - 1) :: keyLoopAcc maxKeyLen (pos + 1) cs key
      else .readLine pos :: keyLoopAcc maxKeyLen (pos + 1) cs key
    else [.readLine pos]

/-- Accesses of the trailing-whitespace loop (lines 81-83) on the reversed key
buffer: while `keyLen > 0` the byte `key[keyLen - 1]` is read. -/
def trimKeyAccRev : List Nat → List Access
  | [] => []
  | c :: r => .readKey r.length :: (if c = 32 ∨ c = 9 then trimKeyAccRev r else [])

/-- Accesses of the value loop (lines 99-101), entered with `line` at position
`pos` and `value[0 .. valueLen)` equal to `value`. -/
def valueLoopAcc (maxValueLen : Nat) : Nat → List Nat → List Nat → List Access
  | pos, [], _ => [.readLine pos]
  | pos, c :: cs, value =>
    if c ≠ 0 ∧ c ≠ 10 ∧ c ≠ 13 ∧ value.length < maxValueLen - 1 then
      .readLine pos :: .writeValue value.length c
        :: valueLoopAcc maxValueLen (pos + 1) cs (value ++ [c])
    else [.readLine pos]

/-- Accesses of `parseLine` (InfiniTimeTheme.cpp:59) to `line`, `key` and
`value`, in program order, including the terminators `key[keyLen] = '\0'` and
`value[valueLen] = '\0'`. -/
def parseLineAcc (line : List Nat) (maxKeyLen maxValueLen : Nat) : List Access :=
  let l1 := skipBlanks line
  let p1 := line.length - l1.length
  let a1 := skipBlanksAcc 0 line ++ [.readLine p1]
  if peek l1 = 35 ∨ peek l1 = 0 ∨ peek l1 = 10 ∨ peek l1 = 13 then a1
  else
    let kl := keyLoop maxKeyLen l1 []
    let p2 := line.length - kl.2.length
    let key := trimKey kl.1
    let a2 := keyLoopAcc maxKeyLen p1 l1 [] ++ trimKeyAccRev kl.1.reverse
      ++ [.writeKey key.length 0, .readLine p2]
    if peek kl.2 ≠ 61 ∨ key.length = 0 then a1 ++ a2
    else
      let l3 := skipBlanks (kl.2.drop 1)
      let p3 := line.length - l3.length
      let value := valueLoop maxValueLen l3 []
      a1 ++ a2 ++ skipBlanksAcc (p2 + 1) (kl.2.drop 1) ++ valueLoopAcc maxValueLen p3 l3 []
        ++ [.writeValue value.length 0]

/-- Accesses of the loop of `loadThemeConfig` (lines 150-186) to `configData`
and `line`, with the accesses of `parseLine` on `line`; `rest` is
`configData[lineStart .. bytesRead)`.  Per iteration: the scan for `\n` reads
`configData[lineEnd]` while `lineEnd < bytesRead`, `memcpy` copies `lineLen`
bytes into `line`, and `line[lineLen] = '\0'`. -/
def configLoopAcc : Nat → Nat → List Nat → List Access
  | 0, _, _ => []
  | _ + 1, _, [] => []
  | fuel + 1, lineStart, b :: bs =>
    let lineBytes := (b :: bs).takeWhile (fun x => x != 10)
    let scan := (List.range lineBytes.length).map (fun j => Access.readBuffer (lineStart + j))
      ++ (if lineBytes.length < (b :: bs).length then
            [Access.readBuffer (lineStart + lineBytes.length)] else [])
    let lineLen := if lineBytes.length ≥ sizeofLine then sizeofLine - 1 else lineBytes.length
    let line := (b :: bs).take lineLen
    let copy := (List.range lineLen).map (fun j => Access.readBuffer (lineStart + j))
      ++ (List.range lineLen).map (fun j => Access.writeLine j (line.getD j 0))
    scan ++ copy ++ [Access.writeLine lineLen 0] ++ parseLineAcc line sizeofKey sizeofValue
      ++ configLoopAcc fuel (lineStart + lineBytes.length + 1)
          ((b :: bs).drop (lineBytes.length + 1))

/-- Accesses of `loadThemeConfig` (InfiniTimeTheme.cpp:118) to `buffer` and
`line`, and of its calls of `parseLine`: the bytes that `FileRead` stores at the
start of `buffer`, the terminator `buffer[bytesRead] = '\0'`, and the loop. -/
def loadThemeConfigAcc (filesystem : Option FS) : List Access :=
  match filesystem with
  | none => []
  | some fs =>
    if fs.FileOpen ≠ LFS_ERR_OK then []
    else
      let rd := fs.FileRead (maxConfigSize - 1)
      let stores := (List.range rd.buffer.length).map
        (fun j => Access.writeBuffer j (rd.buffer.getD j 0))
      if rd.bytesRead ≤ 0 then stores
      else stores ++ [Access.terminateBuffer rd.bytesRead.toNat]
        ++ configLoopAcc rd.bytesRead.toNat 0 rd.buffer

/-- The access is one that `parseLine` may make when the line's terminating NUL
is at index `L` and the key and value buffers have `K` and `V` bytes: a read of
`line` at an index up to `L`, or an access to `key` below `K` or to `value`
below `V`. -/
def Access.inParseLine (L K V : Nat) : Access → Prop
  | .readLine i => i ≤ L
  | .readKey i => i < K
  | .writeKey i _ => i < K
  | .writeValue i _ => i < V
  | _ => False

/-- The access is one that the loop of `loadThemeConfig` may make when
`bytesRead` is `N`: a read of `configData` below `N`, an access to `line` below
`Ls`, or an access to `key` below `K` or to `value` below `V`. -/
def Access.inLoop (N Ls K V : Nat) : Access → Prop
  | .readLine i => i < Ls
  | .writeLine i _ => i < Ls
  | .readKey i => i < K
  | .writeKey i _ => i < K
  | .writeValue i _ => i < V
  | .readBuffer i => i < N
  | _ => False

/-- The access is within the buffers of `loadThemeConfig`: `buffer` has `B`
bytes, `line` has `Ls` bytes, `key` and `value` have `K` and `V` bytes. -/
def Access.inLoader (B Ls K V : Nat) : Access → Prop
  | .readLine i => i < Ls
  | .writeLine i _ => i < Ls
  | .readKey i => i < K
  | .writeKey i _ => i < K
  | .writeValue i _ => i < V
  | .readBuffer i => i < B
  | .writeBuffer i _ => i < B
  | .terminateBuffer i => i < B

/-- The style descriptors that `basic_init` builds from empty descriptors for
the colour table `c` and the normal font `font`: the StyleRegistry as "a pure
function of ColorRegistry's current values plus a fixed set of non-configurable
layout constants" (specification section 4.4). -/
def rebuiltStyles (k : LvConf) (c : Colors) (font : Option String) : Styles :=
  (basic_init k
    { ThemeState.initial none with
      colors := c
      theme := { (ThemeState.initial none).theme with font_normal := font } }).styles

/-- Layout constants used in the examples: a 240x240 display at 100 dpi with
the LVGL values of `LV_RADIUS_CIRCLE`, `LV_OPA_COVER` and
`LV_BORDER_SIDE_FULL`. -/
def sampleConf : LvConf :=
  ⟨100, 240, 240, 32767, 255, 15⟩

/-- The Initialized state reached from process start by
`lv_pinetime_theme_init(nullptr)`, with a screen of two widgets. -/
def initedState : ThemeState :=
  lv_pinetime_theme_init sampleConf none (ThemeState.initial (some (.mk 1 [.mk 2 []])))

/-- A storage whose theme file sets `text_primary` to red. -/
def redTextStorage : FS :=
  FS.withFile (bytes "text_primary=FF0000\n")

/-- A state with storage attached in which only `accent` differs from its
compiled-in default. -/
def accentOnlyState : ThemeState :=
  { ThemeState.initial none with
    themeFilesystem := some (FS.withFile (bytes "accent=010203\n"))
    colors := { Colors.defaults with accent := LV_COLOR_MAKE 1 2 3 } }

/-- A state with storage attached in which only `page_bg` differs from its
compiled-in default. -/
def pageBgOnlyState : ThemeState :=
  { ThemeState.initial none with
    themeFilesystem := some (FS.withFile (bytes "page_bg=010203\n"))
    colors := { Colors.defaults with page_bg := LV_COLOR_MAKE 1 2 3 } }

/-- An Initialized state with storage attached whose descriptor `style_bg` holds
attributes that no rebuild sets: a stale background colour and a border width. -/
def staleState : ThemeState :=
  { initedState with
    themeFilesystem := some (FS.withFile sampleConfig)
    styles :=
      { initedState.styles with
        style_bg := ⟨[(.BG_COLOR, .DEFAULT, .color ⟨9, 9, 9⟩), (.BORDER_WIDTH, .DEFAULT, .int 3)]⟩ } }

/-- The assignment `buf[i] = c` on a buffer of which the bytes `buf` have been
written so far: an index below `buf.length` is overwritten, the index
`buf.length` extends the written part. -/
def writeAt (buf : List Nat) (i c : Nat) : List Nat :=
  if i < buf.length then buf.set i c else buf ++ [c]

/-- The written part of the `key` buffer after the accesses `acc`, starting from
the written part `key`. -/
def replayKey : List Access → List Nat → List Nat
  | [], key => key
  | .writeKey i c :: acc, key => replayKey acc (writeAt key i c)
  | _ :: acc, key => replayKey acc key

/-- The written part of the `value` buffer after the accesses `acc`, starting
from the written part `value`. -/
def replayValue : List Access → List Nat → List Nat
  | [], value => value
  | .writeValue i c :: acc, value => replayValue acc (writeAt value i c)
  | _ :: acc, value => replayValue acc value

/-- The C string held by a buffer: its bytes before the first NUL. -/
def cstring (buf : List Nat) : List Nat :=
  buf.takeWhile (fun x => x != 0)

/-- A storage on which `/themes/theme.cfg` does not exist: the open fails with
`LFS_ERR_NOENT` (-2). -/
def noFileStorage : FS where
  FileOpen := -2
  FileRead := fun _ => ReadResult.error 1

/-- The children of a widget, in the order of `lv_obj_get_child`. -/
def lv_obj_t.children : lv_obj_t → List lv_obj_t
  | .mk _ cs => cs

mutual
/-- The nodes of a widget tree: the widget and the nodes of its children's
trees. -/
def lv_obj_t.nodes : lv_obj_t → List lv_obj_t
  | .mk i cs => .mk i cs :: nodesOfList cs
/-- The nodes of a list of widget trees. -/
def nodesOfList : List lv_obj_t → List lv_obj_t
  | [] => []
  | c :: cs => c.nodes ++ nodesOfList cs
end

/-- The identities (addresses) of the nodes of a widget tree. -/
def lv_obj_t.ids (t : lv_obj_t) : List Nat :=
  t.nodes.map lv_obj_t.id

/-- A screen with two children, the first of which has two children of its
own. -/
def sampleScreen : lv_obj_t :=
  .mk 1 [.mk 2 [.mk 3 [], .mk 4 []], .mk 5 []]

/-- A storage whose open succeeds and whose read fails with `LFS_ERR_IO` (-5). -/
def readErrorStorage : FS where
  FileOpen := LFS_ERR_OK
  FileRead := fun _ => ReadResult.error 4

/-- A file whose first line is the 257-byte line of `longLineFile` and whose
second line sets `icon`. -/
def longLineThenIcon : List Nat :=
  longLineFile ++ bytes "\nicon=112233\n"

/-- A line of the exact form `<role name>=<six hex digits>`. -/
def ExactLine (l : List Nat) : Prop :=
  ∃ (r : Role) (h : List Nat), l = r.name ++ 61 :: h ∧ h.length = 6
    ∧ ∀ x ∈ h, isHexDigit x = true

/-- The lines, of lines separated by `\n`, that lie completely within the first
`n` bytes: a line is kept when its last byte is among them, and the lines after
it are looked at when the `\n` that follows it is among them too. -/
def linesWithin : Nat → List (List Nat) → List (List Nat)
  | _, [] => []
  | n, l :: ls =>
    if l.length ≤ n then
      l :: (if l.length < n then linesWithin (n - l.length - 1) ls else [])
    else []

/-- The text made of the given lines separated by `\n`. -/
def joinLines : List (List Nat) → List Nat
  | [] => []
  | [l] => l
  | l :: l' :: ls => l ++ 10 :: joinLines (l' :: ls)

/-- A file of three lines of the exact form, 40 bytes long. -/
def exactConfig : List Nat :=
  bytes "accent=00FF00\nicon=112233\naccent=ABCDEF"

/-- The CRLF variant of a text: every `\n` is replaced by `\r\n`. -/
def crlf : List Nat → List Nat
  | [] => []
  | c :: cs => if c = 10 then 13 :: 10 :: crlf cs else c :: crlf cs

/-- The lines of the CRLF variant of a text, from the lines of the text: every
line but the last is followed by `\r`. -/
def withCR : List (List Nat) → List (List Nat)
  | [] => []
  | [l] => [l]
  | l :: l' :: ls => (l ++ [13]) :: withCR (l' :: ls)

/-! # Lemmas and theorems -/

theorem strlen_le_length (s : List Nat) : strlen s ≤ s.length := by
  induction s with
  | nil => simp [strlen]
  | cons c cs ih =>
    unfold strlen
    split
    · simp
    · simp only [List.length_cons]; omega

theorem isHexDigit_iff (c : Nat) :
    isHexDigit c = true ↔ (48 ≤ c ∧ c ≤ 57) ∨ (65 ≤ c ∧ c ≤ 70) ∨ (97 ≤ c ∧ c ≤ 102) := by
  simp [isHexDigit, or_assoc]

theorem xdigit_of_isHexDigit {c : Nat} (h : isHexDigit c = true) :
    xdigit c = some (hexDigitValue c) := by
  rw [isHexDigit_iff] at h
  unfold xdigit hexDigitValue
  split_ifs <;> first | rfl | omega

theorem hexDigitValue_lt {c : Nat} (h : isHexDigit c = true) : hexDigitValue c < 16 := by
  rw [isHexDigit_iff] at h
  unfold hexDigitValue
  split_ifs <;> omega

theorem hexChar_hexDigitValue {c : Nat} (h : isHexDigit c = true) :
    hexChar (hexDigitValue c) = toUpper c := by
  rw [isHexDigit_iff] at h
  unfold hexChar hexDigitValue toUpper
  split_ifs <;> omega

theorem strlen_of_hex (s : List Nat) (h : ∀ c ∈ s, isHexDigit c = true) : strlen s = s.length := by
  induction s with
  | nil => rfl
  | cons c cs ih =>
    have hc := (isHexDigit_iff c).1 (h c (List.mem_cons_self _ _))
    have := ih (fun d hd => h d (List.mem_cons_of_mem _ hd))
    unfold strlen
    rw [if_neg (by omega), this]
    rfl

theorem scanDigits_of_hex (s : List Nat) (h : ∀ c ∈ s, isHexDigit c = true) (acc n : Nat) :
    scanDigits s acc n = (s.foldl (fun a c => a * 16 + hexDigitValue c) acc, n + s.length) := by
  induction s generalizing acc n with
  | nil => rfl
  | cons c cs ih =>
    have hc := xdigit_of_isHexDigit (h c (List.mem_cons_self _ _))
    unfold scanDigits
    rw [hc]
    simp only
    rw [ih (fun d hd => h d (List.mem_cons_of_mem _ hd))]
    simp only [List.foldl_cons, List.length_cons]
    congr 1
    omega

/-- On a non-empty string of hexadecimal digits `strtoul` consumes every byte
and returns the value, saturated at `ulongMax`. -/
theorem strtoul_of_hex (M : Nat) (s : List Nat) (hne : s ≠ [])
    (h : ∀ c ∈ s, isHexDigit c = true) :
    strtoul M s = (if hexValue s > M then M else hexValue s, s.length) := by
  obtain ⟨c, cs, rfl⟩ := List.exists_cons_of_ne_nil hne
  have hc := (isHexDigit_iff c).1 (h c (List.mem_cons_self _ _))
  have hws : countSpaces (c :: cs) = 0 := by
    unfold countSpaces
    have : isspace c = false := by
      simp [isspace]; omega
    simp [this]
  have hpx : (match (c :: cs) with
      | 48 :: x :: d :: _ => if (x = 120 ∨ x = 88) ∧ (xdigit d).isSome then 2 else 0
      | _ => 0) = 0 := by
    split
    · rename_i x d t heq
      have hx : x ∈ c :: cs := by
        rw [heq]; simp
      have := (isHexDigit_iff x).1 (h x hx)
      rw [if_neg]
      omega
    · rfl
  unfold strtoul
  simp only [hws, List.drop_zero, peek]
  have h45 : ¬ (c = 45 ∨ c = 43) := by omega
  have h45b : (c == 45) = false := by simp; omega
  simp only [h45, if_false, List.drop_zero, hpx, h45b]
  rw [scanDigits_of_hex _ h]
  simp only [List.length_cons, hexValue]
  split_ifs <;> first | contradiction | omega | simp

theorem parseHexColor_of_hex (s : List Nat) (fallback : lv_color_t) (hlen : 6 ≤ s.length)
    (h : ∀ c ∈ s, isHexDigit c = true) :
    parseHexColor (some s) fallback =
      if hexValue s > 0xFFFFFF then fallback
      else LV_COLOR_MAKE (hexValue s / 2 ^ 16 % 2 ^ 8) (hexValue s / 2 ^ 8 % 2 ^ 8)
        (hexValue s % 2 ^ 8) := by
  have hne : s ≠ [] := by
    intro h0; rw [h0] at hlen; simp at hlen
  unfold parseHexColor parseHexColorOn
  simp only [strlen_of_hex s h, strtoul_of_hex _ s hne h]
  rw [if_neg (by omega)]
  have hdrop : peek (List.drop s.length s) = 0 := by simp [peek]
  have hlen0 : s.length ≠ 0 := by omega
  by_cases hv : hexValue s > 0xFFFFFF
  · rw [if_pos hv, if_pos]
    right; right
    unfold ULONG_MAX
    split_ifs <;> omega
  · have hU : ¬ hexValue s > ULONG_MAX := by unfold ULONG_MAX; omega
    rw [if_neg hv, if_neg hU]
    have hmod : hexValue s % 2 ^ 32 = hexValue s := Nat.mod_eq_of_lt (by omega)
    simp only [hmod, hdrop]
    rw [if_neg (by simp only [not_or]; exact ⟨hlen0, by simp, hv⟩)]
    have e255 : (0xFF : Nat) = 2 ^ 8 - 1 := by norm_num
    simp only [Nat.shiftRight_eq_div_pow, e255, Nat.and_pow_two_sub_one_eq_mod]

/-- C1. For every string `s` of exactly six hexadecimal digits (either case)
and every fallback colour, `parseHexColor` returns the colour whose red, green
and blue bytes are bits 16-23, 8-15 and 0-7 of the base-16 value of `s` (the
fallback does not occur in the result), and writing these three bytes as six
upper-case hexadecimal digits gives `s` upper-cased. -/
theorem C1_parseHexColor_round_trip (s : List Nat) (fallback : lv_color_t)
    (hlen : s.length = 6) (hhex : ∀ c ∈ s, isHexDigit c = true) :
    parseHexColor (some s) fallback
        = LV_COLOR_MAKE (hexValue s / 2 ^ 16 % 2 ^ 8) (hexValue s / 2 ^ 8 % 2 ^ 8)
            (hexValue s % 2 ^ 8)
      ∧ asHex (parseHexColor (some s) fallback) = s.map toUpper := by
  match s, hlen with
  | [a, b, c, d, e, f], _ =>
    have ha := hhex a (by simp)
    have hb := hhex b (by simp)
    have hc := hhex c (by simp)
    have hd := hhex d (by simp)
    have he := hhex e (by simp)
    have hf := hhex f (by simp)
    have la := hexDigitValue_lt ha
    have lb := hexDigitValue_lt hb
    have lc := hexDigitValue_lt hc
    have ld := hexDigitValue_lt hd
    have le := hexDigitValue_lt he
    have lf := hexDigitValue_lt hf
    have hv : hexValue [a, b, c, d, e, f]
        = ((((hexDigitValue a * 16 + hexDigitValue b) * 16 + hexDigitValue c) * 16
            + hexDigitValue d) * 16 + hexDigitValue e) * 16 + hexDigitValue f := by
      simp [hexValue]
    have hsmall : ¬ hexValue [a, b, c, d, e, f] > 0xFFFFFF := by
      rw [hv]; omega
    have key := parseHexColor_of_hex [a, b, c, d, e, f] fallback (by simp) hhex
    rw [if_neg hsmall] at key
    refine ⟨key, ?_⟩
    rw [key, hv]
    simp only [asHex, LV_COLOR_MAKE, List.map_cons, List.map_nil,
      ← hexChar_hexDigitValue ha, ← hexChar_hexDigitValue hb, ← hexChar_hexDigitValue hc,
      ← hexChar_hexDigitValue hd, ← hexChar_hexDigitValue he, ← hexChar_hexDigitValue hf]
    generalize hexDigitValue a = A at *
    generalize hexDigitValue b = B at *
    generalize hexDigitValue c = C at *
    generalize hexDigitValue d = D at *
    generalize hexDigitValue e = E at *
    generalize hexDigitValue f = F at *
    norm_num only
    have e1 : (((((A * 16 + B) * 16 + C) * 16 + D) * 16 + E) * 16 + F) / 65536 % 256 / 16 = A := by
      omega
    have e2 : (((((A * 16 + B) * 16 + C) * 16 + D) * 16 + E) * 16 + F) / 65536 % 256 % 16 = B := by
      omega
    have e3 : (((((A * 16 + B) * 16 + C) * 16 + D) * 16 + E) * 16 + F) / 256 % 256 / 16 = C := by
      omega
    have e4 : (((((A * 16 + B) * 16 + C) * 16 + D) * 16 + E) * 16 + F) / 256 % 256 % 16 = D := by
      omega
    have e5 : (((((A * 16 + B) * 16 + C) * 16 + D) * 16 + E) * 16 + F) % 256 / 16 = E := by
      omega
    have e6 : (((((A * 16 + B) * 16 + C) * 16 + D) * 16 + E) * 16 + F) % 256 % 16 = F := by
      omega
    rw [e1, e2, e3, e4, e5, e6]

/-- Witness of C1 at the string `5d697E`. -/
theorem C1_parseHexColor_round_trip_witness :
    parseHexColor (some (bytes ("5d697E"))) ⟨1, 2, 3⟩
        = LV_COLOR_MAKE (hexValue (bytes ("5d697E")) / 2 ^ 16 % 2 ^ 8)
            (hexValue (bytes ("5d697E")) / 2 ^ 8 % 2 ^ 8) (hexValue (bytes ("5d697E")) % 2 ^ 8)
      ∧ asHex (parseHexColor (some (bytes ("5d697E"))) ⟨1, 2, 3⟩)
        = (bytes ("5d697E")).map toUpper :=
  C1_parseHexColor_round_trip (bytes ("5d697E")) ⟨1, 2, 3⟩ (by decide) (by decide)

theorem parseHexColor_of_short (t : List Nat) (fallback : lv_color_t) (h : strlen t < 6) :
    parseHexColor (some t) fallback = fallback := by
  unfold parseHexColor parseHexColorOn
  simp only [h, if_true]

/-- C2. A null text, and every text shorter than six characters (the empty text
included), is answered with the fallback colour, unchanged. -/
theorem C2_parseHexColor_short (text : Option (List Nat)) (fallback : lv_color_t)
    (hshort : ∀ t, text = some t → strlen t < 6 ∨ t.length < 6) :
    parseHexColor text fallback = fallback := by
  cases text with
  | none => rfl
  | some t =>
    have h : strlen t < 6 := by
      rcases hshort t rfl with h | h
      · exact h
      · exact lt_of_le_of_lt (strlen_le_length t) h
    exact parseHexColor_of_short t fallback h

/-- Witness of C2 at the five-character text `FFFFF`. -/
theorem C2_parseHexColor_short_witness :
    parseHexColor (some (bytes ("FFFFF"))) ⟨1, 2, 3⟩ = ⟨1, 2, 3⟩ :=
  C2_parseHexColor_short (some (bytes ("FFFFF"))) ⟨1, 2, 3⟩
    (fun t ht => by
      cases ht
      exact Or.inl (by decide))

/-- C3 (failing inputs). `parseHexColor` accepts texts that contain bytes other
than hexadecimal digits when `strtoul` skips them: a `0x` prefix, a sign, and
leading white space.  `0x1234` decodes to `(0x00, 0x12, 0x34)`, `+12345` and
` 12345` to `(0x01, 0x23, 0x45)`, `-FF000001` to white, instead of the
fallback `(1, 2, 3)`. -/
theorem C3_parseHexColor_accepts_non_hex :
    parseHexColor (some (bytes ("0x1234"))) ⟨1, 2, 3⟩ = ⟨0x00, 0x12, 0x34⟩
      ∧ parseHexColor (some (bytes ("+12345"))) ⟨1, 2, 3⟩ = ⟨0x01, 0x23, 0x45⟩
      ∧ parseHexColor (some (bytes (" 12345"))) ⟨1, 2, 3⟩ = ⟨0x01, 0x23, 0x45⟩
      ∧ parseHexColor (some (bytes ("-FF000001"))) ⟨1, 2, 3⟩ = ⟨0xFF, 0xFF, 0xFF⟩ := by
  decide

/-- C4 (failing inputs). `parseHexColor` accepts texts of more than six
characters: the seven digits `0FFFFFF` decode to white and the nine digits
`0000000FF` to `(0, 0, 0xFF)`, instead of the fallback `(1, 2, 3)`. -/
theorem C4_parseHexColor_accepts_long :
    parseHexColor (some (bytes ("0FFFFFF"))) ⟨1, 2, 3⟩ = ⟨0xFF, 0xFF, 0xFF⟩
      ∧ parseHexColor (some (bytes ("0000000FF"))) ⟨1, 2, 3⟩ = ⟨0, 0, 0xFF⟩ := by
  decide

/-- On a string of at least six hexadecimal digits, whatever the width of
`unsigned long`: `strtoul` consumes the whole string and returns its value,
saturated at `ulongMax`, and it is the low 32 bits of that result which the
range test sees and the colour is made of. -/
theorem parseHexColorOn_of_hex (M : Nat) (s : List Nat) (fallback : lv_color_t)
    (hlen : 6 ≤ s.length) (h : ∀ c ∈ s, isHexDigit c = true) :
    parseHexColorOn M (some s) fallback =
      if (if hexValue s > M then M else hexValue s) % 2 ^ 32 > 0xFFFFFF then fallback
      else LV_COLOR_MAKE ((if hexValue s > M then M else hexValue s) % 2 ^ 32 / 2 ^ 16 % 2 ^ 8)
        ((if hexValue s > M then M else hexValue s) % 2 ^ 32 / 2 ^ 8 % 2 ^ 8)
        ((if hexValue s > M then M else hexValue s) % 2 ^ 32 % 2 ^ 8) := by
  have hne : s ≠ [] := by
    intro h0; rw [h0] at hlen; simp at hlen
  unfold parseHexColorOn
  simp only [strlen_of_hex s h, strtoul_of_hex _ s hne h]
  rw [if_neg (by omega)]
  have hdrop : peek (List.drop s.length s) = 0 := by simp [peek]
  have hlen0 : s.length ≠ 0 := by omega
  by_cases hv : (if hexValue s > M then M else hexValue s) % 2 ^ 32 > 0xFFFFFF
  · rw [if_pos hv, if_pos (Or.inr (Or.inr hv))]
  · rw [if_neg hv, if_neg (by simp only [not_or]; exact ⟨hlen0, by simp [peek], hv⟩)]
    have e255 : (0xFF : Nat) = 2 ^ 8 - 1 := by norm_num
    simp only [Nat.shiftRight_eq_div_pow, e255, Nat.and_pow_two_sub_one_eq_mod]

/-- Where `unsigned long` is 32 bits wide, as on the firmware's target, every
string of hexadecimal digits whose numeric value exceeds `0xFFFFFF` is answered
with the fallback colour, also when the value does not fit in 32 bits: `strtoul`
then returns `ULONG_MAX`, which is above `0xFFFFFF`. -/
theorem parseHexColor_value_too_large_on_target (s : List Nat) (fallback : lv_color_t)
    (hhex : ∀ c ∈ s, isHexDigit c = true) (hbig : hexValue s > 0xFFFFFF) :
    parseHexColorOn ULONG_MAX (some s) fallback = fallback := by
  show parseHexColor (some s) fallback = fallback
  by_cases hlen : 6 ≤ s.length
  · rw [parseHexColor_of_hex s fallback hlen hhex, if_pos hbig]
  · exact parseHexColor_of_short s fallback (lt_of_le_of_lt (strlen_le_length s) (by omega))

/-- Where `unsigned long` is wide enough to hold the value of a string of six or
more hexadecimal digits, the string is answered with the colour made of the low
24 bits of its value as soon as bits 24 to 31 of the value are zero, whatever
the bits above them are. -/
theorem parseHexColorOn_accepts_of_low_bits (M : Nat) (s : List Nat) (fallback : lv_color_t)
    (hlen : 6 ≤ s.length) (hhex : ∀ c ∈ s, isHexDigit c = true) (hfit : hexValue s ≤ M)
    (hlow : hexValue s % 2 ^ 32 ≤ 0xFFFFFF) :
    parseHexColorOn M (some s) fallback
      = LV_COLOR_MAKE (hexValue s % 2 ^ 32 / 2 ^ 16 % 2 ^ 8) (hexValue s % 2 ^ 32 / 2 ^ 8 % 2 ^ 8)
          (hexValue s % 2 ^ 32 % 2 ^ 8) := by
  have hM : (if hexValue s > M then M else hexValue s) = hexValue s := if_neg (by omega)
  rw [parseHexColorOn_of_hex M s fallback hlen hhex, hM, if_neg (by omega)]

/-- C5 (failing inputs). Compiled where `unsigned long` is 64 bits wide,
`parseHexColor` accepts strings of hexadecimal digits whose value exceeds
`0xFFFFFF`: the ten digits `1000ABCDEF`, whose value does not fit in the 32-bit
variable `value`, decode to `(0xAB, 0xCD, 0xEF)`, and the nine digits
`100000000` decode to black, instead of the fallback `(1, 2, 3)`.  The result of
`strtoul` is cut to its low 32 bits by the initialisation of `value` before it
is compared with `0xFFFFFF`.  Compiled where `unsigned long` is 32 bits wide,
`strtoul` saturates and both strings are answered with the fallback. -/
theorem C5_parseHexColor_accepts_too_large :
    (∀ c ∈ bytes ("1000ABCDEF"), isHexDigit c = true)
      ∧ hexValue (bytes ("1000ABCDEF")) > 0xFFFFFFFF
      ∧ parseHexColorOn ULONG_MAX_LP64 (some (bytes ("1000ABCDEF"))) ⟨1, 2, 3⟩
          = ⟨0xAB, 0xCD, 0xEF⟩
      ∧ (∀ c ∈ bytes ("100000000"), isHexDigit c = true)
      ∧ hexValue (bytes ("100000000")) > 0xFFFFFF
      ∧ parseHexColorOn ULONG_MAX_LP64 (some (bytes ("100000000"))) ⟨1, 2, 3⟩ = ⟨0, 0, 0⟩
      ∧ parseHexColorOn ULONG_MAX (some (bytes ("1000ABCDEF"))) ⟨1, 2, 3⟩ = ⟨1, 2, 3⟩
      ∧ parseHexColorOn ULONG_MAX (some (bytes ("100000000"))) ⟨1, 2, 3⟩ = ⟨1, 2, 3⟩ := by
  decide

/-- The two behaviours of `strtoul` behind C5: with a 32-bit `unsigned long` the
ten digits `1000ABCDEF` convert to `ULONG_MAX`; with a 64-bit `unsigned long` the
conversion succeeds and the `uint32_t` variable keeps the low 32 bits,
`0x00ABCDEF`. -/
theorem strtoul_saturates_on_target :
    (strtoul ULONG_MAX (bytes ("1000ABCDEF"))).1 = ULONG_MAX
      ∧ (strtoul (2 ^ 64 - 1) (bytes ("1000ABCDEF"))).1 % 2 ^ 32 = 0xABCDEF := by
  decide

/-- The texts that the decoder accepts although they are not six hexadecimal
digits are accepted with the same colours where `unsigned long` is 64 bits
wide, and six hexadecimal digits decode to the same colour there: only values
that do not fit in 32 bits are treated differently. -/
theorem parseHexColorOn_lp64_examples :
    parseHexColorOn ULONG_MAX_LP64 (some (bytes ("0x1234"))) ⟨1, 2, 3⟩ = ⟨0x00, 0x12, 0x34⟩
      ∧ parseHexColorOn ULONG_MAX_LP64 (some (bytes ("+12345"))) ⟨1, 2, 3⟩ = ⟨0x01, 0x23, 0x45⟩
      ∧ parseHexColorOn ULONG_MAX_LP64 (some (bytes (" 12345"))) ⟨1, 2, 3⟩ = ⟨0x01, 0x23, 0x45⟩
      ∧ parseHexColorOn ULONG_MAX_LP64 (some (bytes ("-FF000001"))) ⟨1, 2, 3⟩
          = ⟨0xFF, 0xFF, 0xFF⟩
      ∧ parseHexColorOn ULONG_MAX_LP64 (some (bytes ("0FFFFFF"))) ⟨1, 2, 3⟩ = ⟨0xFF, 0xFF, 0xFF⟩
      ∧ parseHexColorOn ULONG_MAX_LP64 (some (bytes ("0000000FF"))) ⟨1, 2, 3⟩ = ⟨0, 0, 0xFF⟩
      ∧ parseHexColorOn ULONG_MAX_LP64 (some (bytes ("5d697E"))) ⟨1, 2, 3⟩ = ⟨0x5d, 0x69, 0x7e⟩ := by
  decide

theorem fileLines_cons (c : Nat) (cs : List Nat) :
    fileLines (c :: cs) = if c = 10 then [] :: fileLines cs
      else (c :: (fileLines cs).headD []) :: (fileLines cs).tail := by
  rw [fileLines]

theorem fileLines_ne_nil (t : List Nat) : fileLines t ≠ [] := by
  cases t with
  | nil => simp [fileLines]
  | cons c cs =>
    rw [fileLines_cons]
    split <;> simp

theorem length_takeWhile_le_length (p : Nat → Bool) (t : List Nat) :
    (t.takeWhile p).length ≤ t.length := by
  induction t with
  | nil => simp
  | cons c cs ih =>
    rw [List.takeWhile_cons]
    split
    · simp only [List.length_cons]; omega
    · simp

theorem take_length_takeWhile (p : Nat → Bool) (t : List Nat) :
    t.take (t.takeWhile p).length = t.takeWhile p := by
  induction t with
  | nil => simp
  | cons c cs ih =>
    rw [List.takeWhile_cons]
    split
    · simp only [List.length_cons, List.take_succ_cons, ih]
    · simp

/-- The first line of a text is its longest prefix without `\n`; the other lines
are the lines of what follows that `\n`, if there is one. -/
theorem fileLines_eq (t : List Nat) :
    fileLines t = t.takeWhile (fun x => x != 10) ::
      (if (t.takeWhile (fun x => x != 10)).length < t.length then
        fileLines (t.drop ((t.takeWhile (fun x => x != 10)).length + 1)) else []) := by
  induction t with
  | nil => simp [fileLines]
  | cons c cs ih =>
    by_cases hc : c = 10
    · subst hc
      simp [fileLines_cons]
    · have hb : (c != 10) = true := by simp [hc]
      rw [fileLines_cons, if_neg hc, List.takeWhile_cons, hb]
      simp only [if_true, List.length_cons, List.drop_succ_cons, Nat.add_lt_add_iff_right]
      rw [ih]
      simp

theorem applyConfigLine_nil (c : Colors) : applyConfigLine [] c = c := by
  simp [applyConfigLine, parseLine, skipBlanks, peek]

/-- The loop of `loadThemeConfig` applies, in order, every line of the buffer
cut to its first 255 bytes; `fuel` at least the buffer length is enough. -/
theorem configLoop_eq_foldl (fuel : Nat) (rest : List Nat) (c : Colors)
    (hfuel : rest.length ≤ fuel) :
    configLoop fuel rest c
      = (fileLines rest).foldl (fun acc l => applyConfigLine (l.take 255) acc) c := by
  induction fuel generalizing rest c with
  | zero =>
    have : rest = [] := List.length_eq_zero.1 (by omega)
    subst this
    simp [configLoop, fileLines, applyConfigLine_nil]
  | succ fuel ih =>
    cases rest with
    | nil => simp [configLoop, fileLines, applyConfigLine_nil]
    | cons b bs =>
      rw [configLoop]
      rw [fileLines_eq (b :: bs), List.foldl_cons]
      generalize hlb : (b :: bs).takeWhile (fun x => x != 10) = lb
      have hle : lb.length ≤ (b :: bs).length := by
        rw [← hlb]; exact length_takeWhile_le_length _ _
      have hpre : (b :: bs).take lb.length = lb := by
        rw [← hlb]; exact take_length_takeWhile _ _
      have hline : List.take (if lb.length ≥ sizeofLine then sizeofLine - 1 else lb.length)
          (b :: bs) = lb.take 255 := by
        unfold sizeofLine
        split
        · conv_rhs => rw [← hpre]
          rw [List.take_take]
          congr 1
          omega
        · rw [hpre, List.take_of_length_le (by omega)]
      rw [hline]
      rw [ih _ _ (by simp only [List.length_drop, List.length_cons] at hfuel ⊢; omega)]
      split
      · rfl
      · have : List.drop (lb.length + 1) (b :: bs) = [] :=
          List.drop_eq_nil_of_le (by omega)
        rw [this]
        simp [fileLines, applyConfigLine_nil]

theorem strcmpEq_iff (a b : List Nat) (ha : ∀ x ∈ a, x ≠ 0) (hb : ∀ x ∈ b, x ≠ 0) :
    strcmpEq a b = true ↔ a = b := by
  induction a generalizing b with
  | nil =>
    cases b with
    | nil => simp [strcmpEq]
    | cons d ds =>
      have := hb d (List.mem_cons_self _ _)
      simp [strcmpEq, this]
  | cons c cs ih =>
    have hc := ha c (List.mem_cons_self _ _)
    cases b with
    | nil => simp [strcmpEq, hc]
    | cons d ds =>
      have := ih ds (fun x hx => ha x (List.mem_cons_of_mem _ hx))
        (fun x hx => hb x (List.mem_cons_of_mem _ hx))
      rw [strcmpEq]
      by_cases hcd : c = d
      · subst hcd
        simp [hc, this]
      · simp [hcd]

theorem keyLoop_no_zero (m : Nat) (l key : List Nat) (hk : ∀ x ∈ key, x ≠ 0) :
    ∀ x ∈ (keyLoop m l key).1, x ≠ 0 := by
  induction l generalizing key with
  | nil => simpa [keyLoop] using hk
  | cons c cs ih =>
    rw [keyLoop]
    split
    · rename_i hcond
      have hkc : ∀ x ∈ key ++ [c], x ≠ 0 := by
        intro x hx
        rcases List.mem_append.1 hx with h | h
        · exact hk x h
        · simp at h; rw [h]; exact hcond.2.1
      split
      · exact ih _ hkc
      · split
        · exact ih _ hkc
        · exact ih _ hk
    · exact hk

theorem mem_of_mem_trimKey {x : Nat} {key : List Nat} (h : x ∈ trimKey key) : x ∈ key := by
  unfold trimKey at h
  rw [List.mem_reverse] at h
  have := (List.dropWhile_sublist _).subset h
  exact List.mem_reverse.1 this

theorem parseLine_key_no_zero {l : List Nat} {m n : Nat} {k v : List Nat}
    (h : parseLine l m n = some (k, v)) : ∀ x ∈ k, x ≠ 0 := by
  unfold parseLine at h
  simp only at h
  split at h
  · cases h
  · split at h
    · cases h
    · simp only [Option.some.injEq, Prod.mk.injEq] at h
      intro x hx
      rw [← h.1] at hx
      exact keyLoop_no_zero _ _ [] (by simp) x (mem_of_mem_trimKey hx)

theorem Role.name_no_zero (r : Role) : ∀ x ∈ r.name, x ≠ 0 := by
  cases r <;> decide

theorem Role.name_injective (r r' : Role) (h : r.name = r'.name) : r = r' := by
  cases r <;> cases r' <;> first | rfl | exact absurd h (by decide)

theorem roleOfKey_name (r : Role) : roleOfKey r.name = some r := by
  cases r <;> decide

theorem roleOfKey_eq_some_iff (k : List Nat) (hk : ∀ x ∈ k, x ≠ 0) (r : Role) :
    roleOfKey k = some r ↔ k = r.name := by
  constructor
  · intro h
    have e : ∀ r' : Role, strcmpEq k r'.name = true → k = r'.name :=
      fun r' h' => (strcmpEq_iff k r'.name hk (Role.name_no_zero r')).1 h'
    unfold roleOfKey at h
    split_ifs at h with h1 h2 h3 h4 h5 h6 h7 h8 <;> cases h
    · exact e .accent_light h1
    · exact e .accent h2
    · exact e .accent_dark h3
    · exact e .highlight h4
    · exact e .text_primary h5
    · exact e .text_header h6
    · exact e .page_bg h7
    · exact e .icon h8
  · intro h
    rw [h]
    exact roleOfKey_name r

theorem applyConfigLine_eq (l : List Nat) (c : Colors) :
    applyConfigLine l c =
      match parseLine l sizeofKey sizeofValue with
      | none => c
      | some (k, v) =>
        match roleOfKey k with
        | some r => c.set r (parseHexColor (some v) (c.get r))
        | none => c := by
  unfold applyConfigLine
  cases parseLine l sizeofKey sizeofValue with
  | none => rfl
  | some kv =>
    obtain ⟨k, v⟩ := kv
    simp only [roleOfKey]
    split_ifs <;> rfl

theorem Colors.get_set (c : Colors) (r r' : Role) (v : lv_color_t) :
    (c.set r v).get r' = if r' = r then v else c.get r' := by
  cases r <;> cases r' <;> rfl

theorem Colors.ext_get {c c' : Colors} (h : ∀ r, c.get r = c'.get r) : c = c' := by
  cases c
  cases c'
  have h1 := h .accent_light
  have h2 := h .accent
  have h3 := h .accent_dark
  have h4 := h .highlight
  have h5 := h .text_primary
  have h6 := h .text_header
  have h7 := h .page_bg
  have h8 := h .icon
  simp only [Colors.get] at h1 h2 h3 h4 h5 h6 h7 h8
  simp [h1, h2, h3, h4, h5, h6, h7, h8]

/-- What one line does to one role: the role takes the decoder's answer when the
parsed key is the role's name, and is left alone otherwise. -/
theorem applyConfigLine_get (l : List Nat) (c : Colors) (r : Role) :
    (applyConfigLine l c).get r =
      match parseLine l sizeofKey sizeofValue with
      | none => c.get r
      | some (k, v) => if k = r.name then parseHexColor (some v) (c.get r) else c.get r := by
  rw [applyConfigLine_eq]
  cases hp : parseLine l sizeofKey sizeofValue with
  | none => rfl
  | some kv =>
    obtain ⟨k, v⟩ := kv
    have hk := parseLine_key_no_zero hp
    simp only
    cases hr : roleOfKey k with
    | none =>
      have : k ≠ r.name := by
        intro h
        rw [(roleOfKey_eq_some_iff k hk r).2 h] at hr
        cases hr
      simp [this]
    | some r' =>
      have hk' := (roleOfKey_eq_some_iff k hk r').1 hr
      simp only [Colors.get_set]
      by_cases hrr : r = r'
      · subst hrr
        simp [hk']
      · have : k ≠ r.name := by
          intro h
          exact hrr (Role.name_injective _ _ (h.symm.trans hk'))
        simp [hrr, this]

/-- The decoder either rejects a text or decodes it to one colour. -/
theorem rejects_or_decodes (v : List Nat) : Rejects v ∨ ∃ col, Decodes v col := by
  unfold Rejects Decodes parseHexColor parseHexColorOn
  simp only
  by_cases h1 : strlen v < 6
  · left; intro fb; simp [h1]
  · by_cases h2 : (strtoul ULONG_MAX v).2 = 0 ∨ peek (List.drop (strtoul ULONG_MAX v).2 v) ≠ 0
        ∨ (strtoul ULONG_MAX v).1 % 2 ^ 32 > 0xFFFFFF
    · left; intro fb; rw [if_neg h1, if_pos h2]
    · right
      refine ⟨LV_COLOR_MAKE ((((strtoul ULONG_MAX v).1 % 2 ^ 32) >>> 16) &&& 0xFF)
        ((((strtoul ULONG_MAX v).1 % 2 ^ 32) >>> 8) &&& 0xFF)
        (((strtoul ULONG_MAX v).1 % 2 ^ 32) &&& 0xFF), fun fb => ?_⟩
      rw [if_neg h1, if_neg h2]

theorem not_rejects_of_decodes {v : List Nat} {col : lv_color_t} (hd : Decodes v col)
    (hr : Rejects v) : False := by
  have h1 := hd ⟨0, 0, 0⟩
  have h2 := hd ⟨1, 0, 0⟩
  rw [hr] at h1 h2
  rw [← h2] at h1
  cases h1

/-- The colour table after `loadThemeConfig` on a storage that holds the file
`F`: the lines of the first 1023 bytes, each cut to 255 bytes, applied in order. -/
theorem loadThemeConfig_withFile_colors (F : List Nat) (s : ThemeState) :
    (loadThemeConfig (some (FS.withFile F)) s).colors
      = (fileLines (F.take 1023)).foldl (fun acc l => applyConfigLine (l.take 255) acc)
          s.colors := by
  unfold loadThemeConfig FS.withFile
  simp only [LFS_ERR_OK, ne_eq, not_true_eq_false, if_false, maxConfigSize,
    ReadResult.bytesRead, ReadResult.buffer]
  by_cases h0 : F.take 1023 = []
  · simp [h0, fileLines, applyConfigLine_nil]
  · have hpos : 0 < (F.take 1023).length := List.length_pos.2 h0
    have hnot : ¬ ((List.take (1024 - 1) F).length : Int) ≤ 0 := by
      simp only [Nat.add_one_sub_one, Int.not_le]
      exact_mod_cast hpos
    rw [if_neg hnot]
    simp only [Int.toNat_ofNat, Nat.add_one_sub_one]
    exact configLoop_eq_foldl _ _ _ (le_refl _)

theorem foldl_applyConfigLine_get (ls : List (List Nat)) (c : Colors) (r : Role) :
    (∃ pre l post v col, ls = pre ++ l :: post
        ∧ parseLine l sizeofKey sizeofValue = some (r.name, v) ∧ Decodes v col
        ∧ (∀ l' ∈ post, ∀ v', parseLine l' sizeofKey sizeofValue = some (r.name, v') → Rejects v')
        ∧ (ls.foldl (fun acc l => applyConfigLine l acc) c).get r = col)
      ∨ ((∀ l ∈ ls, ∀ v, parseLine l sizeofKey sizeofValue = some (r.name, v) → Rejects v)
        ∧ (ls.foldl (fun acc l => applyConfigLine l acc) c).get r = c.get r) := by
  induction ls using List.reverseRecOn with
  | nil => right; simp
  | append_singleton ls l ih =>
    rw [List.foldl_append, List.foldl_cons, List.foldl_nil, applyConfigLine_get]
    -- the last line either overrides the role or leaves it alone
    have hcase : (∃ v col, parseLine l sizeofKey sizeofValue = some (r.name, v) ∧ Decodes v col)
        ∨ (∀ v, parseLine l sizeofKey sizeofValue = some (r.name, v) → Rejects v) := by
      cases hp : parseLine l sizeofKey sizeofValue with
      | none => right; intro v hv; cases hv
      | some kv =>
        obtain ⟨k, v⟩ := kv
        by_cases hk : k = r.name
        · subst hk
          rcases rejects_or_decodes v with hr | ⟨col, hd⟩
          · right; intro v' hv'; cases hv'; exact hr
          · left; exact ⟨v, col, rfl, hd⟩
        · right; intro v' hv'
          simp only [Option.some.injEq, Prod.mk.injEq] at hv'
          exact absurd hv'.1 hk
    rcases hcase with ⟨v, col, hp, hd⟩ | hrej
    · left
      refine ⟨ls, l, [], v, col, rfl, hp, hd, by simp, ?_⟩
      rw [hp]
      simp only [if_true]
      exact hd _
    · have hsame : (match parseLine l sizeofKey sizeofValue with
          | none => (ls.foldl (fun acc l => applyConfigLine l acc) c).get r
          | some (k, v) => if k = r.name then
              parseHexColor (some v) ((ls.foldl (fun acc l => applyConfigLine l acc) c).get r)
            else (ls.foldl (fun acc l => applyConfigLine l acc) c).get r)
          = (ls.foldl (fun acc l => applyConfigLine l acc) c).get r := by
        cases hp : parseLine l sizeofKey sizeofValue with
        | none => rfl
        | some kv =>
          obtain ⟨k, v⟩ := kv
          simp only
          split
          · rename_i hk
            subst hk
            exact hrej v hp _
          · rfl
      rw [hsame]
      rcases ih with ⟨pre, l0, post, v, col, hls, hp, hd, hpost, hget⟩ | ⟨hall, hget⟩
      · left
        refine ⟨pre, l0, post ++ [l], v, col, by rw [hls]; simp, hp, hd, ?_, hget⟩
        intro l' hl' v' hv'
        rcases List.mem_append.1 hl' with h | h
        · exact hpost l' h v' hv'
        · simp only [List.mem_singleton] at h
          subst h
          exact hrej v' hv'
      · right
        refine ⟨?_, hget⟩
        intro l' hl' v' hv'
        rcases List.mem_append.1 hl' with h | h
        · exact hall l' h v' hv'
        · simp only [List.mem_singleton] at h
          subst h
          exact hrej v' hv'

theorem foldl_take_eq_of_short (ls : List (List Nat)) (c : Colors)
    (h : ∀ l ∈ ls, l.length ≤ 255) :
    ls.foldl (fun acc l => applyConfigLine (l.take 255) acc) c
      = ls.foldl (fun acc l => applyConfigLine l acc) c := by
  induction ls generalizing c with
  | nil => rfl
  | cons l ls ih =>
    simp only [List.foldl_cons]
    rw [List.take_of_length_le (h l (List.mem_cons_self _ _))]
    exact ih _ (fun l' hl' => h l' (List.mem_cons_of_mem _ hl'))

/-- C6. For a file of at most 1023 bytes whose lines have at most 255 bytes,
after `loadThemeConfig` every overridable role holds the colour decoded from the
last line whose parsed key is the role's name and whose value the decoder
accepts, or its value from before the load when there is no such line.  Only
lines whose key is the role's name enter the description of a role. -/
theorem C6_loadThemeConfig_last_valid_line (F : List Nat) (s : ThemeState)
    (hF : F.length ≤ 1023) (hL : ∀ l ∈ fileLines F, l.length ≤ 255) (r : Role) :
    (∃ pre l post v col, fileLines F = pre ++ l :: post
        ∧ parseLine l sizeofKey sizeofValue = some (r.name, v) ∧ Decodes v col
        ∧ (∀ l' ∈ post, ∀ v', parseLine l' sizeofKey sizeofValue = some (r.name, v') → Rejects v')
        ∧ (loadThemeConfig (some (FS.withFile F)) s).colors.get r = col)
      ∨ ((∀ l ∈ fileLines F, ∀ v, parseLine l sizeofKey sizeofValue = some (r.name, v) → Rejects v)
        ∧ (loadThemeConfig (some (FS.withFile F)) s).colors.get r = s.colors.get r) := by
  rw [loadThemeConfig_withFile_colors, List.take_of_length_le hF, foldl_take_eq_of_short _ _ hL]
  exact foldl_applyConfigLine_get (fileLines F) s.colors r

/-- Witness of C6 on `sampleConfig` for the role `accent`. -/
theorem C6_loadThemeConfig_last_valid_line_witness :
    (∃ pre l post v col, fileLines sampleConfig = pre ++ l :: post
        ∧ parseLine l sizeofKey sizeofValue = some (Role.accent.name, v) ∧ Decodes v col
        ∧ (∀ l' ∈ post, ∀ v',
            parseLine l' sizeofKey sizeofValue = some (Role.accent.name, v') → Rejects v')
        ∧ (loadThemeConfig (some (FS.withFile sampleConfig)) (ThemeState.initial none)).colors.get
            Role.accent = col)
      ∨ ((∀ l ∈ fileLines sampleConfig, ∀ v,
            parseLine l sizeofKey sizeofValue = some (Role.accent.name, v) → Rejects v)
        ∧ (loadThemeConfig (some (FS.withFile sampleConfig)) (ThemeState.initial none)).colors.get
            Role.accent = (ThemeState.initial none).colors.get Role.accent) :=
  C6_loadThemeConfig_last_valid_line sampleConfig (ThemeState.initial none) (by decide)
    (by decide) Role.accent

/-- C7 (failing input). On the file `accent=00FF00\nhighlight=0x1234\n`, whose
second line carries a malformed value (a `0x` prefix and four digits), `accent`
becomes RGB(0,255,0) but `highlight` does not keep its previous value: it
becomes `(0x00, 0x12, 0x34)`.  On the file of scenario A,
`accent=00FF00\nhighlight=GGHHII\n`, `accent` becomes RGB(0,255,0) and
`highlight` keeps its previous value, as the claim says. -/
theorem C7_malformed_value_overrides_role :
    (loadThemeConfig (some (FS.withFile (bytes ("accent=00FF00\nhighlight=0x1234\n"))))
        (ThemeState.initial none)).colors.accent = LV_COLOR_MAKE 0 255 0
      ∧ (loadThemeConfig (some (FS.withFile (bytes ("accent=00FF00\nhighlight=0x1234\n"))))
        (ThemeState.initial none)).colors.highlight = LV_COLOR_MAKE 0x00 0x12 0x34
      ∧ (ThemeState.initial none).colors.highlight = LV_COLOR_MAKE 0x00 0xb0 0x00
      ∧ (loadThemeConfig (some (FS.withFile (bytes ("accent=00FF00\nhighlight=GGHHII\n"))))
        (ThemeState.initial none)).colors.accent = LV_COLOR_MAKE 0 255 0
      ∧ (loadThemeConfig (some (FS.withFile (bytes ("accent=00FF00\nhighlight=GGHHII\n"))))
        (ThemeState.initial none)).colors.highlight = (ThemeState.initial none).colors.highlight := by
  decide

theorem skipBlanks_blank_append (pre rest : List Nat) (h : ∀ x ∈ pre, x = 32 ∨ x = 9) :
    skipBlanks (pre ++ rest) = skipBlanks rest := by
  induction pre with
  | nil => rfl
  | cons c cs ih =>
    have hc := h c (List.mem_cons_self _ _)
    rw [List.cons_append, skipBlanks, if_pos hc]
    exact ih (fun x hx => h x (List.mem_cons_of_mem _ hx))

theorem mem_of_mem_skipBlanks {x : Nat} {l : List Nat} (h : x ∈ skipBlanks l) : x ∈ l := by
  induction l with
  | nil => simp [skipBlanks] at h
  | cons c cs ih =>
    rw [skipBlanks] at h
    split at h
    · exact List.mem_cons_of_mem _ (ih h)
    · exact h

theorem mem_of_mem_keyLoop_rest {x : Nat} {m : Nat} {l key : List Nat}
    (h : x ∈ (keyLoop m l key).2) : x ∈ l := by
  induction l generalizing key with
  | nil => simp [keyLoop] at h
  | cons c cs ih =>
    rw [keyLoop] at h
    split at h
    · split at h
      · exact List.mem_cons_of_mem _ (ih h)
      · split at h
        · exact List.mem_cons_of_mem _ (ih h)
        · exact List.mem_cons_of_mem _ (ih h)
    · exact h

theorem mem_of_peek_eq {l : List Nat} {c : Nat} (hc : c ≠ 0) (h : peek l = c) : c ∈ l := by
  cases l with
  | nil => exact absurd h.symm hc
  | cons d ds =>
    simp only [peek] at h
    rw [h]
    exact List.mem_cons_self _ _

/-- A comment line yields no result. -/
theorem parseLine_of_comment {l : List Nat} (m n : Nat) (h : IsCommentLine l) :
    parseLine l m n = none := by
  obtain ⟨pre, rest, rfl, hpre⟩ := h
  unfold parseLine
  simp only
  rw [skipBlanks_blank_append pre _ hpre]
  have : skipBlanks (35 :: rest) = 35 :: rest := by
    rw [skipBlanks]; simp
  rw [this]
  simp [peek]

/-- A blank line yields no result. -/
theorem parseLine_of_blank {l : List Nat} (m n : Nat) (h : IsBlankLine l) :
    parseLine l m n = none := by
  have : skipBlanks l = [] := by
    have := skipBlanks_blank_append l [] h
    simpa [skipBlanks] using this
  unfold parseLine
  simp [this, peek]

/-- A line without `=` yields no result. -/
theorem parseLine_of_no_equals {l : List Nat} (m n : Nat) (h : 61 ∉ l) :
    parseLine l m n = none := by
  unfold parseLine
  simp only
  split
  · rfl
  · rw [if_pos]
    left
    intro hp
    exact h (mem_of_mem_skipBlanks (mem_of_mem_keyLoop_rest (mem_of_peek_eq (by decide) hp)))

/-- A line of one of the kinds listed in C8 leaves the colour table as it is. -/
theorem applyConfigLine_of_ignored {l : List Nat} (c : Colors) (h : IgnoredLine l) :
    applyConfigLine l c = c := by
  apply Colors.ext_get
  intro r
  rw [applyConfigLine_get]
  rcases h with h | h | h | h | h
  · rw [parseLine_of_comment _ _ h]
  · rw [parseLine_of_blank _ _ h]
  · rw [parseLine_of_no_equals _ _ h]
  · cases hp : parseLine l sizeofKey sizeofValue with
    | none => rfl
    | some kv =>
      obtain ⟨k, v⟩ := kv
      simp only
      rw [if_neg (h k v hp r)]
  · obtain ⟨k, v, hp, hr⟩ := h
    rw [hp]
    simp only
    split
    · exact hr _
    · rfl

theorem comment_of_hash (rest : List Nat) : IgnoredLine (35 :: rest) :=
  Or.inl ⟨[], rest, rfl, by simp⟩

set_option maxRecDepth 1000000 in
/-- C8 (counterexample). Every line of `longLineFile` and of `capFile` is of a
kind the claim lists, yet loading either file changes `accent` to RGB(0,255,0).
The one line of `longLineFile` has the key `accent` and the undecodable value
`00FF00ZZ`, but the loader parses only its first 255 bytes, which end right
after `00FF00`.  `capFile` is four comment lines and the line
`  accent=00FF00ZZ`, all of at most 251 bytes, but the loader reads only the
first 1023 bytes of the file, which end right after `00FF00`. -/
theorem C8_counterexample_truncation :
    ((∀ l ∈ fileLines longLineFile, IgnoredLine l)
        ∧ (loadThemeConfig (some (FS.withFile longLineFile)) (ThemeState.initial none)).colors
          ≠ (ThemeState.initial none).colors)
      ∧ ((∀ l ∈ fileLines capFile, IgnoredLine l)
        ∧ (∀ l ∈ fileLines capFile, l.length ≤ 255)
        ∧ (loadThemeConfig (some (FS.withFile capFile)) (ThemeState.initial none)).colors
          ≠ (ThemeState.initial none).colors) := by
  have hrej : ∀ l, parseLine l sizeofKey sizeofValue = some (bytes "accent", bytes "00FF00ZZ") →
      IgnoredLine l :=
    fun l hp => Or.inr (Or.inr (Or.inr (Or.inr ⟨_, _, hp, fun _ => rfl⟩)))
  refine ⟨⟨?_, by decide⟩, ?_, by decide, by decide⟩
  · have hl : fileLines longLineFile = [longLineFile] := by decide
    intro l hl'
    rw [hl, List.mem_singleton] at hl'
    subst hl'
    exact hrej _ (by decide)
  · have hl : fileLines capFile = [35 :: List.replicate 250 120, 35 :: List.replicate 250 120,
        35 :: List.replicate 250 120, 35 :: List.replicate 250 120,
        bytes "  accent=00FF00ZZ"] := by decide
    intro l hl'
    rw [hl] at hl'
    simp only [List.mem_cons, List.mem_singleton, List.not_mem_nil, or_false] at hl'
    rcases hl' with rfl | rfl | rfl | rfl | rfl
    · exact comment_of_hash _
    · exact comment_of_hash _
    · exact comment_of_hash _
    · exact comment_of_hash _
    · exact hrej _ (by decide)

/-- C8 (amended). For a file of at most 1023 bytes whose lines have at most
255 bytes, if every line is a comment, a blank line, a line without `=`, a line
whose key is not one of the eight role names, or a line whose value is not a
decodable colour, then `loadThemeConfig` leaves all eight overridable roles as
they were. -/
theorem C8_ignored_lines_preserve_colors (F : List Nat) (s : ThemeState)
    (hF : F.length ≤ 1023) (hL : ∀ l ∈ fileLines F, l.length ≤ 255)
    (hI : ∀ l ∈ fileLines F, IgnoredLine l) :
    (loadThemeConfig (some (FS.withFile F)) s).colors = s.colors := by
  rw [loadThemeConfig_withFile_colors, List.take_of_length_le hF, foldl_take_eq_of_short _ _ hL]
  generalize fileLines F = ls at hI
  generalize s.colors = c
  induction ls generalizing c with
  | nil => rfl
  | cons l ls ih =>
    rw [List.foldl_cons, applyConfigLine_of_ignored c (hI l (List.mem_cons_self _ _))]
    exact ih (fun l' hl' => hI l' (List.mem_cons_of_mem _ hl')) c

theorem ignoredConfig_lines (l : List Nat) (hl : l ∈ fileLines ignoredConfig) :
    IgnoredLine l := by
  have hlines : fileLines ignoredConfig = [bytes "# theme", bytes "  \t", bytes "foo",
      bytes "bar=00FF00", bytes "Accent=00FF00", bytes "accent=GGHHII"] := by decide
  rw [hlines] at hl
  simp only [List.mem_cons, List.mem_singleton, List.not_mem_nil, or_false] at hl
  rcases hl with rfl | rfl | rfl | rfl | rfl | rfl
  · exact Or.inl ⟨[], bytes " theme", by decide, by simp⟩
  · exact Or.inr (Or.inl (by unfold IsBlankLine; decide))
  · exact Or.inr (Or.inr (Or.inl (by decide)))
  · refine Or.inr (Or.inr (Or.inr (Or.inl ?_)))
    have hp : parseLine (bytes "bar=00FF00") sizeofKey sizeofValue
        = some (bytes "bar", bytes "00FF00") := by decide
    intro k v h r
    rw [hp] at h
    cases h
    cases r <;> decide
  · refine Or.inr (Or.inr (Or.inr (Or.inl ?_)))
    have hp : parseLine (bytes "Accent=00FF00") sizeofKey sizeofValue
        = some (bytes "Accent", bytes "00FF00") := by decide
    intro k v h r
    rw [hp] at h
    cases h
    cases r <;> decide
  · exact Or.inr (Or.inr (Or.inr (Or.inr
      ⟨bytes "accent", bytes "GGHHII", by decide, fun _ => rfl⟩)))

/-- Witness of the amended C8 on `ignoredConfig`. -/
theorem C8_ignored_lines_preserve_colors_witness :
    (loadThemeConfig (some (FS.withFile ignoredConfig)) (ThemeState.initial none)).colors
      = (ThemeState.initial none).colors :=
  C8_ignored_lines_preserve_colors ignoredConfig (ThemeState.initial none) (by decide)
    (by decide) ignoredConfig_lines

/-- C9. When the storage reference is absent, or the open of
`/themes/theme.cfg` does not return `LFS_ERR_OK`, or the read returns zero or a
negative byte count, `loadThemeConfig` leaves all eight overridable roles as
they were. -/
theorem C9_loadThemeConfig_io_failure (filesystem : Option FS) (s : ThemeState)
    (h : ∀ fs, filesystem = some fs →
      fs.FileOpen ≠ LFS_ERR_OK ∨ (fs.FileRead (maxConfigSize - 1)).bytesRead ≤ 0) :
    (loadThemeConfig filesystem s).colors = s.colors := by
  cases filesystem with
  | none => rfl
  | some fs =>
    unfold loadThemeConfig
    simp only
    by_cases ho : fs.FileOpen ≠ LFS_ERR_OK
    · rw [if_pos ho]
    · rw [if_neg ho]
      rcases h fs rfl with h | h
      · exact absurd h ho
      · rw [if_pos h]

/-- Witness of C9 on a storage whose open fails with `LFS_ERR_NOENT` (-2). -/
theorem C9_loadThemeConfig_io_failure_witness :
    (loadThemeConfig (some ⟨-2, fun _ => ReadResult.data []⟩) (ThemeState.initial none)).colors
      = (ThemeState.initial none).colors :=
  C9_loadThemeConfig_io_failure (some ⟨-2, fun _ => ReadResult.data []⟩) (ThemeState.initial none)
    (fun fs hfs => by
      cases hfs
      exact Or.inl (by decide))

/-- Whatever the storage answers, the colour table after `loadThemeConfig` is
the table before it with a fixed list of lines applied in order. -/
theorem loadThemeConfig_colors_foldl (filesystem : Option FS) :
    ∃ ls : List (List Nat), ∀ s : ThemeState,
      (loadThemeConfig filesystem s).colors
        = ls.foldl (fun acc l => applyConfigLine l acc) s.colors := by
  cases filesystem with
  | none => exact ⟨[], fun s => rfl⟩
  | some fs =>
    by_cases hopen : fs.FileOpen ≠ LFS_ERR_OK
    · refine ⟨[], fun s => ?_⟩
      unfold loadThemeConfig
      simp only
      rw [if_pos hopen]
      rfl
    · cases hread : fs.FileRead (maxConfigSize - 1) with
      | error e =>
        refine ⟨[], fun s => ?_⟩
        unfold loadThemeConfig
        simp only
        rw [if_neg hopen, hread, if_pos (by simp only [ReadResult.bytesRead]; omega)]
        rfl
      | data bs =>
        refine ⟨(fileLines bs).map (List.take 255), fun s => ?_⟩
        unfold loadThemeConfig
        simp only
        rw [if_neg hopen, hread, List.foldl_map]
        simp only [ReadResult.bytesRead, ReadResult.buffer]
        split
        · rename_i h0
          have : bs = [] := List.length_eq_zero.1 (by omega)
          subst this
          simp [fileLines, applyConfigLine_nil]
        · simp only [Int.toNat_ofNat]
          exact configLoop_eq_foldl _ _ _ (le_refl _)

/-- One line sets a role to a colour that does not depend on the table, or
leaves the role alone. -/
theorem applyConfigLine_get_const (l : List Nat) (r : Role) :
    ∃ o : Option lv_color_t, ∀ c : Colors, (applyConfigLine l c).get r = o.getD (c.get r) := by
  cases hp : parseLine l sizeofKey sizeofValue with
  | none =>
    refine ⟨none, fun c => ?_⟩
    rw [applyConfigLine_get, hp]
    rfl
  | some kv =>
    obtain ⟨k, v⟩ := kv
    by_cases hk : k = r.name
    · rcases rejects_or_decodes v with hr | ⟨col, hd⟩
      · refine ⟨none, fun c => ?_⟩
        rw [applyConfigLine_get, hp]
        simp only [hk, if_true]
        exact hr _
      · refine ⟨some col, fun c => ?_⟩
        rw [applyConfigLine_get, hp]
        simp only [hk, if_true]
        exact hd _
    · refine ⟨none, fun c => ?_⟩
      rw [applyConfigLine_get, hp]
      simp only [hk, if_false]
      rfl

theorem foldl_applyConfigLine_get_const (ls : List (List Nat)) (r : Role) :
    ∃ o : Option lv_color_t, ∀ c : Colors,
      (ls.foldl (fun acc l => applyConfigLine l acc) c).get r = o.getD (c.get r) := by
  induction ls with
  | nil => exact ⟨none, fun c => rfl⟩
  | cons l ls ih =>
    obtain ⟨o1, h1⟩ := applyConfigLine_get_const l r
    obtain ⟨o2, h2⟩ := ih
    refine ⟨o2.orElse (fun _ => o1), fun c => ?_⟩
    rw [List.foldl_cons, h2, h1]
    cases o2 <;> rfl

/-- Applying the same lines a second time changes nothing. -/
theorem foldl_applyConfigLine_idem (ls : List (List Nat)) (c : Colors) :
    ls.foldl (fun acc l => applyConfigLine l acc) (ls.foldl (fun acc l => applyConfigLine l acc) c)
      = ls.foldl (fun acc l => applyConfigLine l acc) c := by
  apply Colors.ext_get
  intro r
  obtain ⟨o, h⟩ := foldl_applyConfigLine_get_const ls r
  rw [h, h]
  cases o <;> rfl

theorem loadThemeConfig_frame (filesystem : Option FS) (s : ThemeState) :
    (loadThemeConfig filesystem s).themeFilesystem = s.themeFilesystem
      ∧ (loadThemeConfig filesystem s).theme = s.theme
      ∧ (loadThemeConfig filesystem s).styles = s.styles
      ∧ (loadThemeConfig filesystem s).inited = s.inited
      ∧ (loadThemeConfig filesystem s).scr = s.scr := by
  unfold loadThemeConfig
  cases filesystem with
  | none => simp
  | some fs =>
    simp only
    split
    · simp
    · split <;> simp

/-- The descriptors built by `basic_init` are a function of the colour table and
of the theme's normal font (and of the layout constants): what the descriptors
held before, and the `inited` flag, do not enter. -/
theorem basic_init_styles_congr (k : LvConf) (s t : ThemeState) (hc : s.colors = t.colors)
    (hf : s.theme.font_normal = t.theme.font_normal) :
    (basic_init k s).styles = (basic_init k t).styles := by
  unfold basic_init
  simp only [style_init_reset, lv_style_init, lv_style_reset, ite_self, hc, hf]

theorem reload_config_eq (k : LvConf) (s : ThemeState) (fs : FS)
    (hfs : s.themeFilesystem = some fs) :
    (lv_pinetime_theme_reload_config k s).colors = (loadThemeConfig (some fs) s).colors
      ∧ (lv_pinetime_theme_reload_config k s).themeFilesystem = some fs
      ∧ (lv_pinetime_theme_reload_config k s).theme
          = (setThemeColors (loadThemeConfig (some fs) s)).theme
      ∧ (lv_pinetime_theme_reload_config k s).styles
          = (basic_init k (setThemeColors (loadThemeConfig (some fs) s))).styles := by
  have hframe := loadThemeConfig_frame (some fs) s
  unfold lv_pinetime_theme_reload_config
  rw [hfs]
  simp only
  split
  · refine ⟨rfl, ?_, rfl, rfl⟩
    show (loadThemeConfig (some fs) s).themeFilesystem = some fs
    rw [hframe.1, hfs]
  · refine ⟨rfl, ?_, rfl, rfl⟩
    show (loadThemeConfig (some fs) s).themeFilesystem = some fs
    rw [hframe.1, hfs]

/-- C10. With storage attached, running `lv_pinetime_theme_reload_config`
twice in a row on the same storage leaves the colour table, every style
descriptor and the theme record equal to what they were after the first run. -/
theorem C10_reload_config_idempotent (k : LvConf) (s : ThemeState) (fs : FS)
    (hfs : s.themeFilesystem = some fs) :
    (lv_pinetime_theme_reload_config k (lv_pinetime_theme_reload_config k s)).colors
        = (lv_pinetime_theme_reload_config k s).colors
      ∧ (lv_pinetime_theme_reload_config k (lv_pinetime_theme_reload_config k s)).styles
        = (lv_pinetime_theme_reload_config k s).styles
      ∧ (lv_pinetime_theme_reload_config k (lv_pinetime_theme_reload_config k s)).theme
        = (lv_pinetime_theme_reload_config k s).theme := by
  obtain ⟨hc1, hf1, ht1, hs1⟩ := reload_config_eq k s fs hfs
  obtain ⟨hc2, _, ht2, hs2⟩ := reload_config_eq k (lv_pinetime_theme_reload_config k s) fs hf1
  obtain ⟨ls, hls⟩ := loadThemeConfig_colors_foldl (some fs)
  have hcol : (lv_pinetime_theme_reload_config k (lv_pinetime_theme_reload_config k s)).colors
      = (lv_pinetime_theme_reload_config k s).colors := by
    rw [hc2, hls, hc1, hls]
    exact foldl_applyConfigLine_idem ls s.colors
  have hcol' : (loadThemeConfig (some fs) (lv_pinetime_theme_reload_config k s)).colors
      = (loadThemeConfig (some fs) s).colors := by
    rw [← hc2, hcol, hc1]
  have hth : (setThemeColors (loadThemeConfig (some fs) (lv_pinetime_theme_reload_config k s))).theme
      = (setThemeColors (loadThemeConfig (some fs) s)).theme := by
    have e1 := (loadThemeConfig_frame (some fs) (lv_pinetime_theme_reload_config k s)).2.1
    have e2 := (loadThemeConfig_frame (some fs) s).2.1
    simp only [setThemeColors, hcol', e1, e2, ht1]
  refine ⟨hcol, ?_, ?_⟩
  · rw [hs2, hs1]
    apply basic_init_styles_congr
    · exact hcol'
    · rw [hth]
  · rw [ht2, ht1, hth]

/-- Witness of C10 on the storage that holds `sampleConfig`. -/
theorem C10_reload_config_idempotent_witness :
    (lv_pinetime_theme_reload_config ⟨100, 240, 240, 32767, 255, 15⟩
        (lv_pinetime_theme_reload_config ⟨100, 240, 240, 32767, 255, 15⟩
          { ThemeState.initial none with themeFilesystem := some (FS.withFile sampleConfig) })).colors
        = (lv_pinetime_theme_reload_config ⟨100, 240, 240, 32767, 255, 15⟩
          { ThemeState.initial none with themeFilesystem := some (FS.withFile sampleConfig) }).colors
      ∧ (lv_pinetime_theme_reload_config ⟨100, 240, 240, 32767, 255, 15⟩
        (lv_pinetime_theme_reload_config ⟨100, 240, 240, 32767, 255, 15⟩
          { ThemeState.initial none with themeFilesystem := some (FS.withFile sampleConfig) })).styles
        = (lv_pinetime_theme_reload_config ⟨100, 240, 240, 32767, 255, 15⟩
          { ThemeState.initial none with themeFilesystem := some (FS.withFile sampleConfig) }).styles
      ∧ (lv_pinetime_theme_reload_config ⟨100, 240, 240, 32767, 255, 15⟩
        (lv_pinetime_theme_reload_config ⟨100, 240, 240, 32767, 255, 15⟩
          { ThemeState.initial none with themeFilesystem := some (FS.withFile sampleConfig) })).theme
        = (lv_pinetime_theme_reload_config ⟨100, 240, 240, 32767, 255, 15⟩
          { ThemeState.initial none with themeFilesystem := some (FS.withFile sampleConfig) }).theme :=
  C10_reload_config_idempotent ⟨100, 240, 240, 32767, 255, 15⟩
    { ThemeState.initial none with themeFilesystem := some (FS.withFile sampleConfig) }
    (FS.withFile sampleConfig) rfl

set_option maxRecDepth 1000000 in
/-- C11 (counterexample). `capFile1024` has 1026 bytes and its line
`   accent=00FF00` ends exactly at byte 1024.  The rules applied to the first
1024 bytes of the file set `accent` to RGB(0,255,0), but `loadThemeConfig`
leaves `accent` at its previous value `(0x38, 0x38, 0x38)`: it reads 1023 bytes,
so it sees the line as `   accent=00FF0`, whose value is too short. -/
theorem C11_counterexample_byte_1024 :
    capFile1024.length > 1024
      ∧ (colorsFromText (capFile1024.take 1024) (ThemeState.initial none).colors).accent
        = LV_COLOR_MAKE 0 255 0
      ∧ (loadThemeConfig (some (FS.withFile capFile1024)) (ThemeState.initial none)).colors.accent
        = LV_COLOR_MAKE 0x38 0x38 0x38
      ∧ (loadThemeConfig (some (FS.withFile capFile1024)) (ThemeState.initial none)).colors
        ≠ colorsFromText (capFile1024.take 1024) (ThemeState.initial none).colors := by
  decide

/-- C11 (amended). `loadThemeConfig` considers exactly the first 1023 bytes of
the file: the resulting colour table is the one that the lines of the first
1023 bytes give (so every line lying wholly within them is applied), and a file
`G` that agrees with `F` on its first 1023 bytes gives the same colour table,
whatever follows byte 1023. -/
theorem C11_first_1023_bytes (F G : List Nat) (s : ThemeState)
    (hFG : G.take 1023 = F.take 1023) :
    (loadThemeConfig (some (FS.withFile F)) s).colors = colorsFromText (F.take 1023) s.colors
      ∧ (loadThemeConfig (some (FS.withFile G)) s).colors
        = (loadThemeConfig (some (FS.withFile F)) s).colors := by
  rw [loadThemeConfig_withFile_colors, loadThemeConfig_withFile_colors, hFG]
  exact ⟨rfl, rfl⟩

set_option maxRecDepth 1000000 in
/-- Witness of the amended C11: `capFile1024` and the file made of its first
1023 bytes followed by `ZZZ`. -/
theorem C11_first_1023_bytes_witness :
    (loadThemeConfig (some (FS.withFile capFile1024)) (ThemeState.initial none)).colors
        = colorsFromText (capFile1024.take 1023) (ThemeState.initial none).colors
      ∧ (loadThemeConfig (some (FS.withFile (capFile1024.take 1023 ++ bytes ("ZZZ"))))
          (ThemeState.initial none)).colors
        = (loadThemeConfig (some (FS.withFile capFile1024)) (ThemeState.initial none)).colors :=
  C11_first_1023_bytes capFile1024 (capFile1024.take 1023 ++ bytes ("ZZZ"))
    (ThemeState.initial none) (by decide)

theorem keyLoop_cons (m c : Nat) (cs key : List Nat) :
    keyLoop m (c :: cs) key =
      if c ≠ 61 ∧ c ≠ 0 ∧ c ≠ 10 ∧ key.length < m - 1 then keyLoop m cs (keyStore key c)
      else (key, c :: cs) := by
  rw [keyLoop]
  unfold keyStore
  split
  · split
    · rfl
    · split <;> rfl
  · rfl

theorem keyStore_length_le (key : List Nat) (c : Nat) :
    (keyStore key c).length ≤ key.length + 1 := by
  unfold keyStore
  split_ifs <;> simp

theorem foldl_keyStore_length_le (T key : List Nat) :
    (T.foldl keyStore key).length ≤ key.length + T.length := by
  induction T generalizing key with
  | nil => simp
  | cons c T ih =>
    rw [List.foldl_cons]
    have h1 := ih (keyStore key c)
    have h2 := keyStore_length_le key c
    simp only [List.length_cons]
    omega

/-- While the key buffer has room the key loop consumes every byte that is not
`=`, NUL or `\n`. -/
theorem keyLoop_append_of_fits (m : Nat) (T rest key : List Nat)
    (hT : ∀ c ∈ T, c ≠ 61 ∧ c ≠ 0 ∧ c ≠ 10) (hfit : key.length + T.length ≤ m - 1) :
    keyLoop m (T ++ rest) key = keyLoop m rest (T.foldl keyStore key) := by
  induction T generalizing key with
  | nil => rfl
  | cons c T ih =>
    have hc := hT c (List.mem_cons_self _ _)
    simp only [List.length_cons] at hfit
    rw [List.cons_append, keyLoop_cons, if_pos ⟨hc.1, hc.2.1, hc.2.2, by omega⟩, List.foldl_cons]
    apply ih (keyStore key c) (fun d hd => hT d (List.mem_cons_of_mem _ hd))
    have := keyStore_length_le key c
    omega

theorem keyLoop_at_equals (m : Nat) (rest key : List Nat) :
    keyLoop m (61 :: rest) key = (key, 61 :: rest) := by
  rw [keyLoop_cons, if_neg (by simp)]

/-- Wherever the key loop stops, the key buffer holds what `keyStore` made of the
bytes consumed. -/
theorem keyLoop_split (m : Nat) (l key : List Nat) :
    ∃ T1 T2, l = T1 ++ T2 ∧ keyLoop m l key = (T1.foldl keyStore key, T2) := by
  induction l generalizing key with
  | nil => exact ⟨[], [], rfl, rfl⟩
  | cons c cs ih =>
    rw [keyLoop_cons]
    split
    · obtain ⟨T1, T2, h1, h2⟩ := ih (keyStore key c)
      exact ⟨c :: T1, T2, by rw [h1]; rfl, by rw [h2]; rfl⟩
    · exact ⟨[], c :: cs, rfl, rfl⟩

/-- When the key loop stops at the first `=` of the line, it has consumed
everything before it. -/
theorem keyLoop_of_peek_equals (m : Nat) (T rest key : List Nat) (hT : 61 ∉ T)
    (h : peek (keyLoop m (T ++ 61 :: rest) key).2 = 61) :
    keyLoop m (T ++ 61 :: rest) key = (T.foldl keyStore key, 61 :: rest) := by
  induction T generalizing key with
  | nil => exact keyLoop_at_equals m rest key
  | cons c T ih =>
    have hc : c ≠ 61 := fun e => hT (e ▸ List.mem_cons_self _ _)
    rw [List.cons_append, keyLoop_cons] at h ⊢
    split
    · rename_i hcond
      rw [if_pos hcond] at h
      exact ih _ (fun hm => hT (List.mem_cons_of_mem _ hm)) h
    · rename_i hcond
      rw [if_neg hcond] at h
      exact absurd h hc

/-- A key of `m` or more bytes without blanks and without `=` does not fit: the
key loop stops before the `=`. -/
theorem keyLoop_overflow (m : Nat) (T rest key : List Nat)
    (hT : ∀ c ∈ T, c ≠ 32 ∧ c ≠ 9 ∧ c ≠ 61) (hne : T ≠ []) (hlen : m ≤ key.length + T.length) :
    peek (keyLoop m (T ++ rest) key).2 ≠ 61 := by
  induction T generalizing key with
  | nil => exact absurd rfl hne
  | cons c T ih =>
    have hc := hT c (List.mem_cons_self _ _)
    rw [List.cons_append, keyLoop_cons]
    split
    · rename_i hcond
      have hst : keyStore key c = key ++ [c] := by
        unfold keyStore
        rw [if_pos ⟨hc.1, hc.2.1⟩]
      rw [hst]
      simp only [List.length_cons] at hlen
      have hT' : T ≠ [] := by
        intro h0
        subst h0
        simp only [List.length_nil] at hlen
        omega
      exact ih (key ++ [c]) (fun d hd => hT d (List.mem_cons_of_mem _ hd)) hT'
        (by simp only [List.length_append, List.length_singleton]; omega)
    · simp only [peek]
      exact hc.2.2

theorem foldl_keyStore_nonblank (T key : List Nat) (hT : ∀ c ∈ T, c ≠ 32 ∧ c ≠ 9) :
    T.foldl keyStore key = key ++ T := by
  induction T generalizing key with
  | nil => simp
  | cons c T ih =>
    have hc := hT c (List.mem_cons_self _ _)
    rw [List.foldl_cons, ih _ (fun d hd => hT d (List.mem_cons_of_mem _ hd))]
    unfold keyStore
    rw [if_pos hc]
    simp

theorem foldl_keyStore_blanks (post key : List Nat) (hpost : ∀ x ∈ post, x = 32 ∨ x = 9) :
    ∃ bl, post.foldl keyStore key = key ++ bl ∧ ∀ x ∈ bl, x = 32 ∨ x = 9 := by
  induction post generalizing key with
  | nil => exact ⟨[], by simp, by simp⟩
  | cons c post ih =>
    have hc := hpost c (List.mem_cons_self _ _)
    obtain ⟨bl, h1, h2⟩ := ih (keyStore key c) (fun d hd => hpost d (List.mem_cons_of_mem _ hd))
    rw [List.foldl_cons, h1]
    unfold keyStore
    split_ifs
    · exact ⟨c :: bl, by simp, fun x hx => by
        rcases List.mem_cons.1 hx with h | h
        · rw [h]; exact hc
        · exact h2 x h⟩
    · exact ⟨c :: bl, by simp, fun x hx => by
        rcases List.mem_cons.1 hx with h | h
        · rw [h]; exact hc
        · exact h2 x h⟩
    · exact ⟨bl, rfl, h2⟩

theorem trimKey_append_blanks (X bl : List Nat) (hbl : ∀ x ∈ bl, x = 32 ∨ x = 9) :
    trimKey (X ++ bl) = trimKey X := by
  induction bl using List.reverseRecOn with
  | nil => simp
  | append_singleton bl b ih =>
    have hb := hbl b (by simp)
    have hb' : (b == 32 || b == 9) = true := by
      rcases hb with h | h <;> simp [h]
    rw [← List.append_assoc]
    unfold trimKey at ih ⊢
    rw [List.reverse_append, List.reverse_singleton, List.singleton_append,
      List.dropWhile_cons, if_pos hb']
    exact ih (fun x hx => hbl x (by simp [hx]))

theorem trimKey_append_nonblank (X : List Nat) (z : Nat) (hz : z ≠ 32 ∧ z ≠ 9) :
    trimKey (X ++ [z]) = X ++ [z] := by
  unfold trimKey
  rw [List.reverse_append, List.reverse_singleton, List.singleton_append, List.dropWhile_cons,
    if_neg (by simp [hz.1, hz.2])]
  simp

theorem collapseAfter_append_nonblank (p : Nat) (A : List Nat) (z : Nat) (hz : z ≠ 32) :
    collapseAfter p (A ++ [z]) = collapseAfter p A ++ [z] := by
  induction A generalizing p with
  | nil => simp [collapseAfter, hz]
  | cons c A ih =>
    rw [List.cons_append, collapseAfter, collapseAfter]
    split
    · exact ih c
    · rw [ih c]; rfl

/-- On a text in which no tab stands next to another blank, the key loop stores
the text with every run of spaces reduced to one space. -/
theorem foldl_keyStore_collapse (T key : List Nat) (p : Nat) (hk : key.getLast? = some p)
    (htab : TabsIsolated (p :: T) = true) :
    T.foldl keyStore key = key ++ collapseAfter p T := by
  induction T generalizing key p with
  | nil => simp [collapseAfter]
  | cons c T ih =>
    have hkne : key.length > 0 := by
      cases key with
      | nil => simp at hk
      | cons a t => simp
    have htab' : TabsIsolated (c :: T) = true := by
      rw [TabsIsolated] at htab
      simp only [Bool.and_eq_true] at htab
      exact htab.2
    have hpc : ¬ (p = 32 ∧ c = 9) := by
      rw [TabsIsolated] at htab
      intro h
      rw [h.1, h.2] at htab
      simp [isBlank] at htab
    rw [List.foldl_cons, collapseAfter]
    by_cases hcb : c ≠ 32 ∧ c ≠ 9
    · have hst : keyStore key c = key ++ [c] := by
        unfold keyStore; rw [if_pos hcb]
      rw [hst, ih (key ++ [c]) c (by simp) htab', if_neg (fun h => hcb.1 h.1)]
      simp
    · by_cases hp : p = 32
      · have hc32 : c = 32 := by
          by_contra hne
          have : c = 9 := by
            by_contra h9
            exact hcb ⟨hne, h9⟩
          exact hpc ⟨hp, this⟩
        have hst : keyStore key c = key := by
          unfold keyStore
          rw [if_neg hcb, if_neg]
          rw [hk, hp]
          simp
        rw [hst, if_pos ⟨hc32, hp⟩]
        subst hc32
        exact ih key 32 (hp ▸ hk) htab'
      · have hst : keyStore key c = key ++ [c] := by
          unfold keyStore
          rw [if_neg hcb, if_pos]
          refine ⟨hkne, ?_⟩
          rw [hk]
          simpa using hp
        rw [hst, ih (key ++ [c]) c (by simp) htab', if_neg (fun h => hp h.2)]
        simp

theorem skipBlanks_cons_nonblank (c : Nat) (t : List Nat) (hc : c ≠ 32 ∧ c ≠ 9) :
    skipBlanks (c :: t) = c :: t := by
  rw [skipBlanks, if_neg (by simp [hc.1, hc.2])]

theorem valueLoop_of_fits (n : Nat) (V value : List Nat)
    (hV : ∀ c ∈ V, c ≠ 0 ∧ c ≠ 10 ∧ c ≠ 13) (hfit : value.length + V.length ≤ n - 1) :
    valueLoop n V value = value ++ V := by
  induction V generalizing value with
  | nil => simp [valueLoop]
  | cons c V ih =>
    have hc := hV c (List.mem_cons_self _ _)
    simp only [List.length_cons] at hfit
    rw [valueLoop, if_pos ⟨hc.1, hc.2.1, hc.2.2, by omega⟩,
      ih _ (fun d hd => hV d (List.mem_cons_of_mem _ hd))
        (by simp only [List.length_append, List.length_singleton]; omega)]
    simp

/-- What the key loop and the trimming make of a key text `K` followed by the
blanks `post`: `K` with every run of spaces reduced to one space. -/
theorem trimKey_foldl_keyStore (K post : List Nat) (hne : K ≠ [])
    (hfirst : ∀ c, K.head? = some c → c ≠ 32 ∧ c ≠ 9)
    (hlast : ∀ c, K.getLast? = some c → c ≠ 32 ∧ c ≠ 9)
    (htab : TabsIsolated K = true) (hpost : ∀ x ∈ post, x = 32 ∨ x = 9) :
    trimKey ((K ++ post).foldl keyStore []) = collapseSpaces K
      ∧ collapseSpaces K ≠ [] := by
  obtain ⟨k0, K', rfl⟩ := List.exists_cons_of_ne_nil hne
  have hk0 := hfirst k0 rfl
  have hstored : (k0 :: K').foldl keyStore [] = collapseSpaces (k0 :: K') := by
    rw [List.foldl_cons]
    have hst : keyStore [] k0 = [k0] := by
      unfold keyStore; rw [if_pos hk0]; rfl
    rw [hst, foldl_keyStore_collapse K' [k0] k0 rfl htab]
    unfold collapseSpaces
    rw [collapseAfter, if_neg (fun h => hk0.1 h.1)]
    rfl
  -- the collapsed key ends with the last byte of the key, which is not a blank
  obtain ⟨A, z, hAz⟩ : ∃ A z, k0 :: K' = A ++ [z] :=
    ⟨(k0 :: K').dropLast, (k0 :: K').getLast (by simp),
      (List.dropLast_append_getLast (by simp)).symm⟩
  have hz : z ≠ 32 ∧ z ≠ 9 := hlast z (by rw [hAz]; simp)
  have hcol : collapseSpaces (k0 :: K') = collapseAfter 0 A ++ [z] := by
    unfold collapseSpaces
    rw [hAz, collapseAfter_append_nonblank 0 A z hz.1]
  rw [List.foldl_append, hstored]
  obtain ⟨bl, h1, h2⟩ := foldl_keyStore_blanks post (collapseSpaces (k0 :: K')) hpost
  rw [h1, trimKey_append_blanks _ _ h2, hcol, trimKey_append_nonblank _ _ hz]
  exact ⟨rfl, by simp⟩

theorem skipBlanks_of_peek_nonblank (rest : List Nat) (h : peek rest ≠ 32 ∧ peek rest ≠ 9) :
    skipBlanks rest = rest := by
  cases rest with
  | nil => rfl
  | cons c t => exact skipBlanks_cons_nonblank c t h

/-- The line `pre K post = rest`, with blanks `pre` and `post` around a key text
`K` that fits the key buffer together with `post`, parses to the key `K` with
its runs of spaces reduced to one space, and to the value that the value loop
reads from `rest`. -/
theorem parseLine_of_form (m n : Nat) (pre K post rest : List Nat)
    (hpre : ∀ x ∈ pre, x = 32 ∨ x = 9) (hpost : ∀ x ∈ post, x = 32 ∨ x = 9)
    (hne : K ≠ [])
    (hfirst : ∀ c, K.head? = some c → c ≠ 32 ∧ c ≠ 9 ∧ c ≠ 35 ∧ c ≠ 13)
    (hlast : ∀ c, K.getLast? = some c → c ≠ 32 ∧ c ≠ 9)
    (hclean : ∀ c ∈ K, c ≠ 61 ∧ c ≠ 0 ∧ c ≠ 10)
    (htab : TabsIsolated K = true) (hfit : K.length + post.length ≤ m - 1) :
    parseLine (pre ++ (K ++ (post ++ 61 :: rest))) m n
      = some (collapseSpaces K, valueLoop n (skipBlanks rest) []) := by
  obtain ⟨hkey, hkne⟩ := trimKey_foldl_keyStore K post hne
    (fun c hc => ⟨(hfirst c hc).1, (hfirst c hc).2.1⟩) hlast htab hpost
  obtain ⟨k0, K', rfl⟩ := List.exists_cons_of_ne_nil hne
  have hk0 := hfirst k0 rfl
  have hk0c := hclean k0 (List.mem_cons_self _ _)
  have hloop : keyLoop m (k0 :: K' ++ (post ++ 61 :: rest)) []
      = ((k0 :: K' ++ post).foldl keyStore [], 61 :: rest) := by
    rw [← List.append_assoc, keyLoop_append_of_fits m (k0 :: K' ++ post) (61 :: rest) []
      (fun c hc => by
        rcases List.mem_append.1 hc with h | h
        · exact hclean c h
        · rcases hpost c h with h | h <;> simp [h])
      (by simp only [List.length_nil, List.length_append]; omega), keyLoop_at_equals]
  unfold parseLine
  simp only
  rw [skipBlanks_blank_append pre _ hpre, List.cons_append,
    skipBlanks_cons_nonblank k0 _ ⟨hk0.1, hk0.2.1⟩]
  rw [if_neg (by simp only [peek]; omega)]
  rw [← List.cons_append, hloop]
  simp only [hkey, peek]
  rw [if_neg (by
    simp only [ne_eq, not_true_eq_false, false_or]
    intro h0
    exact hkne (List.length_eq_zero.1 h0))]
  rfl

/-- Whenever the line `pre K post = rest` parses, the key is `K` with its runs
of spaces reduced to one space. -/
theorem parseLine_key_of_form (m n : Nat) (pre K post rest : List Nat)
    (hpre : ∀ x ∈ pre, x = 32 ∨ x = 9) (hpost : ∀ x ∈ post, x = 32 ∨ x = 9)
    (hne : K ≠ [])
    (hfirst : ∀ c, K.head? = some c → c ≠ 32 ∧ c ≠ 9)
    (hlast : ∀ c, K.getLast? = some c → c ≠ 32 ∧ c ≠ 9)
    (h61 : 61 ∉ K) (htab : TabsIsolated K = true) (k v : List Nat)
    (hp : parseLine (pre ++ (K ++ (post ++ 61 :: rest))) m n = some (k, v)) :
    k = collapseSpaces K := by
  obtain ⟨hkey, _⟩ := trimKey_foldl_keyStore K post hne hfirst hlast htab hpost
  have hT : 61 ∉ K ++ post := by
    intro h
    rcases List.mem_append.1 h with h | h
    · exact h61 h
    · rcases hpost 61 h with h | h <;> simp at h
  unfold parseLine at hp
  simp only at hp
  rw [skipBlanks_blank_append pre _ hpre] at hp
  obtain ⟨k0, K', rfl⟩ := List.exists_cons_of_ne_nil hne
  have hk0 := hfirst k0 rfl
  rw [List.cons_append, skipBlanks_cons_nonblank k0 _ hk0, ← List.cons_append,
    ← List.append_assoc] at hp
  split at hp
  · cases hp
  · split at hp
    · cases hp
    · rename_i hcond
      simp only [not_or, ne_eq, Decidable.not_not] at hcond
      rw [keyLoop_of_peek_equals m _ rest [] hT hcond.1] at hp
      simp only [Option.some.injEq, Prod.mk.injEq] at hp
      rw [← hp.1, hkey]

theorem TabsIsolated_of_nonblank (K : List Nat) (h : ∀ c ∈ K, c ≠ 32 ∧ c ≠ 9) :
    TabsIsolated K = true := by
  induction K with
  | nil => rfl
  | cons a t ih =>
    cases t with
    | nil => rfl
    | cons b t =>
      have ha := h a (List.mem_cons_self _ _)
      have hb := h b (List.mem_cons_of_mem _ (List.mem_cons_self _ _))
      rw [TabsIsolated, ih (fun d hd => h d (List.mem_cons_of_mem _ hd))]
      simp [isBlank, ha.1, ha.2, hb.1, hb.2]

theorem collapseAfter_of_no_space (p : Nat) (K : List Nat) (h : ∀ c ∈ K, c ≠ 32) :
    collapseAfter p K = K := by
  induction K generalizing p with
  | nil => rfl
  | cons c t ih =>
    have hc := h c (List.mem_cons_self _ _)
    rw [collapseAfter, if_neg (fun e => hc e.1), ih c (fun d hd => h d (List.mem_cons_of_mem _ hd))]

set_option maxRecDepth 100000 in
/-- C12 (counterexample). `longKeyLine` is a 63-byte key of letters, one space,
`=` and the value `v`: of the form the claim describes, yet `parseLine` yields
no result.  The key loop stops when the key buffer holds 63 bytes, the next byte
is the space and not `=`. -/
theorem C12_counterexample_63_byte_key :
    longKeyLine = [] ++ (List.replicate 63 107 ++ ([32] ++ 61 :: ([] ++ [118])))
      ∧ (List.replicate 63 107).length ≤ 63
      ∧ parseLine longKeyLine sizeofKey sizeofValue = none := by
  decide

/-- C12 (amended). For every line of the form
[spaces/tabs] KEY [spaces/tabs] `=` [spaces/tabs] VALUE, where KEY is non-empty,
does not start with `#`, contains no whitespace, `=` or NUL, and together with
the spaces and tabs between it and `=` has at most 63 bytes, and VALUE (what
follows the spaces and tabs after `=`) has at most 63 bytes and contains no
newline, carriage return or NUL, `parseLine` with 64-byte buffers returns
exactly (KEY, VALUE), trailing whitespace of VALUE included. -/
theorem C12_parseLine_key_value (pre KEY mid post VALUE : List Nat)
    (hpre : ∀ x ∈ pre, x = 32 ∨ x = 9) (hmid : ∀ x ∈ mid, x = 32 ∨ x = 9)
    (hpost : ∀ x ∈ post, x = 32 ∨ x = 9)
    (hne : KEY ≠ []) (hhash : KEY.head? ≠ some 35)
    (hkey : ∀ c ∈ KEY, isspace c = false ∧ c ≠ 61 ∧ c ≠ 0)
    (hfit : KEY.length + mid.length ≤ 63)
    (hvhead : ∀ c, VALUE.head? = some c → c ≠ 32 ∧ c ≠ 9)
    (hval : ∀ c ∈ VALUE, c ≠ 10 ∧ c ≠ 13 ∧ c ≠ 0) (hvlen : VALUE.length ≤ 63) :
    parseLine (pre ++ (KEY ++ (mid ++ 61 :: (post ++ VALUE)))) sizeofKey sizeofValue
      = some (KEY, VALUE) := by
  have hk : ∀ c ∈ KEY, c ≠ 32 ∧ c ≠ 9 ∧ c ≠ 10 ∧ c ≠ 13 ∧ c ≠ 61 ∧ c ≠ 0 := by
    intro c hc
    obtain ⟨h1, h2, h3⟩ := hkey c hc
    simp only [isspace, Bool.or_eq_false_iff, beq_eq_false_iff_ne, ne_eq] at h1
    exact ⟨h1.1.1.1.1.1, h1.1.1.1.1.2, h1.1.1.1.2, h1.2, h2, h3⟩
  have hform := parseLine_of_form sizeofKey sizeofValue pre KEY mid (post ++ VALUE) hpre hmid hne
    (fun c hc => by
      have hmem : c ∈ KEY := List.mem_of_mem_head? hc
      have := hk c hmem
      refine ⟨this.1, this.2.1, ?_, this.2.2.2.1⟩
      intro h35
      exact hhash (h35 ▸ hc))
    (fun c hc => by
      have := hk c (List.mem_of_mem_getLast? hc)
      exact ⟨this.1, this.2.1⟩)
    (fun c hc => by
      have := hk c hc
      exact ⟨this.2.2.2.2.1, this.2.2.2.2.2, this.2.2.1⟩)
    (TabsIsolated_of_nonblank KEY (fun c hc => ⟨(hk c hc).1, (hk c hc).2.1⟩))
    (by unfold sizeofKey; omega)
  rw [hform]
  have hcol : collapseSpaces KEY = KEY :=
    collapseAfter_of_no_space 0 KEY (fun c hc => (hk c hc).1)
  have hskip : skipBlanks (post ++ VALUE) = VALUE := by
    rw [skipBlanks_blank_append post _ hpost]
    cases VALUE with
    | nil => rfl
    | cons c t => exact skipBlanks_cons_nonblank c t (hvhead c rfl)
  have hvl : valueLoop sizeofValue VALUE [] = VALUE := by
    rw [valueLoop_of_fits sizeofValue VALUE [] (fun c hc => by
      have := hval c hc
      exact ⟨this.2.2, this.1, this.2.1⟩) (by unfold sizeofValue; simp only [List.length_nil]; omega)]
    rfl
  rw [hcol, hskip, hvl]

/-- Witness of the amended C12 on the line `  accent \t= 00FF00  `. -/
theorem C12_parseLine_key_value_witness :
    parseLine (bytes ("  ") ++ (bytes ("accent") ++ (bytes (" \t") ++ 61 :: (bytes (" ")
        ++ bytes ("00FF00  "))))) sizeofKey sizeofValue
      = some (bytes ("accent"), bytes ("00FF00  ")) :=
  C12_parseLine_key_value (bytes ("  ")) (bytes ("accent")) (bytes (" \t")) (bytes (" "))
    (bytes ("00FF00  ")) (by decide) (by decide) (by decide) (by decide) (by decide) (by decide)
    (by decide) (by decide) (by decide) (by decide)

/-- C13. A line that, after its leading spaces and tabs, is empty or begins
with `#` yields no result, whatever follows the `#` and whatever the buffer
sizes. -/
theorem C13_parseLine_comment_or_blank (pre rest : List Nat) (m n : Nat)
    (hpre : ∀ x ∈ pre, x = 32 ∨ x = 9) (hrest : peek rest = 0 ∨ peek rest = 35) :
    parseLine (pre ++ rest) m n = none := by
  unfold parseLine
  simp only
  rw [skipBlanks_blank_append pre _ hpre,
    skipBlanks_of_peek_nonblank rest (by rcases hrest with h | h <;> rw [h] <;> decide)]
  rcases hrest with h | h <;> simp [h]

/-- Witness of C13 on the comment line `  # accent=00FF00`. -/
theorem C13_parseLine_comment_or_blank_witness :
    parseLine (bytes ("  ") ++ bytes ("# accent=00FF00")) sizeofKey sizeofValue = none :=
  C13_parseLine_comment_or_blank (bytes ("  ")) (bytes ("# accent=00FF00")) sizeofKey sizeofValue
    (by decide) (Or.inr (by decide))

set_option maxRecDepth 100000 in
/-- C14 (counterexample). The key text of `wideKeyLine` is `a`, 62 spaces and
`b`: 64 bytes, so it does not end within the 63 bytes of the key buffer, yet
`parseLine` yields a result, with the key `a b`: the key loop stores only the
first space of the run. -/
theorem C14_counterexample_wide_key :
    wideKeyLine = (97 :: List.replicate 62 32 ++ [98]) ++ 61 :: [49]
      ∧ (97 :: List.replicate 62 32 ++ [98]).length = 64
      ∧ parseLine wideKeyLine sizeofKey sizeofValue = some (bytes ("a b"), bytes ("1")) := by
  decide

/-- C14 (amended). `parseLine` with 64-byte buffers yields no result for a line
that contains no `=`, for a line whose text before the first `=` is empty or
only spaces and tabs, and for a line whose key has more than 63 bytes and no
space or tab among its first 64 bytes. -/
theorem C14_parseLine_no_result (l : List Nat)
    (h : 61 ∉ l
      ∨ (∃ pre rest, l = pre ++ 61 :: rest ∧ ∀ x ∈ pre, x = 32 ∨ x = 9)
      ∨ (∃ pre T rest, l = pre ++ (T ++ rest) ∧ (∀ x ∈ pre, x = 32 ∨ x = 9)
          ∧ T.length = 64 ∧ ∀ c ∈ T, c ≠ 32 ∧ c ≠ 9 ∧ c ≠ 61)) :
    parseLine l sizeofKey sizeofValue = none := by
  rcases h with h | ⟨pre, rest, rfl, hpre⟩ | ⟨pre, T, rest, rfl, hpre, hlen, hT⟩
  · exact parseLine_of_no_equals _ _ h
  · unfold parseLine
    simp only
    rw [skipBlanks_blank_append pre _ hpre, skipBlanks_cons_nonblank 61 rest (by decide)]
    rw [if_neg (by simp [peek]), keyLoop_at_equals]
    simp [trimKey]
  · have hne : T ≠ [] := by
      intro h0
      rw [h0] at hlen
      simp at hlen
    obtain ⟨t0, T', rfl⟩ := List.exists_cons_of_ne_nil hne
    have ht0 := hT t0 (List.mem_cons_self _ _)
    unfold parseLine
    simp only
    rw [skipBlanks_blank_append pre _ hpre, List.cons_append,
      skipBlanks_cons_nonblank t0 _ ⟨ht0.1, ht0.2.1⟩, ← List.cons_append]
    split
    · rfl
    · rw [if_pos]
      left
      exact keyLoop_overflow sizeofKey (t0 :: T') rest [] hT hne
        (by unfold sizeofKey; simp only [List.length_nil]; omega)

set_option maxRecDepth 100000 in
/-- Witness of the amended C14 on `overlongKeyLine`, a 64-byte key without
blanks followed by `=v`. -/
theorem C14_parseLine_no_result_witness :
    parseLine overlongKeyLine sizeofKey sizeofValue = none :=
  C14_parseLine_no_result overlongKeyLine
    (Or.inr (Or.inr ⟨[], List.replicate 64 107, bytes ("=v"), by decide, by decide, by decide,
      by decide⟩))

/-- C15 (counterexample). The key part of the line `a  b=1` is `a  b`, with two
interior spaces, but `parseLine` returns the key `a b`: the second space is not
kept.  In `a \tb=1` the tab that follows the space is dropped as well. -/
theorem C15_counterexample_interior_spaces :
    parseLine (bytes ("a  b=1")) sizeofKey sizeofValue = some (bytes ("a b"), bytes ("1"))
      ∧ bytes ("a b") ≠ bytes ("a  b")
      ∧ parseLine (bytes ("a \tb=1")) sizeofKey sizeofValue = some (bytes ("a b"), bytes ("1"))
      ∧ bytes ("a b") ≠ bytes ("a \tb") := by
  decide

/-- C15 (amended). For every line whose key part `K` (the text before the first
`=`, without the spaces and tabs around it) has no tab next to another space or
tab, the key returned by `parseLine`, if any, is `K` with every run of interior
spaces reduced to a single space; isolated interior spaces and tabs are kept in
their position.  The key is returned whenever `K` contains no NUL or newline,
does not begin with `#` or a carriage return, and has at most 63 bytes together
with the spaces and tabs between it and `=`. -/
theorem C15_parseLine_interior_whitespace (pre K post rest : List Nat)
    (hpre : ∀ x ∈ pre, x = 32 ∨ x = 9) (hpost : ∀ x ∈ post, x = 32 ∨ x = 9)
    (hne : K ≠ [])
    (hfirst : ∀ c, K.head? = some c → c ≠ 32 ∧ c ≠ 9)
    (hlast : ∀ c, K.getLast? = some c → c ≠ 32 ∧ c ≠ 9)
    (h61 : 61 ∉ K) (htab : TabsIsolated K = true) :
    (∀ k v, parseLine (pre ++ (K ++ (post ++ 61 :: rest))) sizeofKey sizeofValue = some (k, v) →
        k = collapseSpaces K)
      ∧ ((∀ c ∈ K, c ≠ 0 ∧ c ≠ 10) → (∀ c, K.head? = some c → c ≠ 35 ∧ c ≠ 13) →
          K.length + post.length ≤ 63 →
          parseLine (pre ++ (K ++ (post ++ 61 :: rest))) sizeofKey sizeofValue
            = some (collapseSpaces K, valueLoop sizeofValue (skipBlanks rest) [])) := by
  constructor
  · intro k v hp
    exact parseLine_key_of_form sizeofKey sizeofValue pre K post rest hpre hpost hne hfirst hlast
      h61 htab k v hp
  · intro hclean hhead hfit
    exact parseLine_of_form sizeofKey sizeofValue pre K post rest hpre hpost hne
      (fun c hc => ⟨(hfirst c hc).1, (hfirst c hc).2, (hhead c hc).1, (hhead c hc).2⟩)
      hlast
      (fun c hc => ⟨fun e => h61 (e ▸ hc), (hclean c hc).1, (hclean c hc).2⟩)
      htab (by unfold sizeofKey; omega)

/-- Witness of the amended C15 on the line ` a  b\tc  = v`, whose key part
`a  b\tc` is returned as `a b\tc`. -/
theorem C15_parseLine_interior_whitespace_witness :
    collapseSpaces (bytes ("a  b\tc")) = bytes ("a b\tc")
      ∧ parseLine (bytes (" ") ++ (bytes ("a  b\tc") ++ (bytes ("  ") ++ 61 :: bytes (" v"))))
          sizeofKey sizeofValue
        = some (collapseSpaces (bytes ("a  b\tc")),
            valueLoop sizeofValue (skipBlanks (bytes (" v"))) []) :=
  ⟨by decide,
    (C15_parseLine_interior_whitespace (bytes (" ")) (bytes ("a  b\tc")) (bytes ("  "))
      (bytes (" v")) (by decide) (by decide) (by decide) (by decide) (by decide) (by decide)
      (by decide)).2 (by decide) (by decide) (by decide)⟩

theorem strlen_append_of_nonzero (pre l : List Nat) (h : ∀ x ∈ pre, x ≠ 0) :
    strlen (pre ++ l) = pre.length + strlen l := by
  induction pre with
  | nil => simp
  | cons c pre ih =>
    have hc := h c (List.mem_cons_self _ _)
    rw [List.cons_append, strlen, if_neg hc, ih (fun x hx => h x (List.mem_cons_of_mem _ hx))]
    simp only [List.length_cons]
    omega

theorem skipBlanks_split (l : List Nat) :
    ∃ pre, l = pre ++ skipBlanks l ∧ ∀ x ∈ pre, x = 32 ∨ x = 9 := by
  induction l with
  | nil => exact ⟨[], rfl, by simp⟩
  | cons c cs ih =>
    rw [skipBlanks]
    split
    · rename_i hc
      obtain ⟨pre, h1, h2⟩ := ih
      refine ⟨c :: pre, by rw [List.cons_append, ← h1], ?_⟩
      intro x hx
      rcases List.mem_cons.1 hx with h | h
      · rw [h]; exact hc
      · exact h2 x h
    · exact ⟨[], rfl, by simp⟩

theorem keyLoop_split_nonzero (m : Nat) (l key : List Nat) :
    ∃ T1, l = T1 ++ (keyLoop m l key).2 ∧ ∀ x ∈ T1, x ≠ 0 := by
  induction l generalizing key with
  | nil => exact ⟨[], rfl, by simp⟩
  | cons c cs ih =>
    rw [keyLoop_cons]
    split
    · rename_i hc
      obtain ⟨T1, h1, h2⟩ := ih (keyStore key c)
      refine ⟨c :: T1, by rw [List.cons_append, ← h1], ?_⟩
      intro x hx
      rcases List.mem_cons.1 hx with h | h
      · rw [h]; exact hc.2.1
      · exact h2 x h
    · exact ⟨[], rfl, by simp⟩

theorem keyLoop_length_le (m : Nat) (l key : List Nat) (hk : key.length ≤ m - 1) :
    (keyLoop m l key).1.length ≤ m - 1 := by
  induction l generalizing key with
  | nil => simpa [keyLoop] using hk
  | cons c cs ih =>
    rw [keyLoop_cons]
    split
    · rename_i hc
      apply ih
      have := keyStore_length_le key c
      omega
    · exact hk

theorem trimKey_length_le (key : List Nat) : (trimKey key).length ≤ key.length := by
  unfold trimKey
  rw [List.length_reverse]
  have := (List.dropWhile_sublist (fun c => c == 32 || c == 9) (l := key.reverse)).length_le
  simpa using this

theorem valueLoop_length_le (n : Nat) (l value : List Nat) (hv : value.length ≤ n - 1) :
    (valueLoop n l value).length ≤ n - 1 := by
  induction l generalizing value with
  | nil => simpa [valueLoop] using hv
  | cons c cs ih =>
    rw [valueLoop]
    split
    · rename_i hc
      apply ih
      simp only [List.length_append, List.length_singleton]
      omega
    · exact hv

theorem valueLoop_no_zero (n : Nat) (l value : List Nat) (hv : ∀ x ∈ value, x ≠ 0) :
    ∀ x ∈ valueLoop n l value, x ≠ 0 := by
  induction l generalizing value with
  | nil => simpa [valueLoop] using hv
  | cons c cs ih =>
    rw [valueLoop]
    split
    · rename_i hc
      apply ih
      intro x hx
      rcases List.mem_append.1 hx with h | h
      · exact hv x h
      · simp only [List.mem_singleton] at h
        rw [h]; exact hc.1
    · exact hv

theorem inParseLine_mono {L L' K V : Nat} {a : Access} (h : a.inParseLine L K V)
    (hL : L ≤ L') : a.inParseLine L' K V := by
  cases a <;> simp only [Access.inParseLine] at h ⊢ <;> omega

theorem skipBlanksAcc_bounds (pos : Nat) (l : List Nat) (K V : Nat) :
    ∀ a ∈ skipBlanksAcc pos l, a.inParseLine (pos + strlen l) K V := by
  induction l generalizing pos with
  | nil =>
    intro a ha
    simp only [skipBlanksAcc, List.mem_singleton] at ha
    subst ha
    simp [Access.inParseLine]
  | cons c cs ih =>
    intro a ha
    rw [skipBlanksAcc] at ha
    split at ha
    · rename_i hc
      have hc0 : c ≠ 0 := by rcases hc with h | h <;> omega
      rw [strlen, if_neg hc0]
      rcases List.mem_cons.1 ha with h | h
      · subst h
        simp [Access.inParseLine]
      · exact inParseLine_mono (ih (pos + 1) a h) (by omega)
    · simp only [List.mem_singleton] at ha
      subst ha
      simp [Access.inParseLine]

theorem keyLoopAcc_bounds (m pos : Nat) (l key : List Nat) (V : Nat) :
    ∀ a ∈ keyLoopAcc m pos l key, a.inParseLine (pos + strlen l) (m - 1) V := by
  induction l generalizing pos key with
  | nil =>
    intro a ha
    simp only [keyLoopAcc, List.mem_singleton] at ha
    subst ha
    simp [Access.inParseLine]
  | cons c cs ih =>
    intro a ha
    rw [keyLoopAcc] at ha
    split at ha
    · rename_i hc
      rw [strlen, if_neg hc.2.1]
      have hrec : ∀ key', ∀ a ∈ keyLoopAcc m (pos + 1) cs key',
          a.inParseLine (pos + (strlen cs + 1)) (m - 1) V :=
        fun key' a h => inParseLine_mono (ih (pos + 1) key' a h) (by omega)
      split at ha
      · simp only [List.mem_cons] at ha
        rcases ha with h | h | h
        · subst h; simp [Access.inParseLine]
        · subst h; simp only [Access.inParseLine]; exact hc.2.2.2
        · exact hrec _ a h
      · split at ha
        · simp only [List.mem_cons] at ha
          rcases ha with h | h | h | h
          · subst h; simp [Access.inParseLine]
          · subst h; simp only [Access.inParseLine]; omega
          · subst h; simp only [Access.inParseLine]; exact hc.2.2.2
          · exact hrec _ a h
        · split at ha
          · simp only [List.mem_cons] at ha
            rcases ha with h | h | h
            · subst h; simp [Access.inParseLine]
            · subst h; simp only [Access.inParseLine]; omega
            · exact hrec _ a h
          · simp only [List.mem_cons] at ha
            rcases ha with h | h
            · subst h; simp [Access.inParseLine]
            · exact hrec _ a h
    · simp only [List.mem_singleton] at ha
      subst ha
      simp [Access.inParseLine]

theorem trimKeyAccRev_bounds (r : List Nat) (L V : Nat) :
    ∀ a ∈ trimKeyAccRev r, a.inParseLine L r.length V := by
  induction r with
  | nil => intro a ha; simp [trimKeyAccRev] at ha
  | cons c r ih =>
    intro a ha
    rw [trimKeyAccRev] at ha
    rcases List.mem_cons.1 ha with h | h
    · subst h; simp [Access.inParseLine]
    · split at h
      · have := ih a h
        cases a <;> simp only [Access.inParseLine, List.length_cons] at this ⊢ <;> omega
      · simp at h

theorem valueLoopAcc_bounds (n pos : Nat) (l value : List Nat) (K : Nat) :
    ∀ a ∈ valueLoopAcc n pos l value, a.inParseLine (pos + strlen l) K (n - 1) := by
  induction l generalizing pos value with
  | nil =>
    intro a ha
    simp only [valueLoopAcc, List.mem_singleton] at ha
    subst ha
    simp [Access.inParseLine]
  | cons c cs ih =>
    intro a ha
    rw [valueLoopAcc] at ha
    split at ha
    · rename_i hc
      rw [strlen, if_neg hc.1]
      simp only [List.mem_cons] at ha
      rcases ha with h | h | h
      · subst h; simp [Access.inParseLine]
      · subst h; simp only [Access.inParseLine]; exact hc.2.2.2
      · exact inParseLine_mono (ih (pos + 1) _ a h) (by omega)
    · simp only [List.mem_singleton] at ha
      subst ha
      simp [Access.inParseLine]

theorem inParseLine_mono3 {L L' K K' V V' : Nat} {a : Access} (h : a.inParseLine L K V)
    (hL : L ≤ L') (hK : K ≤ K') (hV : V ≤ V') : a.inParseLine L' K' V' := by
  cases a <;> simp only [Access.inParseLine] at h ⊢ <;> omega

/-- Every access of `parseLine` stays within the line up to its terminating NUL
and within the key and value buffers. -/
theorem parseLineAcc_bounds (line : List Nat) (m n : Nat) (hm : 1 ≤ m) (hn : 1 ≤ n) :
    ∀ a ∈ parseLineAcc line m n, a.inParseLine (strlen line) m n := by
  obtain ⟨pre1, h1, hpre1⟩ := skipBlanks_split line
  have hpre1z : ∀ x ∈ pre1, x ≠ 0 := fun x hx => by
    rcases hpre1 x hx with h | h <;> omega
  have hL1 : strlen line = pre1.length + strlen (skipBlanks line) := by
    conv_lhs => rw [h1]
    exact strlen_append_of_nonzero _ _ hpre1z
  have hlen1 : line.length = pre1.length + (skipBlanks line).length := by
    have := congrArg List.length h1
    simpa only [List.length_append] using this
  have hp1 : line.length - (skipBlanks line).length = pre1.length := by omega
  obtain ⟨T1, h2, hT1⟩ := keyLoop_split_nonzero m (skipBlanks line) []
  have hL2 : strlen (skipBlanks line)
      = T1.length + strlen (keyLoop m (skipBlanks line) []).2 := by
    conv_lhs => rw [h2]
    exact strlen_append_of_nonzero _ _ hT1
  have hlen2 : (skipBlanks line).length
      = T1.length + (keyLoop m (skipBlanks line) []).2.length := by
    have := congrArg List.length h2
    simpa only [List.length_append] using this
  have hp2 : line.length - (keyLoop m (skipBlanks line) []).2.length
      = pre1.length + T1.length := by omega
  have hklen : (keyLoop m (skipBlanks line) []).1.length ≤ m - 1 :=
    keyLoop_length_le m _ [] (by simp)
  have htrim := trimKey_length_le (keyLoop m (skipBlanks line) []).1
  -- the accesses up to the test of `*line` after the leading blanks
  have ha1 : ∀ a ∈ skipBlanksAcc 0 line
      ++ [Access.readLine (line.length - (skipBlanks line).length)],
      a.inParseLine (strlen line) m n := by
    intro a ha
    rcases List.mem_append.1 ha with h | h
    · exact inParseLine_mono3 (skipBlanksAcc_bounds 0 line m n a h) (by omega) (le_refl _)
        (le_refl _)
    · simp only [List.mem_singleton] at h
      subst h
      simp only [Access.inParseLine]
      omega
  -- the accesses of the key part
  have ha2 : ∀ a ∈ keyLoopAcc m (line.length - (skipBlanks line).length) (skipBlanks line) []
      ++ trimKeyAccRev (keyLoop m (skipBlanks line) []).1.reverse
      ++ [Access.writeKey (trimKey (keyLoop m (skipBlanks line) []).1).length 0,
          Access.readLine (line.length - (keyLoop m (skipBlanks line) []).2.length)],
      a.inParseLine (strlen line) m n := by
    intro a ha
    rcases List.mem_append.1 ha with h | h
    · rcases List.mem_append.1 h with h | h
      · exact inParseLine_mono3 (keyLoopAcc_bounds m _ _ [] n a h) (by omega) (by omega)
          (le_refl _)
      · exact inParseLine_mono3 (trimKeyAccRev_bounds _ (strlen line) n a h) (le_refl _)
          (by rw [List.length_reverse]; omega) (le_refl _)
    · simp only [List.mem_cons, List.mem_singleton, List.not_mem_nil, or_false] at h
      rcases h with h | h
      · subst h
        simp only [Access.inParseLine]
        omega
      · subst h
        simp only [Access.inParseLine]
        omega
  unfold parseLineAcc
  simp only
  split
  · exact ha1
  · split
    · intro a ha
      rcases List.mem_append.1 ha with h | h
      · exact ha1 a h
      · exact ha2 a h
    · rename_i hcond
      simp only [not_or, ne_eq, Decidable.not_not] at hcond
      -- the line pointer is at `=`
      obtain ⟨r, hr⟩ : ∃ r, (keyLoop m (skipBlanks line) []).2 = 61 :: r := by
        cases hkl : (keyLoop m (skipBlanks line) []).2 with
        | nil => rw [hkl] at hcond; simp [peek] at hcond
        | cons c r =>
          rw [hkl] at hcond
          simp only [peek] at hcond
          exact ⟨r, by rw [hcond.1]⟩
      have hL3 : strlen (keyLoop m (skipBlanks line) []).2 = strlen r + 1 := by
        rw [hr, strlen, if_neg (by decide)]
      obtain ⟨pre3, h3, hpre3⟩ := skipBlanks_split r
      have hpre3z : ∀ x ∈ pre3, x ≠ 0 := fun x hx => by
        rcases hpre3 x hx with h | h <;> omega
      have hL4 : strlen r = pre3.length + strlen (skipBlanks r) := by
        conv_lhs => rw [h3]
        exact strlen_append_of_nonzero _ _ hpre3z
      have hlen3 : r.length = pre3.length + (skipBlanks r).length := by
        have := congrArg List.length h3
        simpa only [List.length_append] using this
      have hlen3' : (keyLoop m (skipBlanks line) []).2.length = r.length + 1 := by
        rw [hr]; rfl
      have hp3 : line.length - (skipBlanks r).length
          = pre1.length + T1.length + 1 + pre3.length := by omega
      have hvlen : (valueLoop n (skipBlanks r) []).length ≤ n - 1 :=
        valueLoop_length_le n _ [] (by simp)
      have hcons : (61 :: r).length = r.length + 1 := rfl
      have ha2' := ha2
      rw [hr] at ha2' ⊢
      simp only [List.drop_succ_cons, List.drop_zero]
      intro a ha
      rcases List.mem_append.1 ha with h | h
      · rcases List.mem_append.1 h with h | h
        · rcases List.mem_append.1 h with h | h
          · rcases List.mem_append.1 h with h | h
            · exact ha1 a h
            · exact ha2' a h
          · exact inParseLine_mono3 (skipBlanksAcc_bounds _ r m n a h) (by omega) (le_refl _)
              (le_refl _)
        · exact inParseLine_mono3 (valueLoopAcc_bounds n _ _ [] m a h) (by omega) (le_refl _)
            (by omega)
      · simp only [List.mem_singleton] at h
        subst h
        simp only [Access.inParseLine]
        omega

theorem parseLine_value_props {line : List Nat} {m n : Nat} {k v : List Nat}
    (h : parseLine line m n = some (k, v)) :
    k.length ≤ m - 1 ∧ v.length ≤ n - 1 ∧ (∀ x ∈ v, x ≠ 0)
      ∧ Access.writeKey k.length 0 ∈ parseLineAcc line m n
      ∧ Access.writeValue v.length 0 ∈ parseLineAcc line m n := by
  unfold parseLine at h
  unfold parseLineAcc
  simp only at h ⊢
  split at h
  · cases h
  · rename_i h1
    rw [if_neg h1]
    split at h
    · cases h
    · rename_i h2
      rw [if_neg h2]
      simp only [Option.some.injEq, Prod.mk.injEq] at h
      obtain ⟨hk, hv⟩ := h
      have hklen : (keyLoop m (skipBlanks line) []).1.length ≤ m - 1 :=
        keyLoop_length_le m _ [] (by simp)
      have htrim := trimKey_length_le (keyLoop m (skipBlanks line) []).1
      refine ⟨by rw [← hk]; omega, by rw [← hv]; exact valueLoop_length_le n _ [] (by simp),
        by rw [← hv]; exact valueLoop_no_zero n _ [] (by simp), ?_, ?_⟩
      · rw [← hk]
        simp
      · rw [← hv]
        simp

theorem replayKey_append (a b : List Access) (key : List Nat) :
    replayKey (a ++ b) key = replayKey b (replayKey a key) := by
  induction a generalizing key with
  | nil => rfl
  | cons x a ih =>
    cases x <;> exact ih _

theorem replayValue_append (a b : List Access) (value : List Nat) :
    replayValue (a ++ b) value = replayValue b (replayValue a value) := by
  induction a generalizing value with
  | nil => rfl
  | cons x a ih =>
    cases x <;> exact ih _

theorem writeAt_length (buf : List Nat) (c : Nat) : writeAt buf buf.length c = buf ++ [c] := by
  unfold writeAt
  rw [if_neg (by omega)]

theorem replayKey_skipBlanksAcc (pos : Nat) (l key : List Nat) :
    replayKey (skipBlanksAcc pos l) key = key := by
  induction l generalizing pos with
  | nil => rfl
  | cons c cs ih =>
    rw [skipBlanksAcc]
    split
    · simp only [replayKey, ih]
    · rfl

theorem replayValue_skipBlanksAcc (pos : Nat) (l value : List Nat) :
    replayValue (skipBlanksAcc pos l) value = value := by
  induction l generalizing pos with
  | nil => rfl
  | cons c cs ih =>
    rw [skipBlanksAcc]
    split
    · simp only [replayValue, ih]
    · rfl

theorem replayKey_trimKeyAccRev (r key : List Nat) :
    replayKey (trimKeyAccRev r) key = key := by
  induction r with
  | nil => rfl
  | cons c r ih =>
    rw [trimKeyAccRev]
    split
    · simp only [replayKey, ih]
    · rfl

theorem replayValue_trimKeyAccRev (r value : List Nat) :
    replayValue (trimKeyAccRev r) value = value := by
  induction r with
  | nil => rfl
  | cons c r ih =>
    rw [trimKeyAccRev]
    split
    · simp only [replayValue, ih]
    · rfl

/-- The writes of the key loop build the key buffer that `keyLoop` returns. -/
theorem replayKey_keyLoopAcc (m pos : Nat) (l key : List Nat) :
    replayKey (keyLoopAcc m pos l key) key = (keyLoop m l key).1 := by
  induction l generalizing pos key with
  | nil => rfl
  | cons c cs ih =>
    rw [keyLoopAcc, keyLoop]
    split
    · split
      · simp only [replayKey, writeAt_length, ih]
      · split
        · simp only [replayKey, writeAt_length, ih]
        · split
          · simp only [replayKey, ih]
          · simp only [replayKey, ih]
    · rfl

theorem replayValue_keyLoopAcc (m pos : Nat) (l key value : List Nat) :
    replayValue (keyLoopAcc m pos l key) value = value := by
  induction l generalizing pos key with
  | nil => rfl
  | cons c cs ih =>
    rw [keyLoopAcc]
    split
    · split
      · simp only [replayValue, ih]
      · split
        · simp only [replayValue, ih]
        · split
          · simp only [replayValue, ih]
          · simp only [replayValue, ih]
    · rfl

/-- The writes of the value loop build the value that `valueLoop` returns. -/
theorem replayValue_valueLoopAcc (n pos : Nat) (l value : List Nat) :
    replayValue (valueLoopAcc n pos l value) value = valueLoop n l value := by
  induction l generalizing pos value with
  | nil => rfl
  | cons c cs ih =>
    rw [valueLoopAcc, valueLoop]
    split
    · simp only [replayValue, writeAt_length, ih]
    · rfl

theorem replayKey_valueLoopAcc (n pos : Nat) (l value key : List Nat) :
    replayKey (valueLoopAcc n pos l value) key = key := by
  induction l generalizing pos value with
  | nil => rfl
  | cons c cs ih =>
    rw [valueLoopAcc]
    split
    · simp only [replayKey, ih]
    · rfl

theorem trimKey_prefix (key : List Nat) : ∃ bl, key = trimKey key ++ bl := by
  obtain ⟨t, ht⟩ := List.dropWhile_suffix (fun c => c == 32 || c == 9) (l := key.reverse)
  refine ⟨t.reverse, ?_⟩
  have := congrArg List.reverse ht
  simp only [List.reverse_append, List.reverse_reverse] at this
  exact this.symm

theorem cstring_append_zero (P X : List Nat) (hP : ∀ x ∈ P, x ≠ 0) :
    cstring (P ++ 0 :: X) = P := by
  unfold cstring
  induction P with
  | nil => simp
  | cons c P ih =>
    have hc := hP c (List.mem_cons_self _ _)
    rw [List.cons_append, List.takeWhile_cons, if_pos (by simp [hc]),
      ih (fun x hx => hP x (List.mem_cons_of_mem _ hx))]

theorem cstring_writeAt_terminator (P bl : List Nat) (hP : ∀ x ∈ P, x ≠ 0) :
    cstring (writeAt (P ++ bl) P.length 0) = P := by
  unfold writeAt
  cases bl with
  | nil =>
    rw [List.append_nil, if_neg (by omega)]
    exact cstring_append_zero P [] hP
  | cons b bl =>
    rw [if_pos (by simp)]
    have : (P ++ b :: bl).set P.length 0 = P ++ 0 :: bl := by
      rw [List.set_append_right _ _ (le_refl _)]
      simp
    rw [this]
    exact cstring_append_zero P bl hP

/-- The writes that `parseLine` makes leave in the `key` and `value` buffers the
NUL-terminated strings that it returns. -/
theorem parseLineAcc_replay {line : List Nat} {m n : Nat} {k v : List Nat}
    (h : parseLine line m n = some (k, v)) :
    cstring (replayKey (parseLineAcc line m n) []) = k
      ∧ cstring (replayValue (parseLineAcc line m n) []) = v := by
  have hk0 := parseLine_key_no_zero h
  unfold parseLine at h
  unfold parseLineAcc
  simp only at h ⊢
  split at h
  · cases h
  · rename_i h1
    rw [if_neg h1]
    split at h
    · cases h
    · rename_i h2
      rw [if_neg h2]
      simp only [Option.some.injEq, Prod.mk.injEq] at h
      obtain ⟨hk, hv⟩ := h
      obtain ⟨bl, hbl⟩ := trimKey_prefix (keyLoop m (skipBlanks line) []).1
      constructor
      · simp only [replayKey_append, replayKey_skipBlanksAcc, replayKey_keyLoopAcc,
          replayKey_trimKeyAccRev, replayKey_valueLoopAcc, replayKey]
        rw [hk]
        rw [hk] at hbl
        conv_lhs => rw [hbl]
        exact cstring_writeAt_terminator k bl hk0
      · simp only [replayValue_append, replayValue_skipBlanksAcc, replayValue_keyLoopAcc,
          replayValue_trimKeyAccRev, replayValue_valueLoopAcc, replayValue]
        rw [hv, writeAt_length]
        have hv0 : ∀ x ∈ v, x ≠ 0 := by
          rw [← hv]; exact valueLoop_no_zero n _ [] (by simp)
        exact cstring_append_zero v [] hv0

/-- C16. For every NUL-terminated line (of at most 255 bytes, or longer) and
64-byte key and value buffers, `parseLine` is a total function whose accesses
form a finite list: every read of `line` is at an index up to that of the
terminating NUL, every access to `key` and to `value` is at an index from 0 to
63, and a key and value that are returned have at most 63 bytes, contain no NUL
and are followed by the terminator that `parseLine` writes right after them, so
that the `key` and `value` buffers hold them as NUL-terminated strings. -/
theorem C16_parseLine_memory_safety (line : List Nat) :
    (∀ i, Access.readLine i ∈ parseLineAcc line sizeofKey sizeofValue → i ≤ strlen line)
      ∧ (∀ i, Access.readKey i ∈ parseLineAcc line sizeofKey sizeofValue → i ≤ 63)
      ∧ (∀ i c, Access.writeKey i c ∈ parseLineAcc line sizeofKey sizeofValue → i ≤ 63)
      ∧ (∀ i c, Access.writeValue i c ∈ parseLineAcc line sizeofKey sizeofValue → i ≤ 63)
      ∧ (∀ k v, parseLine line sizeofKey sizeofValue = some (k, v) →
          k.length ≤ 63 ∧ (∀ x ∈ k, x ≠ 0)
            ∧ Access.writeKey k.length 0 ∈ parseLineAcc line sizeofKey sizeofValue
            ∧ v.length ≤ 63 ∧ (∀ x ∈ v, x ≠ 0)
            ∧ Access.writeValue v.length 0 ∈ parseLineAcc line sizeofKey sizeofValue
            ∧ cstring (replayKey (parseLineAcc line sizeofKey sizeofValue) []) = k
            ∧ cstring (replayValue (parseLineAcc line sizeofKey sizeofValue) []) = v) := by
  have hb := parseLineAcc_bounds line sizeofKey sizeofValue (by decide) (by decide)
  refine ⟨?_, ?_, ?_, ?_, ?_⟩
  · intro i hi
    exact hb _ hi
  · intro i hi
    have := hb _ hi
    simp only [Access.inParseLine, sizeofKey] at this
    omega
  · intro i c hi
    have := hb _ hi
    simp only [Access.inParseLine, sizeofKey] at this
    omega
  · intro i c hi
    have := hb _ hi
    simp only [Access.inParseLine, sizeofValue] at this
    omega
  · intro k v hp
    obtain ⟨h1, h2, h3, h4, h5⟩ := parseLine_value_props hp
    obtain ⟨h6, h7⟩ := parseLineAcc_replay hp
    exact ⟨by simpa [sizeofKey] using h1, parseLine_key_no_zero hp, h4,
      by simpa [sizeofValue] using h2, h3, h5, h6, h7⟩

theorem inLoop_mono {N N' Ls K V : Nat} {a : Access} (h : a.inLoop N Ls K V)
    (hN : N ≤ N') : a.inLoop N' Ls K V := by
  cases a <;> simp only [Access.inLoop] at h ⊢ <;> omega

theorem inLoop_of_inParseLine {L N Ls K V : Nat} {a : Access} (h : a.inParseLine L K V)
    (hL : L < Ls) : a.inLoop N Ls K V := by
  cases a <;> simp only [Access.inParseLine, Access.inLoop] at h ⊢ <;> omega

theorem inLoader_of_inLoop {N B Ls K V : Nat} {a : Access} (h : a.inLoop N Ls K V)
    (hB : N ≤ B) : a.inLoader B Ls K V := by
  cases a <;> simp only [Access.inLoop, Access.inLoader] at h ⊢ <;> omega

theorem configLoopAcc_nil (fuel lineStart : Nat) : configLoopAcc fuel lineStart [] = [] := by
  cases fuel <;> rfl

/-- Every access of the loop of `loadThemeConfig` reads `configData` below
`bytesRead` and stays within `line`, `key` and `value`. -/
theorem configLoopAcc_bounds (fuel lineStart : Nat) (rest : List Nat) :
    ∀ a ∈ configLoopAcc fuel lineStart rest,
      a.inLoop (lineStart + rest.length) sizeofLine sizeofKey sizeofValue := by
  induction fuel generalizing lineStart rest with
  | zero => intro a ha; simp [configLoopAcc] at ha
  | succ fuel ih =>
    cases rest with
    | nil => intro a ha; simp [configLoopAcc] at ha
    | cons b bs =>
      intro a ha
      rw [configLoopAcc] at ha
      generalize hlb : (b :: bs).takeWhile (fun x => x != 10) = lb at ha
      have hle : lb.length ≤ (b :: bs).length := by
        rw [← hlb]; exact length_takeWhile_le_length _ _
      generalize hll : (if lb.length ≥ sizeofLine then sizeofLine - 1 else lb.length) = lineLen
        at ha
      have hll1 : lineLen ≤ lb.length := by
        rw [← hll]; unfold sizeofLine; split <;> omega
      have hll2 : lineLen < sizeofLine := by
        rw [← hll]; unfold sizeofLine; split <;> omega
      simp only [List.mem_append, List.mem_map, List.mem_range, List.mem_singleton] at ha
      rcases ha with (((((⟨j, hj, rfl⟩ | h) | (⟨j, hj, rfl⟩ | ⟨j, hj, rfl⟩)) | rfl) | h) | h)
      · simp only [Access.inLoop]; omega
      · split at h
        · simp only [List.mem_singleton] at h
          subst h
          simp only [Access.inLoop]; omega
        · simp at h
      · simp only [Access.inLoop]; omega
      · simp only [Access.inLoop]; omega
      · simp only [Access.inLoop]; omega
      · have hp := parseLineAcc_bounds ((b :: bs).take lineLen) sizeofKey sizeofValue
          (by decide) (by decide) a h
        have hs := strlen_le_length ((b :: bs).take lineLen)
        have ht : ((b :: bs).take lineLen).length ≤ lineLen := by
          rw [List.length_take]; omega
        exact inLoop_of_inParseLine hp (by omega)
      · by_cases hk : lb.length < (b :: bs).length
        · have := ih _ _ a h
          refine inLoop_mono this ?_
          rw [List.length_drop]
          omega
        · rw [List.drop_eq_nil_of_le (by omega), configLoopAcc_nil] at h
          simp at h

/-- Every access of `loadThemeConfig` is within its buffers when the read
returns at most the requested number of bytes, and the terminator goes to the
index `bytesRead`. -/
theorem loadThemeConfigAcc_bounds (fs : FS)
    (hread : (fs.FileRead (maxConfigSize - 1)).bytesRead ≤ ((maxConfigSize - 1 : Nat) : Int)) :
    (∀ a ∈ loadThemeConfigAcc (some fs),
        a.inLoader maxConfigSize sizeofLine sizeofKey sizeofValue)
      ∧ (∀ i, Access.terminateBuffer i ∈ loadThemeConfigAcc (some fs) →
          (i : Int) = (fs.FileRead (maxConfigSize - 1)).bytesRead) := by
  unfold loadThemeConfigAcc
  simp only
  split
  · exact ⟨fun a ha => by simp at ha, fun i hi => by simp at hi⟩
  · cases hrd : fs.FileRead (maxConfigSize - 1) with
    | error e =>
      simp only [ReadResult.bytesRead, ReadResult.buffer]
      rw [if_pos (by omega)]
      exact ⟨fun a ha => by simp at ha, fun i hi => by simp at hi⟩
    | data bs =>
      rw [hrd] at hread
      simp only [ReadResult.bytesRead, ReadResult.buffer, maxConfigSize] at hread ⊢
      have hbs : bs.length ≤ 1023 := by exact_mod_cast hread
      have hstores : ∀ a ∈ (List.range bs.length).map
          (fun j => Access.writeBuffer j (bs.getD j 0)),
          a.inLoader 1024 sizeofLine sizeofKey sizeofValue := by
        intro a ha
        simp only [List.mem_map, List.mem_range] at ha
        obtain ⟨j, hj, rfl⟩ := ha
        simp only [Access.inLoader]
        omega
      split
      · refine ⟨hstores, fun i hi => ?_⟩
        simp at hi
      · simp only [Int.toNat_ofNat]
        constructor
        · intro a ha
          rcases List.mem_append.1 ha with h | h
          · rcases List.mem_append.1 h with h | h
            · exact hstores a h
            · simp only [List.mem_singleton] at h
              subst h
              simp only [Access.inLoader]
              omega
          · have := configLoopAcc_bounds bs.length 0 bs a h
            exact inLoader_of_inLoop this (by omega)
        · intro i hi
          rcases List.mem_append.1 hi with h | h
          · rcases List.mem_append.1 h with h | h
            · simp at h
            · simp only [List.mem_singleton, Access.terminateBuffer.injEq] at h
              rw [h]
          · have := configLoopAcc_bounds bs.length 0 bs _ h
            simp [Access.inLoop] at this

theorem loadThemeConfigAcc_terminator (fs : FS) (hopen : fs.FileOpen = LFS_ERR_OK)
    (hpos : 0 < (fs.FileRead (maxConfigSize - 1)).bytesRead) :
    Access.terminateBuffer (fs.FileRead (maxConfigSize - 1)).bytesRead.toNat
      ∈ loadThemeConfigAcc (some fs) := by
  unfold loadThemeConfigAcc
  simp only
  rw [if_neg (by simp [hopen]), if_neg (by omega)]
  simp

/-- C17. When the storage read returns at most the requested 1023 bytes,
`loadThemeConfig` (a total function, whose accesses form a finite list) accesses
the 1024-byte file buffer only below index 1024 and the 256-byte line buffer
only below index 256, and the only terminator it writes into the file buffer
goes to the index `bytesRead`; that terminator is written whenever the open
succeeded and the read returned at least one byte. -/
theorem C17_loadThemeConfig_memory_safety (fs : FS)
    (hread : (fs.FileRead (maxConfigSize - 1)).bytesRead ≤ ((maxConfigSize - 1 : Nat) : Int)) :
    (∀ i, Access.readBuffer i ∈ loadThemeConfigAcc (some fs) → i < 1024)
      ∧ (∀ i c, Access.writeBuffer i c ∈ loadThemeConfigAcc (some fs) → i < 1024)
      ∧ (∀ i, Access.terminateBuffer i ∈ loadThemeConfigAcc (some fs) →
          i < 1024 ∧ (i : Int) = (fs.FileRead (maxConfigSize - 1)).bytesRead)
      ∧ (fs.FileOpen = LFS_ERR_OK → 0 < (fs.FileRead (maxConfigSize - 1)).bytesRead →
          Access.terminateBuffer (fs.FileRead (maxConfigSize - 1)).bytesRead.toNat
            ∈ loadThemeConfigAcc (some fs))
      ∧ (∀ i, Access.readLine i ∈ loadThemeConfigAcc (some fs) → i < 256)
      ∧ (∀ i c, Access.writeLine i c ∈ loadThemeConfigAcc (some fs) → i < 256) := by
  obtain ⟨hb, ht⟩ := loadThemeConfigAcc_bounds fs hread
  refine ⟨?_, ?_, ?_, loadThemeConfigAcc_terminator fs, ?_, ?_⟩
  · intro i hi
    exact hb _ hi
  · intro i c hi
    exact hb _ hi
  · intro i hi
    exact ⟨hb _ hi, ht i hi⟩
  · intro i hi
    exact hb _ hi
  · intro i c hi
    exact hb _ hi

set_option maxRecDepth 1000000 in
/-- Witness of C17 on the storage that holds the 1026 bytes of `capFile1024`, of
which the read returns 1023. -/
theorem C17_loadThemeConfig_memory_safety_witness :
    (∀ i, Access.readBuffer i ∈ loadThemeConfigAcc (some (FS.withFile capFile1024)) → i < 1024)
      ∧ (∀ i c, Access.writeBuffer i c ∈ loadThemeConfigAcc (some (FS.withFile capFile1024)) →
          i < 1024)
      ∧ (∀ i, Access.terminateBuffer i ∈ loadThemeConfigAcc (some (FS.withFile capFile1024)) →
          i < 1024
            ∧ (i : Int) = ((FS.withFile capFile1024).FileRead (maxConfigSize - 1)).bytesRead)
      ∧ ((FS.withFile capFile1024).FileOpen = LFS_ERR_OK →
          0 < ((FS.withFile capFile1024).FileRead (maxConfigSize - 1)).bytesRead →
          Access.terminateBuffer
              ((FS.withFile capFile1024).FileRead (maxConfigSize - 1)).bytesRead.toNat
            ∈ loadThemeConfigAcc (some (FS.withFile capFile1024)))
      ∧ (∀ i, Access.readLine i ∈ loadThemeConfigAcc (some (FS.withFile capFile1024)) → i < 256)
      ∧ (∀ i c, Access.writeLine i c ∈ loadThemeConfigAcc (some (FS.withFile capFile1024)) →
          i < 256) :=
  C17_loadThemeConfig_memory_safety (FS.withFile capFile1024) (by decide)

/-- C18 (counterexample). With storage attached and only `accent` differing
from its compiled-in default, `lv_pinetime_theme_is_custom_loaded` returns
false; likewise when only `page_bg` differs. -/
theorem C18_counterexample_accent_only :
    accentOnlyState.themeFilesystem.isSome = true
      ∧ accentOnlyState.colors.accent ≠ Colors.defaults.accent
      ∧ lv_pinetime_theme_is_custom_loaded accentOnlyState = false
      ∧ pageBgOnlyState.themeFilesystem.isSome = true
      ∧ pageBgOnlyState.colors.page_bg ≠ Colors.defaults.page_bg
      ∧ lv_pinetime_theme_is_custom_loaded pageBgOnlyState = false := by
  decide

/-- C18 (amended). `lv_pinetime_theme_is_custom_loaded` returns true if and
only if a storage reference is attached and `text_primary` or `accent_light`
differs from its compiled-in default value. -/
theorem C18_is_custom_loaded_iff (s : ThemeState) :
    lv_pinetime_theme_is_custom_loaded s = true
      ↔ s.themeFilesystem.isSome = true
        ∧ (s.colors.text_primary ≠ Colors.defaults.text_primary
          ∨ s.colors.accent_light ≠ Colors.defaults.accent_light) := by
  unfold lv_pinetime_theme_is_custom_loaded
  cases s.themeFilesystem with
  | none => simp
  | some fs =>
    simp only [Option.isSome_some, true_and]
    have e1 : Colors.defaults.text_primary = LV_COLOR_WHITE := rfl
    have e2 : Colors.defaults.accent_light = LV_COLOR_MAKE 0x5d 0x69 0x7e := rfl
    rw [e1, e2]
    by_cases h1 : s.colors.text_primary = LV_COLOR_WHITE
    · by_cases h2 : s.colors.accent_light = LV_COLOR_MAKE 0x5d 0x69 0x7e
      · simp [h1, h2]
      · simp [h1, h2]
    · simp [h1]

/-- C19 (failing input). From the Initialized state `initedState`,
`lv_pinetime_theme_set_filesystem` with a storage whose file sets `text_primary`
to red loads the colour table as the reload does, but unlike storing the
reference and running `lv_pinetime_theme_reload_config` it leaves
`theme.color_primary` white, leaves every style descriptor as it was (the text
colour of `style_label_white` stays white) and refreshes no widget. -/
theorem C19_set_filesystem_skips_rebuild :
    initedState.inited = true
      ∧ (lv_pinetime_theme_set_filesystem (some redTextStorage) initedState).colors
        = (lv_pinetime_theme_reload_config sampleConf
            { initedState with themeFilesystem := some redTextStorage }).colors
      ∧ (lv_pinetime_theme_set_filesystem (some redTextStorage) initedState).colors.text_primary
        = LV_COLOR_MAKE 0xFF 0 0
      ∧ (lv_pinetime_theme_set_filesystem (some redTextStorage) initedState).theme.color_primary
        = LV_COLOR_WHITE
      ∧ (lv_pinetime_theme_reload_config sampleConf
            { initedState with themeFilesystem := some redTextStorage }).theme.color_primary
        = LV_COLOR_MAKE 0xFF 0 0
      ∧ (lv_pinetime_theme_set_filesystem (some redTextStorage) initedState).styles
        = initedState.styles
      ∧ (lv_pinetime_theme_set_filesystem (some redTextStorage)
            initedState).styles.style_label_white
        = ⟨[(.TEXT_COLOR, .DEFAULT, .color LV_COLOR_WHITE),
            (.TEXT_COLOR, .DISABLED, .color LV_COLOR_GRAY)]⟩
      ∧ (lv_pinetime_theme_reload_config sampleConf
            { initedState with themeFilesystem := some redTextStorage }).styles.style_label_white
        = ⟨[(.TEXT_COLOR, .DEFAULT, .color (LV_COLOR_MAKE 0xFF 0 0)),
            (.TEXT_COLOR, .DISABLED, .color LV_COLOR_GRAY)]⟩
      ∧ (lv_pinetime_theme_set_filesystem (some redTextStorage) initedState).trace
        = [Event.FileOpen, Event.FileRead 1023, Event.FileClose]
      ∧ (lv_pinetime_theme_reload_config sampleConf
            { initedState with themeFilesystem := some redTextStorage }).trace
        = [Event.FileOpen, Event.FileRead 1023, Event.FileClose, Event.lv_obj_refresh_style 1,
            Event.lv_obj_refresh_style 2, Event.lv_obj_invalidate 1] := by
  decide

/-- C20. After `lv_pinetime_theme_reload_config` with storage attached,
whatever the storage answers and whatever the style descriptors held before,
`theme.color_primary` equals `text_primary`, `theme.color_secondary` equals
`text_header`, and the style descriptors are exactly those built from empty
descriptors for the colour table as it stands after the load: nothing of what a
descriptor held before the reload is left. -/
theorem C20_reload_config_consistent (k : LvConf) (s : ThemeState) (fs : FS)
    (hfs : s.themeFilesystem = some fs) :
    (lv_pinetime_theme_reload_config k s).theme.color_primary
        = (lv_pinetime_theme_reload_config k s).colors.text_primary
      ∧ (lv_pinetime_theme_reload_config k s).theme.color_secondary
        = (lv_pinetime_theme_reload_config k s).colors.text_header
      ∧ (lv_pinetime_theme_reload_config k s).styles
        = rebuiltStyles k (lv_pinetime_theme_reload_config k s).colors
            (lv_pinetime_theme_reload_config k s).theme.font_normal := by
  obtain ⟨hc, _, ht, hs⟩ := reload_config_eq k s fs hfs
  rw [hc, ht, hs]
  refine ⟨rfl, rfl, ?_⟩
  unfold rebuiltStyles
  exact basic_init_styles_congr k _ _ rfl rfl

set_option maxRecDepth 100000 in
/-- Witness of C20 on `staleState`, whose `style_bg` holds stale attributes
before the reload. -/
theorem C20_reload_config_consistent_witness :
    (lv_pinetime_theme_reload_config sampleConf staleState).theme.color_primary
        = (lv_pinetime_theme_reload_config sampleConf staleState).colors.text_primary
      ∧ (lv_pinetime_theme_reload_config sampleConf staleState).theme.color_secondary
        = (lv_pinetime_theme_reload_config sampleConf staleState).colors.text_header
      ∧ (lv_pinetime_theme_reload_config sampleConf staleState).styles
        = rebuiltStyles sampleConf (lv_pinetime_theme_reload_config sampleConf staleState).colors
            (lv_pinetime_theme_reload_config sampleConf staleState).theme.font_normal :=
  C20_reload_config_consistent sampleConf staleState (FS.withFile sampleConfig) rfl

/-- The rebuilt descriptors take their colours from the colour table they are
built for; shown here for `style_bg`, `style_label_white` and `style_btn`. -/
theorem rebuiltStyles_colors (k : LvConf) (c : Colors) (font : Option String) :
    (rebuiltStyles k c font).style_bg
        = ⟨[(.BG_OPA, .DEFAULT, .opa k.LV_OPA_COVER), (.BG_COLOR, .DEFAULT, .color c.page_bg),
            (.TEXT_FONT, .DEFAULT, .ptr font)]⟩
      ∧ (rebuiltStyles k c font).style_label_white
        = ⟨[(.TEXT_COLOR, .DEFAULT, .color c.text_primary),
            (.TEXT_COLOR, .DISABLED, .color LV_COLOR_GRAY)]⟩
      ∧ (rebuiltStyles k c font).style_btn
        = ⟨[(.RADIUS, .DEFAULT, .int 10), (.BG_OPA, .DEFAULT, .opa k.LV_OPA_COVER),
            (.BG_COLOR, .DEFAULT, .color c.accent_light),
            (.BG_COLOR, .CHECKED, .color c.highlight),
            (.BG_COLOR, .DISABLED, .color c.accent_dark),
            (.TEXT_COLOR, .DEFAULT, .color c.text_primary),
            (.TEXT_COLOR, .DISABLED, .color LV_COLOR_GRAY),
            (.PAD_TOP, .DEFAULT, .int (LV_DPX k 20)), (.PAD_BOTTOM, .DEFAULT, .int (LV_DPX k 20)),
            (.PAD_LEFT, .DEFAULT, .int (LV_DPX k 20)), (.PAD_RIGHT, .DEFAULT, .int (LV_DPX k 20)),
            (.PAD_INNER, .DEFAULT, .int (LV_DPX k 15))]⟩ := by
  refine ⟨?_, ?_, ?_⟩ <;>
    simp [rebuiltStyles, basic_init, style_init_reset, lv_style_init, lv_style_reset,
      lv_style_t.set, lv_style_t.set_pad_all, ThemeState.initial]

/-- C21. When no storage reference is attached,
`lv_pinetime_theme_reload_config` returns the state it was given: the colour
table, `theme.color_primary` and `theme.color_secondary`, every style
descriptor and the `inited` flag are unchanged, and the trace of collaborator
calls is unchanged, so that no storage operation is performed and no widget is
refreshed or invalidated. -/
theorem C21_reload_config_without_storage (k : LvConf) (s : ThemeState)
    (hfs : s.themeFilesystem = none) :
    lv_pinetime_theme_reload_config k s = s
      ∧ (lv_pinetime_theme_reload_config k s).colors = s.colors
      ∧ (lv_pinetime_theme_reload_config k s).theme.color_primary = s.theme.color_primary
      ∧ (lv_pinetime_theme_reload_config k s).theme.color_secondary = s.theme.color_secondary
      ∧ (lv_pinetime_theme_reload_config k s).styles = s.styles
      ∧ (lv_pinetime_theme_reload_config k s).inited = s.inited
      ∧ (lv_pinetime_theme_reload_config k s).trace = s.trace := by
  have h : lv_pinetime_theme_reload_config k s = s := by
    unfold lv_pinetime_theme_reload_config
    rw [hfs]
  rw [h]
  exact ⟨rfl, rfl, rfl, rfl, rfl, rfl, rfl⟩

/-- Witness of C21 on the Initialized state `initedState`, which has no storage
attached and a screen of two widgets. -/
theorem C21_reload_config_without_storage_witness :
    initedState.themeFilesystem = none
      ∧ (lv_pinetime_theme_reload_config sampleConf initedState = initedState
      ∧ (lv_pinetime_theme_reload_config sampleConf initedState).colors = initedState.colors
      ∧ (lv_pinetime_theme_reload_config sampleConf initedState).theme.color_primary
          = initedState.theme.color_primary
      ∧ (lv_pinetime_theme_reload_config sampleConf initedState).theme.color_secondary
          = initedState.theme.color_secondary
      ∧ (lv_pinetime_theme_reload_config sampleConf initedState).styles = initedState.styles
      ∧ (lv_pinetime_theme_reload_config sampleConf initedState).inited = initedState.inited
      ∧ (lv_pinetime_theme_reload_config sampleConf initedState).trace = initedState.trace) :=
  ⟨rfl, C21_reload_config_without_storage sampleConf initedState rfl⟩

/-- C22. `lv_pinetime_theme_init(filesystem)`, from the Uninitialized state and
from every other state: a non-null `filesystem` becomes the attached reference
and the colour table is the one `loadThemeConfig` produces on it; with a null
`filesystem` the colour table and the attached reference are unchanged.  In
both cases, afterwards `theme.color_primary` equals `text_primary`,
`theme.color_secondary` equals `text_header`, the style descriptors are those
built from empty descriptors for the resulting colour table (with the theme's
font `jetbrains_mono_bold_20`), and `inited` is true. -/
theorem C22_theme_init (k : LvConf) (filesystem : Option FS) (s : ThemeState) :
    (match filesystem with
      | some fs =>
        (lv_pinetime_theme_init k filesystem s).themeFilesystem = some fs
          ∧ (lv_pinetime_theme_init k filesystem s).colors = (loadThemeConfig (some fs) s).colors
      | none =>
        (lv_pinetime_theme_init k filesystem s).themeFilesystem = s.themeFilesystem
          ∧ (lv_pinetime_theme_init k filesystem s).colors = s.colors)
      ∧ (lv_pinetime_theme_init k filesystem s).theme.color_primary
          = (lv_pinetime_theme_init k filesystem s).colors.text_primary
      ∧ (lv_pinetime_theme_init k filesystem s).theme.color_secondary
          = (lv_pinetime_theme_init k filesystem s).colors.text_header
      ∧ (lv_pinetime_theme_init k filesystem s).styles
          = rebuiltStyles k (lv_pinetime_theme_init k filesystem s).colors
              (some "jetbrains_mono_bold_20")
      ∧ (lv_pinetime_theme_init k filesystem s).inited = true := by
  refine ⟨?_, rfl, rfl, ?_, rfl⟩
  · cases filesystem with
    | none => exact ⟨rfl, rfl⟩
    | some fs =>
      constructor
      · exact (loadThemeConfig_frame (some fs) { s with themeFilesystem := some fs }).1
      · obtain ⟨ls, hls⟩ := loadThemeConfig_colors_foldl (some fs)
        show (loadThemeConfig (some fs) { s with themeFilesystem := some fs }).colors = _
        rw [hls, hls]
  · unfold rebuiltStyles
    exact basic_init_styles_congr k _ _ rfl rfl

/-- C23. If storage is attached, the colour table holds the compiled-in
defaults, and the open of `/themes/theme.cfg` fails, then after
`lv_pinetime_theme_reload_config` all eight roles hold their compiled-in
defaults and `lv_pinetime_theme_is_custom_loaded` returns false. -/
theorem C23_reload_config_missing_file (k : LvConf) (s : ThemeState) (fs : FS)
    (hfs : s.themeFilesystem = some fs) (hdef : ∀ r : Role, s.colors.get r = Colors.defaults.get r)
    (hopen : fs.FileOpen ≠ LFS_ERR_OK) :
    (∀ r : Role, (lv_pinetime_theme_reload_config k s).colors.get r = Colors.defaults.get r)
      ∧ lv_pinetime_theme_is_custom_loaded (lv_pinetime_theme_reload_config k s) = false := by
  obtain ⟨hc, hf, _, _⟩ := reload_config_eq k s fs hfs
  have hcol : (lv_pinetime_theme_reload_config k s).colors = Colors.defaults := by
    rw [hc]
    apply Colors.ext_get
    intro r
    rw [← hdef r]
    unfold loadThemeConfig
    simp only
    rw [if_pos hopen]
  refine ⟨fun r => by rw [hcol], ?_⟩
  unfold lv_pinetime_theme_is_custom_loaded
  rw [hf, hcol]
  dsimp only
  decide

/-- Witness of C23 at process start with `noFileStorage` attached. -/
theorem C23_reload_config_missing_file_witness :
    (∀ r : Role,
        (lv_pinetime_theme_reload_config sampleConf
          { ThemeState.initial none with themeFilesystem := some noFileStorage }).colors.get r
          = Colors.defaults.get r)
      ∧ lv_pinetime_theme_is_custom_loaded
          (lv_pinetime_theme_reload_config sampleConf
            { ThemeState.initial none with themeFilesystem := some noFileStorage }) = false :=
  C23_reload_config_missing_file sampleConf
    { ThemeState.initial none with themeFilesystem := some noFileStorage } noFileStorage rfl
    (fun _ => rfl) (by decide)

mutual
theorem refresh_object_eq : ∀ t : lv_obj_t,
    refresh_object t = t.nodes.map (fun n => Event.lv_obj_refresh_style n.id)
  | .mk i cs => by
    rw [refresh_object, lv_obj_t.nodes, List.map_cons, refresh_children_eq cs]
    rfl
theorem refresh_children_eq : ∀ l : List lv_obj_t,
    refresh_children l = (nodesOfList l).map (fun n => Event.lv_obj_refresh_style n.id)
  | [] => by rw [refresh_children, nodesOfList]; rfl
  | c :: cs => by
    rw [refresh_children, nodesOfList, List.map_append, refresh_object_eq c,
      refresh_children_eq cs]
end

theorem self_mem_nodes (t : lv_obj_t) : t ∈ t.nodes := by
  cases t with
  | mk i cs => rw [lv_obj_t.nodes]; exact List.mem_cons_self _ _

theorem nodes_sublist_nodesOfList {c : lv_obj_t} {l : List lv_obj_t} (h : c ∈ l) :
    c.nodes.Sublist (nodesOfList l) := by
  induction l with
  | nil => cases h
  | cons d ds ih =>
    rw [nodesOfList]
    rcases List.mem_cons.1 h with h | h
    · subst h
      exact List.sublist_append_left _ _
    · exact (ih h).trans (List.sublist_append_right _ _)

mutual
theorem parent_child_sublist : ∀ (t p c : lv_obj_t), p ∈ t.nodes → c ∈ p.children →
    [p, c].Sublist t.nodes
  | .mk i cs, p, c, hp, hc => by
    rw [lv_obj_t.nodes] at hp ⊢
    rcases List.mem_cons.1 hp with h | h
    · subst h
      have hc' : c ∈ cs := hc
      apply List.Sublist.cons₂
      have h1 : [c].Sublist c.nodes := List.singleton_sublist.2 (self_mem_nodes c)
      exact h1.trans (nodes_sublist_nodesOfList hc')
    · exact List.Sublist.cons _ (parent_child_sublist_list cs p c h hc)
theorem parent_child_sublist_list : ∀ (l : List lv_obj_t) (p c : lv_obj_t),
    p ∈ nodesOfList l → c ∈ p.children → [p, c].Sublist (nodesOfList l)
  | [], p, c, hp, _ => by rw [nodesOfList] at hp; cases hp
  | d :: ds, p, c, hp, hc => by
    rw [nodesOfList] at hp ⊢
    rcases List.mem_append.1 hp with h | h
    · exact (parent_child_sublist d p c h hc).trans (List.sublist_append_left _ _)
    · exact (parent_child_sublist_list ds p c h hc).trans (List.sublist_append_right _ _)
end

theorem refresh_object_tree_eq_ids (root : lv_obj_t) :
    refresh_object_tree (some root) = root.ids.map Event.lv_obj_refresh_style := by
  show refresh_object root = _
  rw [refresh_object_eq, lv_obj_t.ids, List.map_map]
  rfl

/-- C24. `refresh_object_tree` is a total function on finite widget trees.  On a
tree whose nodes have pairwise distinct identities it issues as many refresh
calls as the tree has nodes, each of them for a node of the tree, exactly one
for every node, and the call for a parent precedes the call for each of its
children; on a null root it issues nothing. -/
theorem C24_refresh_object_tree_visits_once (root : lv_obj_t) (hid : root.ids.Nodup) :
    (refresh_object_tree (some root)).length = root.nodes.length
      ∧ (∀ e ∈ refresh_object_tree (some root),
          ∃ n ∈ root.nodes, e = Event.lv_obj_refresh_style n.id)
      ∧ (∀ n ∈ root.nodes,
          (refresh_object_tree (some root)).count (Event.lv_obj_refresh_style n.id) = 1)
      ∧ (∀ p ∈ root.nodes, ∀ c ∈ p.children,
          [Event.lv_obj_refresh_style p.id, Event.lv_obj_refresh_style c.id].Sublist
            (refresh_object_tree (some root)))
      ∧ refresh_object_tree none = [] := by
  have hnd : (refresh_object_tree (some root)).Nodup := by
    rw [refresh_object_tree_eq_ids]
    exact hid.map (fun a b h => by cases h; rfl)
  have heq : refresh_object_tree (some root)
      = root.nodes.map (fun n => Event.lv_obj_refresh_style n.id) := refresh_object_eq root
  refine ⟨?_, ?_, ?_, ?_, rfl⟩
  · rw [heq, List.length_map]
  · intro e he
    rw [heq] at he
    obtain ⟨n, hn, rfl⟩ := List.mem_map.1 he
    exact ⟨n, hn, rfl⟩
  · intro n hn
    apply List.count_eq_one_of_mem hnd
    rw [heq]
    exact List.mem_map.2 ⟨n, hn, rfl⟩
  · intro p hp c hc
    rw [heq]
    exact (parent_child_sublist root p c hp hc).map (fun n => Event.lv_obj_refresh_style n.id)

/-- Witness of C24 on `sampleScreen`, for which the calls are issued in the
order 1, 2, 3, 4, 5. -/
theorem C24_refresh_object_tree_visits_once_witness :
    sampleScreen.ids.Nodup
      ∧ refresh_object_tree (some sampleScreen)
          = [Event.lv_obj_refresh_style 1, Event.lv_obj_refresh_style 2,
              Event.lv_obj_refresh_style 3, Event.lv_obj_refresh_style 4,
              Event.lv_obj_refresh_style 5]
      ∧ ((refresh_object_tree (some sampleScreen)).length = sampleScreen.nodes.length
      ∧ (∀ e ∈ refresh_object_tree (some sampleScreen),
          ∃ n ∈ sampleScreen.nodes, e = Event.lv_obj_refresh_style n.id)
      ∧ (∀ n ∈ sampleScreen.nodes,
          (refresh_object_tree (some sampleScreen)).count (Event.lv_obj_refresh_style n.id) = 1)
      ∧ (∀ p ∈ sampleScreen.nodes, ∀ c ∈ p.children,
          [Event.lv_obj_refresh_style p.id, Event.lv_obj_refresh_style c.id].Sublist
            (refresh_object_tree (some sampleScreen)))
      ∧ refresh_object_tree none = []) :=
  ⟨by decide, by decide, C24_refresh_object_tree_visits_once sampleScreen (by decide)⟩

/-- C25. The collaborator calls that one execution of `loadThemeConfig` adds to
the trace: none when the storage reference is absent; the open alone, without a
close, when the open fails; and when the open succeeds the open, the read of
1023 bytes and exactly one close, in this order, whatever the read returns
(data, zero bytes or an error). -/
theorem C25_loadThemeConfig_closes_once (filesystem : Option FS) (s : ThemeState) :
    ∃ calls, (loadThemeConfig filesystem s).trace = s.trace ++ calls
      ∧ (match filesystem with
        | none => calls = []
        | some fs =>
          if fs.FileOpen = LFS_ERR_OK then
            calls = [Event.FileOpen, Event.FileRead 1023, Event.FileClose]
              ∧ calls.count Event.FileClose = 1
          else calls = [Event.FileOpen] ∧ calls.count Event.FileClose = 0) := by
  cases filesystem with
  | none => exact ⟨[], by simp [loadThemeConfig], rfl⟩
  | some fs =>
    by_cases ho : fs.FileOpen = LFS_ERR_OK
    · refine ⟨[Event.FileOpen, Event.FileRead 1023, Event.FileClose], ?_, ?_⟩
      · unfold loadThemeConfig
        simp only [ne_eq, ho, not_true_eq_false, if_false, maxConfigSize]
        split <;> simp
      · dsimp only
        rw [if_pos ho]
        exact ⟨rfl, by decide⟩
    · refine ⟨[Event.FileOpen], ?_, ?_⟩
      · unfold loadThemeConfig
        simp only [ne_eq, ho, not_false_eq_true, if_true]
      · dsimp only
        rw [if_neg ho]
        exact ⟨rfl, by decide⟩

/-- The traces of `loadThemeConfig` at process start on the storages of the
examples: a file with content, an empty file, a failing read, a failing open,
and no storage. -/
theorem loadThemeConfig_trace_examples :
    (loadThemeConfig (some (FS.withFile sampleConfig)) (ThemeState.initial none)).trace
        = [Event.FileOpen, Event.FileRead 1023, Event.FileClose]
      ∧ (loadThemeConfig (some (FS.withFile [])) (ThemeState.initial none)).trace
        = [Event.FileOpen, Event.FileRead 1023, Event.FileClose]
      ∧ (loadThemeConfig (some readErrorStorage) (ThemeState.initial none)).trace
        = [Event.FileOpen, Event.FileRead 1023, Event.FileClose]
      ∧ (loadThemeConfig (some noFileStorage) (ThemeState.initial none)).trace = [Event.FileOpen]
      ∧ (loadThemeConfig none (ThemeState.initial none)).trace = [] := by
  decide

/-- The lines of a text with a `\n` in it: the lines before it, then the lines
after it. -/
theorem fileLines_append_newline (A X : List Nat) :
    fileLines (A ++ 10 :: X) = fileLines A ++ fileLines X := by
  induction A with
  | nil => simp [fileLines]
  | cons c cs ih =>
    rw [List.cons_append, fileLines_cons, fileLines_cons, ih]
    have hne := fileLines_ne_nil cs
    split
    · rfl
    · cases h : fileLines cs with
      | nil => exact absurd h hne
      | cons a as => rfl

/-- A run of bytes without `\n` belongs to the first line of what it begins. -/
theorem fileLines_append_of_no_newline (L R : List Nat) (hL : ∀ x ∈ L, x ≠ 10) :
    fileLines (L ++ R) = (L ++ (fileLines R).headD []) :: (fileLines R).tail := by
  induction L with
  | nil =>
    have hne := fileLines_ne_nil R
    rw [List.nil_append]
    cases h : fileLines R with
    | nil => exact absurd h hne
    | cons a as => rfl
  | cons c cs ih =>
    have hc : c ≠ 10 := hL c (List.mem_cons_self _ _)
    rw [List.cons_append, fileLines_cons, if_neg hc,
      ih (fun x hx => hL x (List.mem_cons_of_mem _ hx))]
    rfl

theorem foldl_long_line (pre post : List (List Nat)) (L R0 : List Nat) (c : Colors)
    (hlen : 255 < L.length) :
    (pre ++ (L ++ R0) :: post).foldl (fun acc l => applyConfigLine (l.take 255) acc) c
      = (pre ++ (L.take 255 ++ R0) :: post).foldl
          (fun acc l => applyConfigLine (l.take 255) acc) c := by
  have h1 : (L ++ R0).take 255 = L.take 255 := by
    rw [List.take_append_of_le_length (by omega)]
  have h2 : (L.take 255 ++ R0).take 255 = L.take 255 := by
    rw [List.take_append_of_le_length (by rw [List.length_take]; omega)]
    rw [List.take_take]
    simp
  simp only [List.foldl_append, List.foldl_cons, h1, h2]

/-- C26. Let the bytes that `loadThemeConfig` reads from a file `F`, its first
1023, hold at the start of a line (`A` is empty or ends in `\n`) a run `L` of
more than 255 bytes without `\n`: a line longer than 255 bytes, or the
beginning of one.  Then `loadThemeConfig` produces the colour table that it
produces on the file in which only the first 255 bytes of `L` are left: the
line is parsed from its first 255 bytes, what follows them up to the next `\n`
is not parsed at all, and the lines before and after are processed as they are
without it. -/
theorem C26_long_line_cut (F A L R : List Nat) (s : ThemeState)
    (hF : F.take 1023 = A ++ L ++ R)
    (hA : A = [] ∨ A.getLast? = some 10) (hL : ∀ x ∈ L, x ≠ 10) (hlen : 255 < L.length) :
    (loadThemeConfig (some (FS.withFile F)) s).colors
      = (loadThemeConfig (some (FS.withFile (A ++ L.take 255 ++ R))) s).colors := by
  have hF0 : (A ++ L ++ R).length ≤ 1023 := by
    rw [← hF, List.length_take]
    omega
  have hF' : (A ++ L.take 255 ++ R).length ≤ 1023 := by
    simp only [List.length_append, List.length_take] at hF0 ⊢
    omega
  have hL' : ∀ x ∈ L.take 255, x ≠ 10 := fun x hx => hL x (List.mem_of_mem_take hx)
  rw [loadThemeConfig_withFile_colors, loadThemeConfig_withFile_colors, hF,
    List.take_of_length_le hF']
  rcases hA with hA | hA
  · subst hA
    rw [List.nil_append, List.nil_append, fileLines_append_of_no_newline L R hL,
      fileLines_append_of_no_newline (L.take 255) R hL']
    exact foldl_long_line [] _ L _ s.colors hlen
  · obtain ⟨A', rfl⟩ := List.getLast?_eq_some_iff.1 hA
    have e1 : A' ++ [10] ++ L ++ R = A' ++ 10 :: (L ++ R) := by simp
    have e2 : A' ++ [10] ++ L.take 255 ++ R = A' ++ 10 :: (L.take 255 ++ R) := by simp
    rw [e1, e2, fileLines_append_newline, fileLines_append_newline,
      fileLines_append_of_no_newline L R hL, fileLines_append_of_no_newline (L.take 255) R hL']
    exact foldl_long_line _ _ L _ s.colors hlen

set_option maxRecDepth 1000000 in
/-- Witness of C26 on `longLineThenIcon`: the first line, of 257 bytes, sets
`accent` from its first 255 bytes, its last two bytes `ZZ` are not parsed, and
the second line sets `icon`. -/
theorem C26_long_line_cut_witness :
    longLineThenIcon.take 1023 = [] ++ longLineFile ++ bytes ("\nicon=112233\n")
      ∧ 255 < longLineFile.length
      ∧ (loadThemeConfig (some (FS.withFile longLineThenIcon)) (ThemeState.initial none)).colors
          = { Colors.defaults with
              accent := LV_COLOR_MAKE 0 255 0, icon := LV_COLOR_MAKE 0x11 0x22 0x33 }
      ∧ (loadThemeConfig (some (FS.withFile longLineThenIcon)) (ThemeState.initial none)).colors
          = (loadThemeConfig
              (some (FS.withFile ([] ++ longLineFile.take 255 ++ bytes ("\nicon=112233\n"))))
              (ThemeState.initial none)).colors :=
  ⟨by decide, by decide, by decide,
    C26_long_line_cut longLineThenIcon [] longLineFile (bytes ("\nicon=112233\n"))
      (ThemeState.initial none) (by decide) (Or.inl rfl) (by decide) (by decide)⟩

theorem Colors.set_get_self (c : Colors) (r : Role) : c.set r (c.get r) = c := by
  cases r <;> rfl

theorem Role.name_props (r : Role) :
    r.name ≠ [] ∧ (∀ c, r.name.head? = some c → c ≠ 32 ∧ c ≠ 9 ∧ c ≠ 35 ∧ c ≠ 13)
      ∧ (∀ c, r.name.getLast? = some c → c ≠ 32 ∧ c ≠ 9)
      ∧ (∀ c ∈ r.name, c ≠ 61 ∧ c ≠ 0 ∧ c ≠ 10) ∧ (∀ c ∈ r.name, c ≠ 32 ∧ c ≠ 9)
      ∧ r.name.length ≤ 12 := by
  cases r <;> decide

theorem hex_not_special {x : Nat} (h : isHexDigit x = true) :
    x ≠ 0 ∧ x ≠ 10 ∧ x ≠ 13 ∧ x ≠ 32 ∧ x ≠ 9 := by
  rw [isHexDigit_iff] at h
  omega

/-- A line `<role name>=<hex digits>` with fewer than six digits changes
nothing. -/
theorem applyConfigLine_short_value (r : Role) (h : List Nat)
    (hh : ∀ x ∈ h, isHexDigit x = true) (hlen : h.length < 6) (c : Colors) :
    applyConfigLine (r.name ++ 61 :: h) c = c := by
  obtain ⟨hne, hfirst, hlast, hclean, hnb, hl12⟩ := Role.name_props r
  have hp := parseLine_of_form sizeofKey sizeofValue [] r.name [] h (by simp) (by simp) hne hfirst
    hlast hclean (TabsIsolated_of_nonblank _ hnb) (by simp [sizeofKey]; omega)
  simp only [List.nil_append] at hp
  have hk : collapseSpaces r.name = r.name :=
    collapseAfter_of_no_space 0 _ (fun c hc => (hnb c hc).1)
  have hsb : skipBlanks h = h := by
    apply skipBlanks_of_peek_nonblank
    cases h with
    | nil => simp [peek]
    | cons a t =>
      have := hex_not_special (hh a (List.mem_cons_self _ _))
      simp only [peek]
      omega
  have hv : valueLoop sizeofValue h [] = h := by
    have := valueLoop_of_fits sizeofValue h []
      (fun x hx => by have := hex_not_special (hh x hx); omega)
      (by simp [sizeofValue]; omega)
    simpa using this
  rw [hk, hsb, hv] at hp
  rw [applyConfigLine_eq, hp]
  simp only [roleOfKey_name]
  rw [parseHexColor_of_short h _ (lt_of_le_of_lt (strlen_le_length h) hlen)]
  exact Colors.set_get_self c r

/-- A proper prefix of a line of the exact form changes nothing. -/
theorem applyConfigLine_exact_prefix {l : List Nat} (hl : ExactLine l) (m : Nat)
    (hm : m < l.length) (c : Colors) : applyConfigLine (l.take m) c = c := by
  obtain ⟨r, h, rfl, hlen, hh⟩ := hl
  by_cases hcase : m ≤ r.name.length
  · rw [List.take_append_of_le_length hcase]
    have h61 : 61 ∉ r.name.take m := fun hx =>
      ((Role.name_props r).2.2.2.1 61 (List.mem_of_mem_take hx)).1 rfl
    unfold applyConfigLine
    rw [parseLine_of_no_equals _ _ h61]
  · have hm' : m = r.name.length + ((m - r.name.length - 1) + 1) := by omega
    rw [hm', List.take_append, List.take_succ_cons]
    apply applyConfigLine_short_value
    · exact fun x hx => hh x (List.mem_of_mem_take hx)
    · simp only [List.length_append, List.length_cons] at hm
      rw [List.length_take]
      omega

theorem ExactLine.length_le {l : List Nat} (hl : ExactLine l) : l.length ≤ 255 := by
  obtain ⟨r, h, rfl, hlen, _⟩ := hl
  have := (Role.name_props r).2.2.2.2.2
  simp only [List.length_append, List.length_cons]
  omega

theorem fileLines_of_no_newline (l : List Nat) (h : ∀ x ∈ l, x ≠ 10) : fileLines l = [l] := by
  have := fileLines_append_of_no_newline l [] h
  simpa [fileLines] using this

theorem fileLines_no_newline (F : List Nat) : ∀ l ∈ fileLines F, ∀ x ∈ l, x ≠ 10 := by
  induction F with
  | nil => simp [fileLines]
  | cons c cs ih =>
    have hne := fileLines_ne_nil cs
    rw [fileLines_cons]
    cases hfl : fileLines cs with
    | nil => exact absurd hfl hne
    | cons a as =>
      rw [hfl] at ih
      split
      · intro l hl
        rcases List.mem_cons.1 hl with h | h
        · subst h; simp
        · exact ih l h
      · rename_i hc
        intro l hl
        rcases List.mem_cons.1 hl with h | h
        · subst h
          intro x hx
          rcases List.mem_cons.1 hx with hx | hx
          · rw [hx]; exact hc
          · exact ih a (List.mem_cons_self _ _) x hx
        · exact ih l (List.mem_cons_of_mem _ h)

theorem joinLines_fileLines (F : List Nat) : joinLines (fileLines F) = F := by
  induction F with
  | nil => rfl
  | cons c cs ih =>
    have hne := fileLines_ne_nil cs
    rw [fileLines_cons]
    cases hfl : fileLines cs with
    | nil => exact absurd hfl hne
    | cons a as =>
      rw [hfl] at ih
      split
      · rename_i hc
        rw [joinLines, ih, hc]
        rfl
      · cases as with
        | nil =>
          simp only [joinLines] at ih ⊢
          simp [ih]
        | cons b bs =>
          simp only [joinLines, List.headD_cons, List.tail_cons] at ih ⊢
          rw [List.cons_append, ih]

theorem fileLines_joinLines (ls : List (List Nat)) (hne : ls ≠ [])
    (h : ∀ l ∈ ls, ∀ x ∈ l, x ≠ 10) : fileLines (joinLines ls) = ls := by
  induction ls with
  | nil => exact absurd rfl hne
  | cons l ls ih =>
    cases ls with
    | nil =>
      rw [joinLines]
      exact fileLines_of_no_newline l (h l (List.mem_cons_self _ _))
    | cons l' ls' =>
      rw [joinLines, fileLines_append_newline,
        fileLines_of_no_newline l (h l (List.mem_cons_self _ _)),
        ih (by simp) (fun x hx => h x (List.mem_cons_of_mem _ hx))]
      rfl

theorem linesWithin_subset (n : Nat) (ls : List (List Nat)) :
    ∀ l ∈ linesWithin n ls, l ∈ ls := by
  induction ls generalizing n with
  | nil => simp [linesWithin]
  | cons a as ih =>
    intro l hl
    rw [linesWithin] at hl
    split at hl
    · rcases List.mem_cons.1 hl with h | h
      · rw [h]; exact List.mem_cons_self _ _
      · split at h
        · exact List.mem_cons_of_mem _ (ih _ l h)
        · cases h
    · cases hl

theorem joinLines_cons_length_le (l : List Nat) (ls : List (List Nat)) :
    (joinLines (l :: ls)).length ≤ l.length + 1 + (joinLines ls).length := by
  cases ls with
  | nil => simp [joinLines]
  | cons a as =>
    rw [joinLines]
    simp only [List.length_append, List.length_cons]
    omega

theorem joinLines_linesWithin_length (n : Nat) (ls : List (List Nat)) :
    (joinLines (linesWithin n ls)).length ≤ n := by
  induction ls generalizing n with
  | nil => simp [linesWithin, joinLines]
  | cons a as ih =>
    rw [linesWithin]
    split
    · split
      · have h1 := joinLines_cons_length_le a (linesWithin (n - a.length - 1) as)
        have h2 := ih (n - a.length - 1)
        omega
      · simpa [joinLines] using ‹a.length ≤ n›
    · simp [joinLines]

/-- The lines of the first `n` bytes of a text are the lines that lie completely
within those bytes, followed, when the cut falls inside a line, by the part of
that line before the cut; when such a part changes nothing, the first `n` bytes
give the colour table of the complete lines. -/
theorem foldl_take_eq_linesWithin (ls : List (List Nat)) (n : Nat) (c : Colors)
    (hnl : ∀ l ∈ ls, ∀ x ∈ l, x ≠ 10)
    (hsafe : ∀ l ∈ ls, l.length ≤ 255 ∧ ∀ m < l.length, ∀ c, applyConfigLine (l.take m) c = c) :
    (fileLines ((joinLines ls).take n)).foldl (fun acc l => applyConfigLine (l.take 255) acc) c
      = (linesWithin n ls).foldl (fun acc l => applyConfigLine (l.take 255) acc) c := by
  induction ls generalizing n c with
  | nil => simp [joinLines, fileLines, linesWithin, applyConfigLine_nil]
  | cons l ls ih =>
    have hl := hnl l (List.mem_cons_self _ _)
    obtain ⟨hl255, hlsafe⟩ := hsafe l (List.mem_cons_self _ _)
    have hcut : ∀ m, m ≤ l.length →
        (fileLines (l.take m)).foldl (fun acc l => applyConfigLine (l.take 255) acc) c
          = (if l.length ≤ m then [l] else []).foldl
              (fun acc l => applyConfigLine (l.take 255) acc) c := by
      intro m hm
      rw [fileLines_of_no_newline _ (fun x hx => hl x (List.mem_of_mem_take hx))]
      split
      · rw [List.take_of_length_le (by omega)]
      · simp only [List.foldl_cons, List.foldl_nil]
        rw [List.take_of_length_le (by rw [List.length_take]; omega)]
        exact hlsafe m (by omega) c
    by_cases hn : n ≤ l.length
    · have htake : (joinLines (l :: ls)).take n = l.take n := by
        cases ls with
        | nil => rw [joinLines]
        | cons l' ls' => rw [joinLines, List.take_append_of_le_length hn]
      rw [htake, hcut n hn, linesWithin]
      by_cases hln : l.length ≤ n
      · rw [if_pos hln, if_pos hln, if_neg (by omega)]
      · rw [if_neg hln, if_neg hln]
    · have hlt : l.length < n := by omega
      rw [linesWithin, if_pos (by omega), if_pos hlt]
      cases ls with
      | nil =>
        rw [joinLines, List.take_of_length_le (by omega), fileLines_of_no_newline l hl]
        simp [linesWithin]
      | cons l' ls' =>
        have hn' : n = l.length + ((n - l.length - 1) + 1) := by omega
        rw [joinLines]
        conv_lhs => rw [hn', List.take_append, List.take_succ_cons]
        rw [fileLines_append_newline, fileLines_of_no_newline l hl, List.singleton_append,
          List.foldl_cons, List.foldl_cons]
        exact ih _ _ (fun x hx => hnl x (List.mem_cons_of_mem _ hx))
          (fun x hx => hsafe x (List.mem_cons_of_mem _ hx))

/-- The colour table loaded from the first `n` bytes of a file, when the part of
a line before a cut changes nothing. -/
theorem loadThemeConfig_take_colors (F : List Nat) (n : Nat) (s : ThemeState) (hn : n ≤ 1023)
    (hsafe : ∀ l ∈ fileLines F,
      l.length ≤ 255 ∧ ∀ m < l.length, ∀ c, applyConfigLine (l.take m) c = c) :
    (loadThemeConfig (some (FS.withFile (F.take n))) s).colors
      = (loadThemeConfig (some (FS.withFile (joinLines (linesWithin n (fileLines F))))) s).colors := by
  have hnl := fileLines_no_newline F
  rw [loadThemeConfig_withFile_colors, loadThemeConfig_withFile_colors,
    List.take_of_length_le (by rw [List.length_take]; omega),
    List.take_of_length_le (le_trans (joinLines_linesWithin_length n _) hn)]
  conv_lhs => rw [← joinLines_fileLines F]
  rw [foldl_take_eq_linesWithin _ n _ hnl hsafe]
  by_cases hlw : linesWithin n (fileLines F) = []
  · rw [hlw]
    simp [joinLines, fileLines, applyConfigLine_nil]
  · rw [fileLines_joinLines _ hlw (fun l hl => hnl l (linesWithin_subset _ _ l hl))]

theorem exactLine_safe {l : List Nat} (h : ExactLine l ∨ l = []) :
    l.length ≤ 255 ∧ ∀ m < l.length, ∀ c, applyConfigLine (l.take m) c = c := by
  rcases h with h | h
  · exact ⟨h.length_le, fun m hm c => applyConfigLine_exact_prefix h m hm c⟩
  · subst h
    exact ⟨by simp, fun m hm => absurd hm (by simp)⟩

theorem exactConfig_lines : ∀ l ∈ fileLines exactConfig, ExactLine l ∨ l = [] := by
  have hl : fileLines exactConfig
      = [bytes "accent=00FF00", bytes "icon=112233", bytes "accent=ABCDEF"] := by decide
  intro l hl'
  rw [hl] at hl'
  simp only [List.mem_cons, List.mem_singleton, List.not_mem_nil, or_false] at hl'
  rcases hl' with rfl | rfl | rfl
  · exact Or.inl ⟨.accent, bytes "00FF00", rfl, rfl, by decide⟩
  · exact Or.inl ⟨.icon, bytes "112233", rfl, rfl, by decide⟩
  · exact Or.inl ⟨.accent, bytes "ABCDEF", rfl, rfl, by decide⟩

/-- C27. Let every line of a file be of the exact form
`<role name>=<six hex digits>` (or empty, as the line after a final `\n` is).
For every `n` up to 1023, loading the first `n` bytes of the file gives the
colour table that loading the lines lying completely within those bytes gives:
the part of a line before the cut is not applied.  In particular the load of
the file itself, which reads its first 1023 bytes, gives the colour table of
the lines that lie completely within them. -/
theorem C27_cut_line_not_applied (F : List Nat) (n : Nat) (s : ThemeState) (hn : n ≤ 1023)
    (hF : ∀ l ∈ fileLines F, ExactLine l ∨ l = []) :
    (loadThemeConfig (some (FS.withFile (F.take n))) s).colors
        = (loadThemeConfig (some (FS.withFile (joinLines (linesWithin n (fileLines F))))) s).colors
      ∧ (loadThemeConfig (some (FS.withFile F)) s).colors
        = (loadThemeConfig (some (FS.withFile (joinLines (linesWithin 1023 (fileLines F))))) s).colors := by
  have hsafe := fun l hl => exactLine_safe (hF l hl)
  refine ⟨loadThemeConfig_take_colors F n s hn hsafe, ?_⟩
  rw [← loadThemeConfig_take_colors F 1023 s (le_refl _) hsafe,
    loadThemeConfig_withFile_colors, loadThemeConfig_withFile_colors, List.take_take]
  simp

/-- Witness of C27 on the first 20 bytes of `exactConfig`, which end inside the
second line, after `icon=1`: only the first line lies completely within them,
and `icon` keeps its default. -/
theorem C27_cut_line_not_applied_witness :
    exactConfig.take 20 = bytes ("accent=00FF00\nicon=1")
      ∧ linesWithin 20 (fileLines exactConfig) = [bytes ("accent=00FF00")]
      ∧ (loadThemeConfig (some (FS.withFile (exactConfig.take 20))) (ThemeState.initial none)).colors
          = { Colors.defaults with accent := LV_COLOR_MAKE 0 255 0 }
      ∧ ((loadThemeConfig (some (FS.withFile (exactConfig.take 20)))
            (ThemeState.initial none)).colors
          = (loadThemeConfig
              (some (FS.withFile (joinLines (linesWithin 20 (fileLines exactConfig)))))
              (ThemeState.initial none)).colors
        ∧ (loadThemeConfig (some (FS.withFile exactConfig)) (ThemeState.initial none)).colors
          = (loadThemeConfig
              (some (FS.withFile (joinLines (linesWithin 1023 (fileLines exactConfig)))))
              (ThemeState.initial none)).colors) :=
  ⟨by decide, by decide, by decide,
    C27_cut_line_not_applied exactConfig 20 (ThemeState.initial none) (by decide)
      exactConfig_lines⟩

theorem skipBlanks_append_cr (l : List Nat) : skipBlanks (l ++ [13]) = skipBlanks l ++ [13] := by
  induction l with
  | nil => simp [skipBlanks]
  | cons c cs ih =>
    rw [List.cons_append, skipBlanks, skipBlanks]
    split
    · exact ih
    · rfl

theorem valueLoop_append_cr (n : Nat) (l value : List Nat) :
    valueLoop n (l ++ [13]) value = valueLoop n l value := by
  induction l generalizing value with
  | nil => simp [valueLoop]
  | cons c cs ih =>
    rw [List.cons_append, valueLoop, valueLoop]
    split
    · exact ih _
    · rfl

/-- The key loop on a line followed by `\r`: it stops where it stops without
the `\r`, or it runs to the end of the line and does not stop at a `=`. -/
theorem keyLoop_append_cr (m : Nat) (l key : List Nat) :
    ((keyLoop m l key).2 ≠ []
        ∧ keyLoop m (l ++ [13]) key = ((keyLoop m l key).1, (keyLoop m l key).2 ++ [13]))
      ∨ ((keyLoop m l key).2 = [] ∧ peek (keyLoop m (l ++ [13]) key).2 ≠ 61) := by
  induction l generalizing key with
  | nil =>
    right
    refine ⟨rfl, ?_⟩
    rw [List.nil_append, keyLoop_cons]
    split
    · simp [keyLoop, peek]
    · simp [peek]
  | cons c cs ih =>
    rw [List.cons_append, keyLoop_cons, keyLoop_cons]
    split
    · exact ih _
    · left
      exact ⟨by simp, rfl⟩

/-- A `\r` at the end of a line does not change what `parseLine` returns. -/
theorem parseLine_append_cr (l : List Nat) (m n : Nat) :
    parseLine (l ++ [13]) m n = parseLine l m n := by
  unfold parseLine
  simp only
  rw [skipBlanks_append_cr]
  cases hS : skipBlanks l with
  | nil => simp [peek]
  | cons x xs =>
    have hpk : peek (x :: xs ++ [13]) = peek (x :: xs) := rfl
    rw [hpk]
    split
    · rfl
    · rcases keyLoop_append_cr m (x :: xs) [] with ⟨hne, hk⟩ | ⟨hnil, hk⟩
      · rw [hk]
        simp only
        cases hr : (keyLoop m (x :: xs) []).2 with
        | nil => exact absurd hr hne
        | cons y ys =>
          have hpk2 : peek (y :: ys ++ [13]) = peek (y :: ys) := rfl
          rw [hpk2]
          split
          · rfl
          · have hd : (y :: ys ++ [13]).drop 1 = (y :: ys).drop 1 ++ [13] := rfl
            rw [hd, skipBlanks_append_cr, valueLoop_append_cr]
      · rw [if_pos (Or.inl hk), hnil]
        simp [peek]

theorem applyConfigLine_append_cr (l : List Nat) (c : Colors) :
    applyConfigLine ((l ++ [13]).take 255) c = applyConfigLine (l.take 255) c := by
  by_cases h : 255 ≤ l.length
  · rw [List.take_append_of_le_length h]
  · rw [List.take_of_length_le (by simp; omega), List.take_of_length_le (by omega)]
    unfold applyConfigLine
    rw [parseLine_append_cr]

theorem fileLines_crlf (F : List Nat) : fileLines (crlf F) = withCR (fileLines F) := by
  induction F with
  | nil => rfl
  | cons c cs ih =>
    have hne := fileLines_ne_nil cs
    rw [crlf]
    split
    · rename_i hc
      subst hc
      have h13 : fileLines (13 :: 10 :: crlf cs) = [13] :: fileLines (crlf cs) := by
        rw [fileLines_cons, if_neg (by decide), fileLines_cons, if_pos rfl]
        rfl
      rw [h13, ih, fileLines_cons, if_pos rfl]
      cases hfl : fileLines cs with
      | nil => exact absurd hfl hne
      | cons a as => rfl
    · rename_i hc
      rw [fileLines_cons, if_neg hc, fileLines_cons, if_neg hc, ih]
      cases hfl : fileLines cs with
      | nil => exact absurd hfl hne
      | cons a as =>
        cases as with
        | nil => rfl
        | cons b bs => rfl

theorem foldl_withCR (ls : List (List Nat)) (c : Colors) :
    (withCR ls).foldl (fun acc l => applyConfigLine (l.take 255) acc) c
      = ls.foldl (fun acc l => applyConfigLine (l.take 255) acc) c := by
  induction ls generalizing c with
  | nil => rfl
  | cons l ls ih =>
    cases ls with
    | nil => rfl
    | cons l' ls' =>
      rw [withCR, List.foldl_cons, List.foldl_cons, applyConfigLine_append_cr]
      exact ih _

theorem length_le_crlf (F : List Nat) : F.length ≤ (crlf F).length := by
  induction F with
  | nil => simp
  | cons c cs ih =>
    rw [crlf]
    split <;> simp only [List.length_cons] <;> omega

/-- C28. For every file content `F` whose CRLF variant is at most 1023 bytes
long, `loadThemeConfig` on the CRLF variant produces the colour table that it
produces on `F`, from every initial colour table.  This holds in particular for
`F` without carriage returns and with lines of at most 254 bytes; neither
restriction is used. -/
theorem C28_crlf_same_colors (F : List Nat) (s : ThemeState) (hF : (crlf F).length ≤ 1023) :
    (loadThemeConfig (some (FS.withFile (crlf F))) s).colors
      = (loadThemeConfig (some (FS.withFile F)) s).colors := by
  rw [loadThemeConfig_withFile_colors, loadThemeConfig_withFile_colors,
    List.take_of_length_le hF, List.take_of_length_le (le_trans (length_le_crlf F) hF),
    fileLines_crlf, foldl_withCR]

/-- Witness of C28 on `sampleConfig`. -/
theorem C28_crlf_same_colors_witness :
    crlf sampleConfig = bytes ("accent=00FF00\r\nhighlight=GGHHII\r\naccent=112233\r\n")
      ∧ 13 ∉ sampleConfig
      ∧ (∀ l ∈ fileLines sampleConfig, l.length ≤ 254)
      ∧ (loadThemeConfig (some (FS.withFile (crlf sampleConfig))) (ThemeState.initial none)).colors
          = { Colors.defaults with accent := LV_COLOR_MAKE 0x11 0x22 0x33 }
      ∧ (loadThemeConfig (some (FS.withFile (crlf sampleConfig))) (ThemeState.initial none)).colors
          = (loadThemeConfig (some (FS.withFile sampleConfig)) (ThemeState.initial none)).colors :=
  ⟨by decide, by decide, by decide, by decide,
    C28_crlf_same_colors sampleConfig (ThemeState.initial none) (by decide)⟩

end InfiniTimeTheme
